import Mathlib

set_option maxRecDepth 200000

/-!
# Verification of the graph-visage-path algorithmic core

Shallow embedding of the repository's algorithmic core:
* `src/lib/dijkstra.ts` — single-pair shortest path (`dijkstra`) and
  all-pairs shortest path (`floyd`),
* `src/lib/routing.ts` — routing-table construction and the
  route-selection strategies,
* the packet-tick state machine of `src/components/IncidenceMatrix.tsx`
  (`PacketRouting`'s animation interval body).

JavaScript `number`s are idealized as exact rationals (`ℚ`).  A JS
`Record<string, number>` lookup can yield `undefined` (missing key), a
finite number, or `Infinity`; the three-valued type `JNum` models this,
with the JS comparison semantics (`undefined` behaves like `NaN`: every
`<` comparison involving it is false).  Loops whose termination is not
structural are given an explicit fuel parameter; `none` results model
JS non-termination, and sufficiency lemmas discharge the fuel wherever
the original program terminates.
-/

/-- JS value read from a `Record<string, number>`: a missing key
(`undefined`), `Infinity`, or a finite number. -/
inductive JNum where
  | undef : JNum
  | inf : JNum
  | val : ℚ → JNum
deriving DecidableEq, Repr

/-- JS `<` on such values. `undefined` propagates as `NaN`, and every
comparison with `NaN` is false; `x < Infinity` holds for finite `x`. -/
def jlt : JNum → JNum → Bool
  | JNum.val a, JNum.val b => decide (a < b)
  | JNum.val _, JNum.inf => true
  | _, _ => false

/-- JS `x + w` for `x` a stored distance and `w` a finite edge weight
(`undefined + w` is `NaN`, which `jlt` then rejects). -/
def jadd : JNum → ℚ → JNum
  | JNum.val a, w => JNum.val (a + w)
  | JNum.inf, _ => JNum.inf
  | JNum.undef, _ => JNum.undef

/-- The finite value of a `JNum` (0 otherwise; only read on branches
where the source has established finiteness). -/
def jval : JNum → ℚ
  | JNum.val q => q
  | _ => 0

/-- JS value read from a `Record<string, string | null>`. -/
inductive JPrev where
  | undef : JPrev
  | null : JPrev
  | str : String → JPrev
deriving DecidableEq, Repr

/-- JS property-key coercion for `previous[current]`: a string is its
own key, `undefined` is coerced to the key `"undefined"`. -/
def keyOf : JPrev → String
  | JPrev.str s => s
  | JPrev.undef => "undefined"
  | JPrev.null => "null"

/-- `src/types/graph.ts` `Node` (positions kept as rationals). -/
structure Node where
  id : String
  x : ℚ
  y : ℚ
  label : String
deriving DecidableEq, Repr

/-- `src/types/graph.ts` `Edge`. -/
structure Edge where
  id : String
  source : String
  target : String
  weight : ℚ
deriving DecidableEq, Repr

/-- `src/types/graph.ts` `Graph`. -/
structure Graph where
  nodes : List Node
  edges : List Edge
deriving DecidableEq, Repr

/-- `src/types/graph.ts` `PathResult`. -/
structure PathResult where
  found : Bool
  distance : ℚ
  path : List String
deriving DecidableEq, Repr

/-- Pointwise update of a string-keyed map (JS `m[k] = v`). -/
def setKey {α : Type} (f : String → α) (k : String) (v : α) : String → α :=
  fun x => if x = k then v else f x

/-- `graph.nodes.map(n => n.id)`. -/
def nodeIds (g : Graph) : List String := g.nodes.map (fun n => n.id)

/-- The scan `for (const nodeId of unvisited) if (distances[nodeId] < minDistance) ...`
of `dijkstra` (src/lib/dijkstra.ts:16-25): first strict minimum in
iteration order, starting from `currentNode = null`, `minDistance = Infinity`. -/
def findMin (dist : String → JNum) (u : List String) : Option String :=
  (u.foldl (fun acc n => if jlt (dist n) acc.2 then (some n, dist n) else acc)
    ((none : Option String), JNum.inf)).1

/-- One relaxation round of `dijkstra` (src/lib/dijkstra.ts:37-53): all
edges with `source == c` relax their targets, but only targets still in
the (already `c`-deleted) unvisited set. -/
def relaxEdges (g : Graph) (c : String) (u : List String)
    (dp : (String → JNum) × (String → JPrev)) : (String → JNum) × (String → JPrev) :=
  (g.edges.filter (fun e => e.source = c)).foldl
    (fun dp e =>
      if e.target ∈ u then
        let nd := jadd (dp.1 c) e.weight
        if jlt nd (dp.1 e.target) then
          (setKey dp.1 e.target nd, setKey dp.2 e.target (JPrev.str c))
        else dp
      else dp) dp

/-- The main `while (unvisited.size > 0)` loop of `dijkstra`
(src/lib/dijkstra.ts:15-54).  Each iteration deletes the selected node
from the unvisited list, so `fuel = unvisited.length` runs the loop to
its genuine JS exit: the `fuel = 0` row coincides with the
`unvisited.size > 0` exit, and the `findMin = none` row with the
`!currentNode` break.  `c = ""` is falsy in JS, so an empty-string node
id also triggers the `!currentNode` break. -/
def dijkstraLoop (g : Graph) (endId : String) :
    Nat → List String → (String → JNum) → (String → JPrev) →
    (String → JNum) × (String → JPrev)
  | 0, _, dist, prev => (dist, prev)
  | fuel + 1, u, dist, prev =>
    match findMin dist u with
    | none => (dist, prev)
    | some c =>
      if c = "" then (dist, prev)
      else if dist c = JNum.inf then (dist, prev)
      else if c = endId then (dist, prev)
      else dijkstraLoop g endId fuel (u.erase c) (relaxEdges g c (u.erase c) (dist, prev)).1
        (relaxEdges g c (u.erase c) (dist, prev)).2

/-- The path-reconstruction loop `while (current !== null)`
(src/lib/dijkstra.ts:64-67).  `none` models fuel exhaustion: the JS
loop does not terminate when the chain never reaches `null` (following
`previous[undefined]`, i.e. the key `"undefined"`, forever). -/
def reconstructLoop (prev : String → JPrev) : Nat → JPrev → List String → Option (List String)
  | 0, cur, acc => if cur = JPrev.null then some acc else none
  | fuel + 1, cur, acc =>
    match cur with
    | JPrev.null => some acc
    | c => reconstructLoop prev fuel (prev (keyOf c)) (keyOf c :: acc)

/-- `new Set(l)` as an insertion-ordered list: keeps the first
occurrence of each element. -/
def jsSetOf (l : List String) : List String :=
  l.foldl (fun acc x => if x ∈ acc then acc else acc ++ [x]) []

/-- `dijkstra` (src/lib/dijkstra.ts:3-74) with explicit reconstruction
fuel.  The main loop needs no fuel beyond `unvisited.length` (each
iteration deletes one member), so only the reconstruction fuel is a
parameter. -/
def dijkstraFuel (g : Graph) (startId endId : String) (rfuel : Nat) : Option PathResult :=
  let ids := nodeIds g
  let dist0 := ids.foldl (fun d n => setKey d n (if n = startId then JNum.val 0 else JNum.inf))
    (fun _ => JNum.undef)
  let prev0 := ids.foldl (fun p n => setKey p n JPrev.null) (fun _ => JPrev.undef)
  let u0 := jsSetOf ids
  let dp := dijkstraLoop g endId u0.length u0 dist0 prev0
  if dp.1 endId = JNum.inf then some { found := false, distance := 0, path := [] }
  else
    match reconstructLoop dp.2 rfuel (JPrev.str endId) [] with
    | none => none
    | some p => some { found := true, distance := jval (dp.1 endId), path := p }

/-- `dijkstra` with reconstruction fuel `nodes.length + 1`, which the
termination theorems prove sufficient whenever the JS loop terminates. -/
def dijkstra (g : Graph) (s t : String) : Option PathResult :=
  dijkstraFuel g s t (g.nodes.length + 1)

/-! ## Directed chains (the mathematical side of the claims) -/

/-- `isChain g a es b`: the edge list `es` forms a directed walk from
`a` to `b` using edges of `g`. -/
def isChain (g : Graph) : String → List Edge → String → Bool
  | a, [], b => a = b
  | a, e :: es, b => e ∈ g.edges && e.source = a && isChain g e.target es b

/-- Total weight of an edge list. -/
def wsum (es : List Edge) : ℚ := (es.map (fun e => e.weight)).sum

/-- Node sequence of a walk starting at `a`. -/
def nodeSeq (a : String) (es : List Edge) : List String :=
  a :: es.map (fun e => e.target)

/-- A directed path from `a` to `b` exists in `g`. -/
def Reach (g : Graph) (a b : String) : Prop := ∃ es, isChain g a es b = true

/-- All edge weights positive (the spec's `positive real weight`). -/
def PosW (g : Graph) : Prop := ∀ e ∈ g.edges, 0 < e.weight

/-- Edges reference existing nodes (spec §7 calls other inputs malformed). -/
def WFE (g : Graph) : Prop :=
  ∀ e ∈ g.edges, e.source ∈ nodeIds g ∧ e.target ∈ nodeIds g

/-- No node uses the empty string as id (an empty id is falsy in JS and
trips `dijkstra`'s `!currentNode` break). -/
def NEI (g : Graph) : Prop := ∀ n ∈ nodeIds g, n ≠ ""

/-! ## Floyd-Warshall (`floyd`, src/lib/dijkstra.ts:87-164)

Only the `distances` matrix is embedded: the `next` matrix and the
`pairs` reconstruction do not feed back into `distances`, and no claim
refers to them. -/

/-- JS `x + y` for two stored distances (`undefined` propagates as `NaN`). -/
def jaddN : JNum → JNum → JNum
  | JNum.val a, JNum.val b => JNum.val (a + b)
  | JNum.undef, _ => JNum.undef
  | _, JNum.undef => JNum.undef
  | _, _ => JNum.inf

/-- Update one cell of a nested string-keyed matrix. -/
def setCell (D : String → String → JNum) (i j : String) (v : JNum) : String → String → JNum :=
  setKey D i (setKey (D i) j v)

/-- The initialization phase of `floyd` (src/lib/dijkstra.ts:92-111):
`distance[i][i] = 0`, `distance[i][j] = Infinity` for `i ≠ j`, then
every edge overwrites `distance[source][target]` with its weight — the
last edge in list order wins.  (In JS an edge whose source is not a
node id throws, since its row object does not exist; the model writes
into a ghost row, and the theorems about `floydInit` assume edge
sources are node ids.) -/
def floydInit (g : Graph) : String → String → JNum :=
  let ids := nodeIds g
  let base := ids.foldl
    (fun D i => setKey D i
      (ids.foldl (fun row j => setKey row j (if i = j then JNum.val 0 else JNum.inf))
        (fun _ => JNum.undef)))
    (fun _ _ => JNum.undef)
  g.edges.foldl (fun D e => setCell D e.source e.target (JNum.val e.weight)) base

/-- The triple relaxation loop of `floyd` (src/lib/dijkstra.ts:113-123),
updating the matrix in place in `k`, `i`, `j` order. -/
def floydRelax (g : Graph) (D0 : String → String → JNum) : String → String → JNum :=
  let ids := nodeIds g
  ids.foldl
    (fun Dk k => ids.foldl
      (fun Di i => ids.foldl
        (fun D j =>
          if jlt (jaddN (D i k) (D k j)) (D i j) then setCell D i j (jaddN (D i k) (D k j))
          else D)
        Di)
      Dk)
    D0

/-- The `distances` matrix computed by `floyd`. -/
def floyd (g : Graph) : String → String → JNum := floydRelax g (floydInit g)

/-! ## Routing (`src/lib/routing.ts`) -/

/-- `src/types/graph.ts` `RoutingTableEntry`. -/
structure RoutingTableEntry where
  destination : String
  nextHop : String
  distance : ℚ
deriving DecidableEq, Repr

/-- A `RoutingTable` as an insertion-ordered association list (a JS
object keyed by node id; `buildRoutingTables` writes each distinct id
once, so first-match lookup agrees with the JS object). -/
abbrev RTable := List (String × List RoutingTableEntry)

/-- `routingTable[currentNodeId]` (`undefined`, i.e. `none`, when the
key is absent). -/
def rtFind (rt : RTable) (k : String) : Option (List RoutingTableEntry) :=
  (rt.find? (fun p => p.1 = k)).map Prod.snd

/-- `buildRoutingTables` (src/lib/routing.ts:7-32).  The `none` arm of
the inner match models the impossible case that `dijkstra` diverges: it
cannot, because every destination id is a node id. -/
def buildRoutingTables (g : Graph) : RTable :=
  g.nodes.map (fun sn =>
    (sn.id,
      (g.nodes.filter (fun dn => dn.id ≠ sn.id)).filterMap (fun dn =>
        match dijkstra g sn.id dn.id with
        | some r =>
          if r.found && decide (r.path.length > 1) then
            some { destination := dn.id, nextHop := r.path.getD 1 "", distance := r.distance }
          else none
        | none => none)))

/-- `findFixedRoute` (src/lib/routing.ts:143-151): the Dijkstra path,
or `[]` when not found.  The `none` arm again models divergence of
`dijkstra` (possible only when the destination is not a node id). -/
def findFixedRoute (g : Graph) (sourceId destinationId : String) : List String :=
  match dijkstra g sourceId destinationId with
  | some r => if r.found then r.path else []
  | none => []

/-- `findDatagramRoute` (src/lib/routing.ts:45-72) with explicit fuel;
`none` models fuel exhaustion (the sufficiency theorem shows the
wrapper's fuel never runs out, i.e. the JS recursion terminates). -/
def findDatagramRouteFuel (rt : RTable) (destinationId : String) :
    Nat → String → List String → Option (List String)
  | 0, _, _ => none
  | fuel + 1, cur, visited =>
    if cur = destinationId then some [cur]
    else if cur ∈ visited then some []
    else
      match rtFind rt cur with
      | none => some []
      | some entries =>
        match entries.find? (fun e => e.destination = destinationId) with
        | none => some []
        | some entry =>
          match findDatagramRouteFuel rt destinationId fuel entry.nextHop (cur :: visited) with
          | none => none
          | some nextRoute => if nextRoute = [] then some [] else some (cur :: nextRoute)

/-- `findDatagramRoute` called as JS does, with an empty visited set. -/
def findDatagramRoute (rt : RTable) (currentNodeId destinationId : String) : List String :=
  (findDatagramRouteFuel rt destinationId (rt.length + 1) currentNodeId []).getD []

/-- `findAdaptiveRoute` (src/lib/routing.ts:154-162). -/
def findAdaptiveRoute (g : Graph) (rt : RTable) (sourceId destinationId : String) : List String :=
  findDatagramRoute rt sourceId destinationId

/-- `findExperienceRoute` (src/lib/routing.ts:165-171). -/
def findExperienceRoute (rt : RTable) (sourceId destinationId : String) : List String :=
  findDatagramRoute rt sourceId destinationId

/-- The neighbor list used by `findRandomRoute` and by flooding:
undirected adjacency, filtered by the visited set. -/
def jsNeighbors (g : Graph) (c : String) (visited : List String) : List String :=
  ((g.edges.filter (fun e => e.source = c || e.target = c)).map
    (fun e => if e.source = c then e.target else e.source)).filter (fun n => ¬ n ∈ visited)

/-- `findRandomRoute` (src/lib/routing.ts:75-105) with explicit fuel.
`Math.floor(Math.random() * len)` is modeled by consuming one natural
from `rands` per step and reducing it modulo the neighbor count, which
ranges over exactly the indices JS can draw. -/
def findRandomRouteFuel (g : Graph) (destinationId : String) :
    Nat → List ℕ → String → List String → Option (List String)
  | 0, _, _, _ => none
  | fuel + 1, rands, cur, visited =>
    if cur = destinationId then some [cur]
    else if cur ∈ visited then some []
    else
      let visited' := cur :: visited
      let neighbors := jsNeighbors g cur visited'
      if neighbors = [] then some []
      else
        let nb := neighbors.getD (rands.headD 0 % neighbors.length) ""
        match findRandomRouteFuel g destinationId fuel rands.tail nb visited' with
        | none => none
        | some nextRoute => if nextRoute = [] then some [] else some (cur :: nextRoute)

/-- All strings occurring as an edge endpoint (every hop of a random
walk after the first lies in this list). -/
def endpointsList (g : Graph) : List String :=
  g.edges.map (fun e => e.source) ++ g.edges.map (fun e => e.target)

/-- `findRandomRoute` called as JS does, with an empty visited set. -/
def findRandomRoute (g : Graph) (currentNodeId destinationId : String) (rands : List ℕ) :
    List String :=
  (findRandomRouteFuel g destinationId (2 * g.edges.length + 2) rands currentNodeId []).getD []

/-- The recursive `flood` helper of `findFloodingRoutes`
(src/lib/routing.ts:116-136).  The fuel is `maxHops - hops`, which
decreases structurally; `currentPath` is nonempty at every call, so
`getLast?.getD ""` is exactly `currentPath[currentPath.length - 1]`. -/
def flood (g : Graph) (destinationId : String) :
    Nat → List String → List String → List (List String)
  | fuel, currentPath, visited =>
    let currentNode := currentPath.getLast?.getD ""
    if currentNode = destinationId then [currentPath]
    else
      match fuel with
      | 0 => []
      | fuel + 1 =>
        (jsNeighbors g currentNode visited).foldl
          (fun acc nb => acc ++ flood g destinationId fuel (currentPath ++ [nb]) (nb :: visited))
          []

/-- `findFloodingRoutes` (src/lib/routing.ts:108-140). -/
def findFloodingRoutes (g : Graph) (sourceId destinationId : String) (maxHops : Nat) :
    List (List String) :=
  flood g destinationId maxHops [sourceId] [sourceId]

/-! ## The packet tick state machine
(`PacketRouting`'s animation interval, src/components/IncidenceMatrix.tsx:851-927) -/

/-- Packet status. -/
inductive PStatus where
  | waiting : PStatus
  | transmitting : PStatus
  | delivered : PStatus
deriving DecidableEq, Repr

/-- `src/types/graph.ts` `Packet`. -/
structure Packet where
  id : String
  number : ℕ
  sourceId : String
  destinationId : String
  size : ℚ
  currentNodeId : String
  route : List String
  routeIndex : ℕ
  status : PStatus
  color : String
  progress : ℚ
  startTime : ℚ
  endTime : Option ℚ
deriving DecidableEq, Repr

/-- `src/types/graph.ts` `TransmissionRecord`; the display-only fields
(`path` as a label-joined string, `duration` as a formatted string) are
kept as the underlying data. -/
structure TransmissionRecord where
  packetNumber : ℕ
  path : List String
  size : ℚ
  startTime : ℚ
  endTime : ℚ
deriving DecidableEq, Repr

/-- Fuel-driven binary logarithm (structural recursion, so that it
reduces without well-founded fixpoints). -/
def natLog2F : ℕ → ℕ → ℕ
  | 0, _ => 0
  | fuel + 1, n => if 2 ≤ n then natLog2F fuel (n / 2) + 1 else 0

/-- `⌊log₂ n⌋` for `n ≥ 1` (0 at 0): `n` halving steps are always
enough fuel. -/
def natLog2 (n : ℕ) : ℕ := natLog2F n n

/-- Round the nonnegative fraction `num / den` to the nearest integer,
ties to even (the IEEE 754 default rounding), in integer arithmetic. -/
def roundEvenFrac (num den : ℕ) : ℕ :=
  let q := num / den
  let r := num % den
  if 2 * r < den then q
  else if den < 2 * r then q + 1
  else if q % 2 = 0 then q else q + 1

/-- The binade exponent of the positive fraction `n / b` (`n, b ≥ 1`):
the unique `e` with `2 ^ e ≤ n / b < 2 ^ (e + 1)`. -/
def exp2Frac (n b : ℕ) : ℤ :=
  let c : ℤ := (natLog2 n : ℤ) - (natLog2 b : ℤ)
  if 0 ≤ c then (if n < 2 ^ c.toNat * b then c - 1 else c)
  else (if n * 2 ^ (-c).toNat < b then c - 1 else c)

/-- Binary64 rounding of the fraction `a / b`: the IEEE 754 double
nearest it (round to nearest, ties to even, 53-bit significand), for
values in the normal range — subnormal underflow and overflow are not
modeled, as every value the tick arithmetic produces lies well inside
the normal range.  The significand is rounded at the scale `2 ^ (e -
52)` fixed by the binade exponent `e`, all on the integer numerator and
denominator. -/
def fl64Frac (a : ℤ) (b : ℕ) : ℚ :=
  if a = 0 ∨ b = 0 then 0
  else
    let n := a.natAbs
    let e := exp2Frac n b
    let num2 := if e ≤ 52 then n * 2 ^ (52 - e).toNat else n
    let den2 := if e ≤ 52 then b else b * 2 ^ (e - 52).toNat
    let nn : ℤ := roundEvenFrac num2 den2
    let sn := if a < 0 then -nn else nn
    if 52 ≤ e then mkRat (sn * 2 ^ (e - 52).toNat) 1 else mkRat sn (2 ^ (52 - e).toNat)

/-- Binary64 rounding of a rational. -/
def fl64 (q : ℚ) : ℚ := fl64Frac q.num q.den

/-- JS `packet.progress + 0.1` on IEEE doubles: the exact sum of the
stored progress and the double denoted by the literal `0.1` (the
representable double nearest 1/10, namely 3602879701896397 / 2^55),
rounded back to binary64. -/
def jsAddTenth (p : ℚ) : ℚ :=
  fl64Frac (p.num * 36028797018963968 + 3602879701896397 * (p.den : ℤ))
    (p.den * 36028797018963968)


/-- The per-packet body of the tick `setPackets` update
(src/components/IncidenceMatrix.tsx:856-898), with `Date.now()` passed
in as `now`.  Returns the updated packet and the `TransmissionRecord`
appended to the history on this tick, if any.  The progress increment
is binary64 addition of the double `0.1`, as in the source. -/
def tickPacket (now : ℚ) (p : Packet) : Packet × Option TransmissionRecord :=
  if p.status = PStatus.delivered then (p, none)
  else if now < p.startTime then (p, none)
  else
    let newProgress := jsAddTenth p.progress
    if 1 ≤ newProgress then
      let nextIndex := p.routeIndex + 1
      if p.route.length ≤ nextIndex then
        ({ p with status := PStatus.delivered, endTime := some now, progress := 1 },
         some { packetNumber := p.number, path := p.route, size := p.size,
                startTime := p.startTime, endTime := now })
      else
        ({ p with currentNodeId := p.route.getD nextIndex "", routeIndex := nextIndex,
                  status := PStatus.transmitting, progress := 0 }, none)
    else
      ({ p with progress := newProgress, status := PStatus.transmitting }, none)

/-- One tick over a whole batch: every packet is updated from the same
pre-tick state, and the records are appended in packet order. -/
def tickBatch (now : ℚ) (ps : List Packet) : List Packet × List TransmissionRecord :=
  (ps.map (fun p => (tickPacket now p).1), ps.filterMap (fun p => (tickPacket now p).2))

/-- Run `n` ticks on a single packet with tick `k` happening at time
`k`; returns the final packet and how many transmission records the
ticks emitted in total. -/
def runTicks (p : Packet) : ℕ → Packet × ℕ
  | 0 => (p, 0)
  | n + 1 =>
    let pr := runTicks p n
    let step := tickPacket ((n + 1 : ℕ) : ℚ) pr.1
    (step.1, pr.2 + (if step.2.isSome then 1 else 0))

/-! ## Concrete inputs used by counterexamples and witnesses -/

/-- The spec §8 scenario graph: A→B(5), B→C(3), A→C(8), C→D(2). -/
def gScenario : Graph :=
  ⟨[⟨"A", 0, 0, "A"⟩, ⟨"B", 0, 0, "B"⟩, ⟨"C", 0, 0, "C"⟩, ⟨"D", 0, 0, "D"⟩],
   [⟨"e1", "A", "B", 5⟩, ⟨"e2", "B", "C", 3⟩, ⟨"e3", "A", "C", 8⟩, ⟨"e4", "C", "D", 2⟩]⟩

/-- The C4 packet: route [A,B,C,D], step 0.1, scheduled start 0 (already
passed at the first tick, which happens at time 1). -/
def pktC4 : Packet :=
  ⟨"p1", 1, "A", "D", 100, "A", ["A", "B", "C", "D"], 0, PStatus.waiting, "red", 0, 0, none⟩

/-- A packet already delivered is returned unchanged and emits nothing. -/
theorem tickPacket_delivered (now : ℚ) (p : Packet) (h : p.status = PStatus.delivered) :
    tickPacket now p = (p, none) := by
  simp [tickPacket, h]

/-- C10: every tick update preserves `id`, `number`, `sourceId`,
`destinationId`, `size`, `route` and `color` (and `startTime`); only
`currentNodeId`, `routeIndex`, `status`, `progress` and `endTime` can
change, and a packet already `delivered` is returned entirely
unchanged. -/
theorem C10_tick_frame (now : ℚ) (p : Packet) :
    ((tickPacket now p).1.id = p.id ∧
     (tickPacket now p).1.number = p.number ∧
     (tickPacket now p).1.sourceId = p.sourceId ∧
     (tickPacket now p).1.destinationId = p.destinationId ∧
     (tickPacket now p).1.size = p.size ∧
     (tickPacket now p).1.route = p.route ∧
     (tickPacket now p).1.color = p.color ∧
     (tickPacket now p).1.startTime = p.startTime) ∧
    (p.status = PStatus.delivered → (tickPacket now p).1 = p) := by
  constructor
  · dsimp only [tickPacket]
    split_ifs <;> simp
  · intro h
    simp [tickPacket, h]

/-- C10 witness: evaluating the frame theorem's delivered case on a
concrete delivered packet. -/
theorem C10_tick_frame_witness :
    (tickPacket 1 { pktC4 with status := PStatus.delivered }).1 =
      { pktC4 with status := PStatus.delivered } :=
  (C10_tick_frame 1 { pktC4 with status := PStatus.delivered }).2 rfl

/-- C4 counterexample: the claim says the C4 packet is `delivered` at
exactly the 30th tick; in fact after 30 ticks it is still
`transmitting` on the third edge (routeIndex 2) and no transmission
record has been emitted — under binary64 arithmetic ten additions of
the double `0.1` stay below 1, so each edge takes 11 ticks. -/
theorem C4_counterexample :
    (runTicks pktC4 30).1.status = PStatus.transmitting ∧
    (runTicks pktC4 30).1.routeIndex = 2 ∧
    (runTicks pktC4 30).2 = 0 := by
  with_unfolding_all decide

/-- C4 amended: under the source's IEEE double arithmetic the packet
becomes `delivered` at exactly the 44th tick, not the 30th: ten
additions of the double `0.1` reach only 0.9999999999999999, so a
segment needs 11 ticks, and the code only delivers after `progress`
crosses 1 with `routeIndex` already at the last node, i.e. after
`route.length` (not `route.length - 1`) full segments; from that tick
on exactly one TransmissionRecord has been emitted for it. -/
theorem C4_amended :
    (runTicks pktC4 43).1.status = PStatus.transmitting ∧
    (∀ m, 44 ≤ m →
      (runTicks pktC4 m).1.status = PStatus.delivered ∧ (runTicks pktC4 m).2 = 1) := by
  constructor
  · with_unfolding_all decide
  · intro m hm
    induction m with
    | zero => omega
    | succ n ih =>
      rcases Nat.lt_or_ge 44 (n + 1) with h | h
      · have hn : 44 ≤ n := by omega
        obtain ⟨h1, h2⟩ := ih hn
        show ((runTicks pktC4 n.succ).1.status = _ ∧ _)
        have : runTicks pktC4 (n + 1) =
            ((runTicks pktC4 n).1, (runTicks pktC4 n).2 + 0) := by
          simp only [runTicks]
          rw [tickPacket_delivered _ _ h1]
          simp
        rw [this]
        exact ⟨h1, by rw [h2]⟩
      · have : n + 1 = 44 := by omega
        rw [this]
        constructor
        · with_unfolding_all decide
        · with_unfolding_all decide

/-- C4 amended witness: the amended theorem evaluated at tick 45. -/
theorem C4_amended_witness :
    (runTicks pktC4 45).1.status = PStatus.delivered ∧ (runTicks pktC4 45).2 = 1 :=
  (C4_amended.2 45 (by omega))

/-! ## C3: the initialization phase of `floyd` -/

/-- Generic evaluation of a fold that writes `f k` at every key `k` of
`l` (the shape of all the JS init loops). -/
theorem foldl_setKey_eval {α : Type} (l : List String) (f : String → α) (m0 : String → α)
    (x : String) :
    (l.foldl (fun m k => setKey m k (f k)) m0) x = if x ∈ l then f x else m0 x := by
  induction l generalizing m0 with
  | nil => simp
  | cons a l ih =>
    simp only [List.foldl_cons, ih, List.mem_cons]
    by_cases hx : x ∈ l
    · simp [hx]
    · by_cases hxa : x = a
      · simp [hx, hxa, setKey]
      · simp [hx, hxa, setKey]

/-- `lastEdgeVal i j es d`: the weight of the *last* edge from `i` to
`j` in the list `es`, as a `JNum`, or the default `d` when no such edge
exists (the overwrite semantics of `floyd`'s edge loop, stated as a
recursion on the edge list). -/
def lastEdgeVal (i j : String) : List Edge → JNum → JNum
  | [], d => d
  | e :: es, d =>
    lastEdgeVal i j es (if e.source = i && e.target = j then JNum.val e.weight else d)

/-- What `floyd`'s initialization actually computes at a node pair:
the weight of the *last* edge from `i` to `j` in edge order if any edge
exists (even a self-loop, which overwrites the 0 diagonal), otherwise
0 on the diagonal and `Infinity` off it. -/
def lastEdgeInit (g : Graph) (i j : String) : JNum :=
  lastEdgeVal i j g.edges (if i = j then JNum.val 0 else JNum.inf)

/-- What the spec's words prescribe for the initialization: 0 on the
diagonal unconditionally, and off the diagonal the *minimum* weight
over all (parallel) edges from `i` to `j`, else `Infinity`. -/
def specFloydInit (g : Graph) (i j : String) : JNum :=
  if i = j then JNum.val 0
  else
    match (g.edges.filter (fun e => e.source = i && e.target = j)).map
        (fun e => e.weight) with
    | [] => JNum.inf
    | w :: ws => JNum.val (ws.foldl min w)

/-- Reading back a `setKey` write. -/
theorem setKey_apply {α : Type} (f : String → α) (k : String) (v : α) (x : String) :
    setKey f k v x = if x = k then v else f x := rfl

/-- Reading back a `setCell` write. -/
theorem setCell_apply (D : String → String → JNum) (a b : String) (v : JNum) (i j : String) :
    setCell D a b v i j = if i = a then (if j = b then v else D a j) else D i j := by
  unfold setCell setKey
  by_cases h : i = a
  · subst h
    simp
  · simp [h]

/-- Evaluating the edge-overwrite fold of `floydInit` at a cell. -/
theorem edgeFold_eval (es : List Edge) (D : String → String → JNum) (i j : String) :
    (es.foldl (fun D e => setCell D e.source e.target (JNum.val e.weight)) D) i j =
      lastEdgeVal i j es (D i j) := by
  induction es generalizing D with
  | nil => rfl
  | cons e es ih =>
    simp only [List.foldl_cons, lastEdgeVal]
    rw [ih]
    congr 1
    rw [setCell_apply]
    by_cases hm : (e.source = i && e.target = j) = true
    · have h12 : e.source = i ∧ e.target = j := by simpa using hm
      rw [if_pos hm, if_pos h12.1.symm, if_pos h12.2.symm]
    · rw [if_neg hm]
      simp only [Bool.and_eq_true, decide_eq_true_eq] at hm
      by_cases h1 : i = e.source
      · have h2 : ¬ j = e.target := fun h2 => hm ⟨h1.symm, h2.symm⟩
        rw [if_pos h1, if_neg h2, h1]
      · rw [if_neg h1]

/-- C3 amended: after `floyd`'s initialization phase, for node ids `i`,
`j` (and edge sources that are node ids — otherwise the JS code throws
on the missing row), `distance[i][j]` is the weight of the **last**
edge from `i` to `j` in edge-list order when one exists (a self-loop
edge overwrites the 0 diagonal), 0 when `i = j` with no self-loop edge,
and `Infinity` otherwise. -/
theorem C3_floydInit_lastEdge (g : Graph) (i j : String)
    (hi : i ∈ nodeIds g) (hj : j ∈ nodeIds g) :
    floydInit g i j = lastEdgeInit g i j := by
  unfold floydInit lastEdgeInit
  rw [edgeFold_eval]
  congr 1
  rw [foldl_setKey_eval (nodeIds g)
    (fun i => (nodeIds g).foldl
      (fun row j => setKey row j (if i = j then JNum.val 0 else JNum.inf))
      (fun _ => JNum.undef)) _ i]
  rw [if_pos hi]
  rw [foldl_setKey_eval (nodeIds g) (fun j => if i = j then JNum.val 0 else JNum.inf) _ j]
  rw [if_pos hj]

/-- The C3/C2 parallel-edge counterexample graph: two nodes, two
parallel edges A→B of weights 2 then 5, and a self-loop A→A(7). -/
def gC3 : Graph :=
  ⟨[⟨"A", 0, 0, "A"⟩, ⟨"B", 0, 0, "B"⟩],
   [⟨"e1", "A", "B", 2⟩, ⟨"e2", "A", "B", 5⟩, ⟨"e3", "A", "A", 7⟩]⟩

/-- C3 counterexample: after initialization the code holds the *last*
parallel edge's weight (5), not the minimum (2) that the claim
prescribes, and a self-loop edge overwrites the diagonal 0 with its
weight (7). -/
theorem C3_counterexample :
    floydInit gC3 "A" "B" = JNum.val 5 ∧ specFloydInit gC3 "A" "B" = JNum.val 2 ∧
    floydInit gC3 "A" "A" = JNum.val 7 ∧ specFloydInit gC3 "A" "A" = JNum.val 0 := by
  with_unfolding_all decide

/-- C3 witness: the amended characterization evaluated on the spec
scenario graph. -/
theorem C3_witness :
    floydInit gScenario "A" "B" = lastEdgeInit gScenario "A" "B" ∧
    lastEdgeInit gScenario "A" "B" = JNum.val 5 :=
  ⟨C3_floydInit_lastEdge gScenario "A" "B" (by decide) (by decide),
   by with_unfolding_all decide⟩

/-! ## C7: flooding enumerates undirected simple paths -/

/-- Undirected adjacency: some edge joins `a` and `b` in either
direction (the neighbor notion `findFloodingRoutes` and
`findRandomRoute` actually use). -/
def undirAdj (g : Graph) (a b : String) : Bool :=
  g.edges.any (fun e => (e.source = a && e.target = b) || (e.source = b && e.target = a))

/-- Directed adjacency: some edge goes from `a` to `b`. -/
def dirAdj (g : Graph) (a b : String) : Bool :=
  g.edges.any (fun e => e.source = a && e.target = b)

/-- `chainFrom adj c xs`: starting at `c`, consecutive elements of
`c :: xs` are `adj`-adjacent. -/
def chainFrom (adj : String → String → Bool) : String → List String → Bool
  | _, [] => true
  | c, x :: xs => adj c x && chainFrom adj x xs

/-- Consecutive elements of a node sequence are `adj`-adjacent. -/
def pairsOk (adj : String → String → Bool) : List String → Bool
  | [] => true
  | x :: xs => chainFrom adj x xs

/-- Membership in an accumulate-append fold. -/
theorem mem_foldl_append {α β : Type} (l : List α) (F : α → List β) (init : List β) (q : β) :
    (q ∈ l.foldl (fun acc x => acc ++ F x) init) ↔ q ∈ init ∨ ∃ x ∈ l, q ∈ F x := by
  induction l generalizing init with
  | nil => simp
  | cons a l ih =>
    simp only [List.foldl_cons, ih, List.mem_append, List.mem_cons]
    constructor
    · rintro ((h | h) | ⟨x, hx, hq⟩)
      · exact Or.inl h
      · exact Or.inr ⟨a, Or.inl rfl, h⟩
      · exact Or.inr ⟨x, Or.inr hx, hq⟩
    · rintro (h | ⟨x, (rfl | hx), hq⟩)
      · exact Or.inl (Or.inl h)
      · exact Or.inl (Or.inr hq)
      · exact Or.inr ⟨x, hx, hq⟩

/-- Membership in the JS neighbor list: undirected adjacency plus the
visited filter. -/
theorem mem_jsNeighbors (g : Graph) (c : String) (visited : List String) (nb : String) :
    nb ∈ jsNeighbors g c visited ↔ undirAdj g c nb = true ∧ ¬ nb ∈ visited := by
  unfold jsNeighbors undirAdj
  simp only [List.mem_filter, List.mem_map, List.any_eq_true, decide_eq_true_eq,
    Bool.or_eq_true, Bool.and_eq_true]
  constructor
  · rintro ⟨⟨e, ⟨he, hst⟩, hnb⟩, hv⟩
    refine ⟨⟨e, he, ?_⟩, by simpa using hv⟩
    rcases hst with h1 | h2
    · left
      constructor <;> simp [h1, ← hnb]
    · by_cases h1 : e.source = c
      · left
        constructor <;> simp [h1, ← hnb]
      · right
        rw [if_neg h1] at hnb
        constructor <;> simp [h2, ← hnb]
  · rintro ⟨⟨e, he, h | h⟩, hv⟩
    · refine ⟨⟨e, ⟨he, Or.inl (by simp [h.1])⟩, ?_⟩, by simpa using hv⟩
      rw [if_pos h.1, h.2]
    · refine ⟨⟨e, ⟨he, Or.inr (by simp [h.2])⟩, ?_⟩, by simpa using hv⟩
      by_cases h1 : e.source = c
      · rw [if_pos h1, h.2]
        exact h1.symm.trans h.1
      · rw [if_neg h1, h.1]

/-- `flood` at fuel 0: it can still record the current path if it
already sits on the destination, but explores nothing. -/
theorem flood_zero (g : Graph) (d : String) (path visited : List String) :
    flood g d 0 path visited =
      if path.getLast?.getD "" = d then [path] else [] := rfl

/-- `flood` at fuel `fuel + 1`. -/
theorem flood_succ (g : Graph) (d : String) (fuel : Nat) (path visited : List String) :
    flood g d (fuel + 1) path visited =
      if path.getLast?.getD "" = d then [path]
      else
        (jsNeighbors g (path.getLast?.getD "") visited).foldl
          (fun acc nb => acc ++ flood g d fuel (path ++ [nb]) (nb :: visited)) [] := rfl

/-- Characterization of the DFS `flood`: starting from a nonempty
`path` ending at `c` with all its nodes in `visited`, the returned
sequences are exactly the extensions of `path` by at most `fuel`
pairwise-distinct unvisited nodes forming an undirected chain from `c`
that ends at the destination. -/
theorem flood_mem (g : Graph) (d : String) :
    ∀ (fuel : Nat) (path visited : List String) (c : String),
      path.getLast? = some c →
      (∀ x ∈ path, x ∈ visited) →
      ∀ q, q ∈ flood g d fuel path visited ↔
        ∃ ext, q = path ++ ext ∧ ext.length ≤ fuel ∧
          chainFrom (undirAdj g) c ext = true ∧
          (∀ x ∈ ext, ¬ x ∈ visited) ∧ ext.Nodup ∧
          (c :: ext).getLast? = some d := by
  intro fuel
  induction fuel with
  | zero =>
    intro path visited c hlast hsub q
    have hc : path.getLast?.getD "" = c := by rw [hlast]; rfl
    rw [flood_zero, hc]
    by_cases hcd : c = d
    · rw [if_pos hcd]
      simp only [List.mem_singleton]
      constructor
      · rintro rfl
        refine ⟨[], by simp, by simp, rfl, by simp, List.nodup_nil, by simp [hcd]⟩
      · rintro ⟨ext, rfl, hlen, _, _, _, _⟩
        have hext : ext = [] := List.length_eq_zero.mp (Nat.le_zero.mp hlen)
        subst hext
        simp
    · rw [if_neg hcd]
      constructor
      · intro h
        exact absurd h (List.not_mem_nil q)
      · rintro ⟨ext, rfl, hlen, hchain, hfresh, hnodup, hend⟩
        have hext : ext = [] := List.length_eq_zero.mp (Nat.le_zero.mp hlen)
        subst hext
        exact absurd (by simpa using hend) hcd
  | succ fuel ih =>
    intro path visited c hlast hsub q
    have hc : path.getLast?.getD "" = c := by rw [hlast]; rfl
    rw [flood_succ, hc]
    by_cases hcd : c = d
    · rw [if_pos hcd]
      subst hcd
      simp only [List.mem_singleton]
      constructor
      · rintro rfl
        refine ⟨[], by simp, by simp, rfl, by simp, List.nodup_nil, by simp⟩
      · rintro ⟨ext, rfl, hlen, hchain, hfresh, hnodup, hend⟩
        rcases ext with _ | ⟨nb, ext'⟩
        · simp
        · exfalso
          rw [List.getLast?_cons_cons] at hend
          have hdm : c ∈ nb :: ext' := List.mem_of_getLast?_eq_some hend
          exact (hfresh c hdm) (hsub c (List.mem_of_getLast?_eq_some hlast))
    · rw [if_neg hcd]
      rw [mem_foldl_append]
      simp only [List.not_mem_nil, false_or]
      constructor
      · rintro ⟨nb, hnbmem, hq⟩
        obtain ⟨hadj, hnv⟩ := (mem_jsNeighbors g c visited nb).mp hnbmem
        have hlast' : (path ++ [nb]).getLast? = some nb := List.getLast?_concat path
        have hsub' : ∀ x ∈ path ++ [nb], x ∈ nb :: visited := by
          intro x hx
          rcases List.mem_append.mp hx with h | h
          · exact List.mem_cons_of_mem _ (hsub x h)
          · simp only [List.mem_singleton] at h
            subst h
            exact List.mem_cons_self _ _
        obtain ⟨ext', rfl, hlen, hchain, hfresh, hnodup, hend⟩ :=
          (ih (path ++ [nb]) (nb :: visited) nb hlast' hsub' q).mp hq
        refine ⟨nb :: ext', by simp, by simpa using Nat.succ_le_succ hlen, ?_, ?_, ?_, ?_⟩
        · simp [chainFrom, hadj, hchain]
        · intro x hx
          rcases List.mem_cons.mp hx with rfl | hx'
          · exact hnv
          · intro hxv
            exact (hfresh x hx') (List.mem_cons_of_mem _ hxv)
        · refine List.nodup_cons.mpr ⟨?_, hnodup⟩
          intro hmem
          exact (hfresh nb hmem) (List.mem_cons_self _ _)
        · rw [List.getLast?_cons_cons]
          exact hend
      · rintro ⟨ext, rfl, hlen, hchain, hfresh, hnodup, hend⟩
        rcases ext with _ | ⟨nb, ext'⟩
        · exact absurd (by simpa using hend) hcd
        · have hsplit : undirAdj g c nb = true ∧ chainFrom (undirAdj g) nb ext' = true := by
            simpa [chainFrom] using hchain
          have hnv : ¬ nb ∈ visited := hfresh nb (List.mem_cons_self _ _)
          refine ⟨nb, (mem_jsNeighbors g c visited nb).mpr ⟨hsplit.1, hnv⟩, ?_⟩
          have hlast' : (path ++ [nb]).getLast? = some nb := List.getLast?_concat path
          have hsub' : ∀ x ∈ path ++ [nb], x ∈ nb :: visited := by
            intro x hx
            rcases List.mem_append.mp hx with h | h
            · exact List.mem_cons_of_mem _ (hsub x h)
            · simp only [List.mem_singleton] at h
              subst h
              exact List.mem_cons_self _ _
          rw [ih (path ++ [nb]) (nb :: visited) nb hlast' hsub' (path ++ nb :: ext')]
          obtain ⟨hnb, hnd⟩ := List.nodup_cons.mp hnodup
          refine ⟨ext', by simp, Nat.le_of_succ_le_succ (by simpa using hlen), hsplit.2,
            ?_, hnd, ?_⟩
          · intro x hx hxv
            rcases List.mem_cons.mp hxv with rfl | hxv'
            · exact hnb hx
            · exact (hfresh x (List.mem_cons_of_mem _ hx)) hxv'
          · rw [List.getLast?_cons_cons] at hend
            exact hend

/-- The C7/C8-style reversed-edge graph: nodes A, B and the single
directed edge B→A. -/
def gRev : Graph := ⟨[⟨"A", 0, 0, "A"⟩, ⟨"B", 0, 0, "B"⟩], [⟨"e1", "B", "A", 1⟩]⟩

/-- C7 counterexample: on the graph with the single directed edge B→A,
flooding from A to B returns the sequence [A,B], whose consecutive
nodes are *not* joined by a directed edge of the graph — flooding
explores undirected adjacency, so its results are not in general
directed simple paths as the claim states. -/
theorem C7_counterexample :
    (["A", "B"] ∈ findFloodingRoutes gRev "A" "B" 10) ∧
    pairsOk (dirAdj gRev) ["A", "B"] = false := by
  with_unfolding_all decide

/-- C7 amended: `findFloodingRoutes g s d maxHops` returns exactly the
simple paths from `s` to `d` of at most `maxHops` hops **under
undirected adjacency** (consecutive nodes joined by an edge in either
direction); in particular, on the spec scenario graph, flooding from A
to D finds [A,B,C,D] and [A,C,D]. -/
theorem C7_flooding_characterization :
    (∀ (g : Graph) (s d : String) (maxHops : Nat) (q : List String),
        q ∈ findFloodingRoutes g s d maxHops ↔
          (q.head? = some s ∧ q.getLast? = some d ∧ q.Nodup ∧
           pairsOk (undirAdj g) q = true ∧ q.length ≤ maxHops + 1)) ∧
    ["A", "B", "C", "D"] ∈ findFloodingRoutes gScenario "A" "D" 10 ∧
    ["A", "C", "D"] ∈ findFloodingRoutes gScenario "A" "D" 10 := by
  refine ⟨?_, by with_unfolding_all decide, by with_unfolding_all decide⟩
  intro g s d maxHops q
  unfold findFloodingRoutes
  rw [flood_mem g d maxHops [s] [s] s rfl (by simp) q]
  constructor
  · rintro ⟨ext, rfl, hlen, hchain, hfresh, hnodup, hend⟩
    refine ⟨rfl, hend, ?_, hchain, by simpa using Nat.succ_le_succ hlen⟩
    refine List.nodup_cons.mpr ⟨?_, hnodup⟩
    intro hmem
    exact (hfresh s hmem) (List.mem_singleton.mpr rfl)
  · rintro ⟨hhead, hend, hnodup, hpairs, hlen⟩
    rcases q with _ | ⟨a, ext⟩
    · simp at hhead
    · have ha : a = s := by simpa using hhead
      subst ha
      obtain ⟨hnb, hnd⟩ := List.nodup_cons.mp hnodup
      refine ⟨ext, by simp, by simpa using Nat.le_of_succ_le_succ hlen, hpairs, ?_, hnd, hend⟩
      intro x hx hxs
      rw [List.mem_singleton.mp hxs] at hx
      exact hnb hx

/-! ## C9: the hop-by-hop strategies fail soft and terminate -/

/-- Unvisited-key count, the decreasing measure of `findDatagramRoute`'s
recursion. -/
def keysLeft (rt : RTable) (visited : List String) : Nat :=
  (((rt.map Prod.fst).dedup).filter (fun k => ¬ k ∈ visited)).length

/-- Unvisited-endpoint count, the decreasing measure of
`findRandomRoute`'s recursion. -/
def endpointsLeft (g : Graph) (visited : List String) : Nat :=
  (((endpointsList g).dedup).filter (fun k => ¬ k ∈ visited)).length

/-- Marking a fresh member of `l` visited strictly shrinks the
unvisited filter of `l`. -/
theorem length_filter_visit_lt (l : List String) (c : String) (visited : List String)
    (hc : c ∈ l) (hcv : ¬ c ∈ visited) :
    (l.filter (fun k => ¬ k ∈ c :: visited)).length <
      (l.filter (fun k => ¬ k ∈ visited)).length := by
  induction l with
  | nil => cases hc
  | cons a l ih =>
    have hmono : (l.filter (fun k => ¬ k ∈ c :: visited)).length ≤
        (l.filter (fun k => ¬ k ∈ visited)).length := by
      refine List.Sublist.length_le (List.monotone_filter_right l ?_)
      intro x hx
      simp only [decide_not, Bool.not_eq_true', decide_eq_false_iff_not, List.mem_cons] at hx ⊢
      exact fun h => hx (Or.inr h)
    by_cases hac : a = c
    · subst hac
      have h1 : a ∈ a :: visited := List.mem_cons_self a visited
      simp only [List.filter_cons, decide_eq_true_eq]
      rw [if_neg (fun h => h h1), if_pos hcv]
      exact Nat.lt_succ_of_le hmono
    · have hcl : c ∈ l := by
        rcases List.mem_cons.mp hc with h | h
        · exact absurd h.symm hac
        · exact h
      have hstrict := ih hcl
      simp only [List.filter_cons, decide_eq_true_eq]
      by_cases hav : a ∈ visited
      · have h1 : a ∈ c :: visited := List.mem_cons_of_mem _ hav
        rw [if_neg (fun h => h h1), if_neg (fun h => h hav)]
        exact hstrict
      · have h1 : ¬ a ∈ c :: visited := by
          intro h
          rcases List.mem_cons.mp h with h | h
          · exact hac h
          · exact hav h
        rw [if_pos h1, if_pos hav]
        exact Nat.succ_lt_succ hstrict

/-- A successful `rtFind` means the node is a key of the table. -/
theorem rtFind_some_mem (rt : RTable) (k : String) (entries : List RoutingTableEntry)
    (h : rtFind rt k = some entries) : k ∈ rt.map Prod.fst := by
  unfold rtFind at h
  rcases hf : rt.find? (fun p => p.1 = k) with _ | p
  · rw [hf] at h
    cases h
  · have := List.find?_some hf
    have hmem := List.mem_of_find?_eq_some hf
    simp only [decide_eq_true_eq] at this
    rw [← this]
    exact List.mem_map_of_mem Prod.fst hmem

/-- One unfolding of `findDatagramRouteFuel` at positive fuel. -/
theorem datagramFuel_succ (rt : RTable) (d : String) (fuel : Nat) (cur : String)
    (visited : List String) :
    findDatagramRouteFuel rt d (fuel + 1) cur visited =
      if cur = d then some [cur]
      else if cur ∈ visited then some []
      else
        match rtFind rt cur with
        | none => some []
        | some entries =>
          match entries.find? (fun e => e.destination = d) with
          | none => some []
          | some entry =>
            match findDatagramRouteFuel rt d fuel entry.nextHop (cur :: visited) with
            | none => none
            | some nextRoute => if nextRoute = [] then some [] else some (cur :: nextRoute) := rfl

/-- Full specification of the datagram recursion, by induction on the
unvisited-key measure: with enough fuel it returns a value, the value
does not depend on the fuel, it is `[]` or runs from the current node
to the destination, it repeats no node, avoids the visited set, and is
at most one longer than the number of unvisited keys. -/
theorem datagramFuel_spec (rt : RTable) (d : String) :
    ∀ (n fuel : Nat) (cur : String) (visited : List String),
      keysLeft rt visited ≤ n → n < fuel → ¬ d ∈ visited →
      ∃ r, findDatagramRouteFuel rt d fuel cur visited = some r ∧
        (∀ fuel2, n < fuel2 → findDatagramRouteFuel rt d fuel2 cur visited = some r) ∧
        (r = [] ∨ (r.head? = some cur ∧ r.getLast? = some d)) ∧
        r.Nodup ∧ (∀ x ∈ r, ¬ x ∈ visited) ∧ r.length ≤ keysLeft rt visited + 1 := by
  intro n
  induction n with
  | zero =>
    intro fuel cur visited hmu hfuel hd
    rcases fuel with _ | m
    · omega
    · rw [datagramFuel_succ]
      by_cases hcd : cur = d
      · subst hcd
        rw [if_pos rfl]
        refine ⟨[cur], rfl, ?_, Or.inr ⟨rfl, rfl⟩, by simp, by simpa using hd, by simp⟩
        intro fuel2 h2
        rcases fuel2 with _ | m2
        · omega
        · rw [datagramFuel_succ, if_pos rfl]
      · rw [if_neg hcd]
        by_cases hcv : cur ∈ visited
        · rw [if_pos hcv]
          refine ⟨[], rfl, ?_, Or.inl rfl, by simp, by simp, by simp⟩
          intro fuel2 h2
          rcases fuel2 with _ | m2
          · omega
          · rw [datagramFuel_succ, if_neg hcd, if_pos hcv]
        · rw [if_neg hcv]
          rcases hf : rtFind rt cur with _ | entries
          · refine ⟨[], by simp, ?_, Or.inl rfl, by simp, by simp, by simp⟩
            intro fuel2 h2
            rcases fuel2 with _ | m2
            · omega
            · rw [datagramFuel_succ, if_neg hcd, if_neg hcv, hf]
          · exfalso
            have hkey : cur ∈ (rt.map Prod.fst).dedup :=
              List.mem_dedup.mpr (rtFind_some_mem rt cur entries hf)
            have : cur ∈ ((rt.map Prod.fst).dedup).filter (fun k => ¬ k ∈ visited) :=
              List.mem_filter.mpr ⟨hkey, by simpa using hcv⟩
            have hpos : 0 < keysLeft rt visited := by
              unfold keysLeft
              exact List.length_pos.mpr (List.ne_nil_of_mem this)
            omega
  | succ n ih =>
    intro fuel cur visited hmu hfuel hd
    rcases fuel with _ | m
    · omega
    · rw [datagramFuel_succ]
      by_cases hcd : cur = d
      · subst hcd
        rw [if_pos rfl]
        refine ⟨[cur], rfl, ?_, Or.inr ⟨rfl, rfl⟩, by simp, by simpa using hd, by simp⟩
        intro fuel2 h2
        rcases fuel2 with _ | m2
        · omega
        · rw [datagramFuel_succ, if_pos rfl]
      · rw [if_neg hcd]
        by_cases hcv : cur ∈ visited
        · rw [if_pos hcv]
          refine ⟨[], rfl, ?_, Or.inl rfl, by simp, by simp, by simp⟩
          intro fuel2 h2
          rcases fuel2 with _ | m2
          · omega
          · rw [datagramFuel_succ, if_neg hcd, if_pos hcv]
        · rw [if_neg hcv]
          rcases hf : rtFind rt cur with _ | entries
          · refine ⟨[], by simp, ?_, Or.inl rfl, by simp, by simp, by simp⟩
            intro fuel2 h2
            rcases fuel2 with _ | m2
            · omega
            · rw [datagramFuel_succ, if_neg hcd, if_neg hcv, hf]
          · rcases hfind : entries.find? (fun e => e.destination = d) with _ | entry
            · refine ⟨[], by simp [hfind], ?_, Or.inl rfl, by simp, by simp, by simp⟩
              intro fuel2 h2
              rcases fuel2 with _ | m2
              · omega
              · rw [datagramFuel_succ, if_neg hcd, if_neg hcv, hf]
                simp [hfind]
            · have hkey : cur ∈ (rt.map Prod.fst).dedup :=
                List.mem_dedup.mpr (rtFind_some_mem rt cur entries hf)
              have hdec : keysLeft rt (cur :: visited) < keysLeft rt visited :=
                length_filter_visit_lt _ cur visited hkey hcv
              have hd' : ¬ d ∈ cur :: visited := by
                intro h
                rcases List.mem_cons.mp h with h | h
                · exact hcd h.symm
                · exact hd h
              obtain ⟨r', hr', hstab', hends', hnodup', hfresh', hlen'⟩ :=
                ih m entry.nextHop (cur :: visited) (by omega) (by omega) hd'
              by_cases hre : r' = []
              · subst hre
                refine ⟨[], by simp [hfind, hr'], ?_, Or.inl rfl, by simp, by simp, by simp⟩
                intro fuel2 h2
                rcases fuel2 with _ | m2
                · omega
                · rw [datagramFuel_succ, if_neg hcd, if_neg hcv, hf]
                  simp [hfind, hstab' m2 (by omega)]
              · refine ⟨cur :: r', by simp [hfind, hr', hre], ?_, ?_, ?_, ?_, ?_⟩
                · intro fuel2 h2
                  rcases fuel2 with _ | m2
                  · omega
                  · rw [datagramFuel_succ, if_neg hcd, if_neg hcv, hf]
                    simp [hfind, hstab' m2 (by omega), hre]
                · refine Or.inr ⟨rfl, ?_⟩
                  rcases hends' with h | ⟨hh, hl⟩
                  · exact absurd h hre
                  · rcases r' with _ | ⟨b, r''⟩
                    · exact absurd rfl hre
                    · rw [List.getLast?_cons_cons]
                      exact hl
                · refine List.nodup_cons.mpr ⟨?_, hnodup'⟩
                  intro hmem
                  exact (hfresh' cur hmem) (List.mem_cons_self _ _)
                · intro x hx
                  rcases List.mem_cons.mp hx with rfl | hx'
                  · exact hcv
                  · intro hxv
                    exact (hfresh' x hx') (List.mem_cons_of_mem _ hxv)
                · simp only [List.length_cons]
                  omega

/-- One unfolding of `findRandomRouteFuel` at positive fuel. -/
theorem randomFuel_succ (g : Graph) (d : String) (fuel : Nat) (rands : List ℕ) (cur : String)
    (visited : List String) :
    findRandomRouteFuel g d (fuel + 1) rands cur visited =
      if cur = d then some [cur]
      else if cur ∈ visited then some []
      else if jsNeighbors g cur (cur :: visited) = [] then some []
      else
        match findRandomRouteFuel g d fuel rands.tail
            ((jsNeighbors g cur (cur :: visited)).getD
              (rands.headD 0 % (jsNeighbors g cur (cur :: visited)).length) "")
            (cur :: visited) with
        | none => none
        | some nextRoute => if nextRoute = [] then some [] else some (cur :: nextRoute) := rfl

/-- A node with any neighbor at all is an edge endpoint. -/
theorem mem_endpoints_of_neighbors (g : Graph) (c : String) (visited : List String)
    (h : jsNeighbors g c visited ≠ []) : c ∈ endpointsList g := by
  obtain ⟨x, hx⟩ := List.exists_mem_of_ne_nil _ h
  unfold jsNeighbors at hx
  obtain ⟨⟨e, he, _⟩, _⟩ := by
    simpa only [List.mem_filter, List.mem_map] using hx
  obtain ⟨hedge, htouch⟩ := he
  unfold endpointsList
  rw [List.mem_append]
  rcases (by simpa using htouch : e.source = c ∨ e.target = c) with h1 | h1
  · exact Or.inl (List.mem_map.mpr ⟨e, hedge, h1⟩)
  · exact Or.inr (List.mem_map.mpr ⟨e, hedge, h1⟩)

/-- Full specification of the random-walk recursion, mirroring
`datagramFuel_spec` with the unvisited-endpoint measure; the result is
uniform in the fuel for each fixed random stream. -/
theorem randomFuel_spec (g : Graph) (d : String) :
    ∀ (n fuel : Nat) (rands : List ℕ) (cur : String) (visited : List String),
      endpointsLeft g visited ≤ n → n < fuel → ¬ d ∈ visited →
      ∃ r, findRandomRouteFuel g d fuel rands cur visited = some r ∧
        (∀ fuel2, n < fuel2 → findRandomRouteFuel g d fuel2 rands cur visited = some r) ∧
        (r = [] ∨ (r.head? = some cur ∧ r.getLast? = some d)) ∧
        r.Nodup ∧ (∀ x ∈ r, ¬ x ∈ visited) ∧ r.length ≤ endpointsLeft g visited + 1 := by
  intro n
  induction n with
  | zero =>
    intro fuel rands cur visited hmu hfuel hd
    rcases fuel with _ | m
    · omega
    · rw [randomFuel_succ]
      by_cases hcd : cur = d
      · subst hcd
        rw [if_pos rfl]
        refine ⟨[cur], rfl, ?_, Or.inr ⟨rfl, rfl⟩, by simp, by simpa using hd, by simp⟩
        intro fuel2 h2
        rcases fuel2 with _ | m2
        · omega
        · rw [randomFuel_succ, if_pos rfl]
      · rw [if_neg hcd]
        by_cases hcv : cur ∈ visited
        · rw [if_pos hcv]
          refine ⟨[], rfl, ?_, Or.inl rfl, by simp, by simp, by simp⟩
          intro fuel2 h2
          rcases fuel2 with _ | m2
          · omega
          · rw [randomFuel_succ, if_neg hcd, if_pos hcv]
        · rw [if_neg hcv]
          by_cases hnb : jsNeighbors g cur (cur :: visited) = []
          · rw [if_pos hnb]
            refine ⟨[], rfl, ?_, Or.inl rfl, by simp, by simp, by simp⟩
            intro fuel2 h2
            rcases fuel2 with _ | m2
            · omega
            · rw [randomFuel_succ, if_neg hcd, if_neg hcv, if_pos hnb]
          · exfalso
            have hkey : cur ∈ (endpointsList g).dedup :=
              List.mem_dedup.mpr (mem_endpoints_of_neighbors g cur _ hnb)
            have : cur ∈ ((endpointsList g).dedup).filter (fun k => ¬ k ∈ visited) :=
              List.mem_filter.mpr ⟨hkey, by simpa using hcv⟩
            have hpos : 0 < endpointsLeft g visited := by
              unfold endpointsLeft
              exact List.length_pos.mpr (List.ne_nil_of_mem this)
            omega
  | succ n ih =>
    intro fuel rands cur visited hmu hfuel hd
    rcases fuel with _ | m
    · omega
    · rw [randomFuel_succ]
      by_cases hcd : cur = d
      · subst hcd
        rw [if_pos rfl]
        refine ⟨[cur], rfl, ?_, Or.inr ⟨rfl, rfl⟩, by simp, by simpa using hd, by simp⟩
        intro fuel2 h2
        rcases fuel2 with _ | m2
        · omega
        · rw [randomFuel_succ, if_pos rfl]
      · rw [if_neg hcd]
        by_cases hcv : cur ∈ visited
        · rw [if_pos hcv]
          refine ⟨[], rfl, ?_, Or.inl rfl, by simp, by simp, by simp⟩
          intro fuel2 h2
          rcases fuel2 with _ | m2
          · omega
          · rw [randomFuel_succ, if_neg hcd, if_pos hcv]
        · rw [if_neg hcv]
          by_cases hnb : jsNeighbors g cur (cur :: visited) = []
          · rw [if_pos hnb]
            refine ⟨[], rfl, ?_, Or.inl rfl, by simp, by simp, by simp⟩
            intro fuel2 h2
            rcases fuel2 with _ | m2
            · omega
            · rw [randomFuel_succ, if_neg hcd, if_neg hcv, if_pos hnb]
          · rw [if_neg hnb]
            have hkey : cur ∈ (endpointsList g).dedup :=
              List.mem_dedup.mpr (mem_endpoints_of_neighbors g cur _ hnb)
            have hdec : endpointsLeft g (cur :: visited) < endpointsLeft g visited :=
              length_filter_visit_lt _ cur visited hkey hcv
            have hd' : ¬ d ∈ cur :: visited := by
              intro h
              rcases List.mem_cons.mp h with h | h
              · exact hcd h.symm
              · exact hd h
            obtain ⟨r', hr', hstab', hends', hnodup', hfresh', hlen'⟩ :=
              ih m rands.tail
                ((jsNeighbors g cur (cur :: visited)).getD
                  (rands.headD 0 % (jsNeighbors g cur (cur :: visited)).length) "")
                (cur :: visited) (by omega) (by omega) hd'
            by_cases hre : r' = []
            · subst hre
              refine ⟨[], by rw [hr']; rfl, ?_, Or.inl rfl, by simp, by simp, by simp⟩
              intro fuel2 h2
              rcases fuel2 with _ | m2
              · omega
              · rw [randomFuel_succ, if_neg hcd, if_neg hcv, if_neg hnb,
                  hstab' m2 (by omega)]
                rfl
            · refine ⟨cur :: r', by rw [hr']; simp [hre], ?_, ?_, ?_, ?_, ?_⟩
              · intro fuel2 h2
                rcases fuel2 with _ | m2
                · omega
                · rw [randomFuel_succ, if_neg hcd, if_neg hcv, if_neg hnb,
                    hstab' m2 (by omega)]
                  simp [hre]
              · refine Or.inr ⟨rfl, ?_⟩
                rcases hends' with h | ⟨hh, hl⟩
                · exact absurd h hre
                · rcases r' with _ | ⟨b, r''⟩
                  · exact absurd rfl hre
                  · rw [List.getLast?_cons_cons]
                    exact hl
              · refine List.nodup_cons.mpr ⟨?_, hnodup'⟩
                intro hmem
                exact (hfresh' cur hmem) (List.mem_cons_self _ _)
              · intro x hx
                rcases List.mem_cons.mp hx with rfl | hx'
                · exact hcv
                · intro hxv
                  exact (hfresh' x hx') (List.mem_cons_of_mem _ hxv)
              · simp only [List.length_cons]
                omega

/-- C9 counterexample: with the one-key routing table X→D over the
*empty* graph, the datagram route [X, D] has length 2, which exceeds
the graph's node count 0 — the claimed "length is at most the node
count" bound fails for arbitrary routing tables. -/
theorem C9_counterexample :
    findDatagramRoute [("X", [⟨"D", "D", 1⟩])] "X" "D" = ["X", "D"] ∧
    (Graph.mk [] []).nodes.length = 0 ∧
    ¬ ((findDatagramRoute [("X", [⟨"D", "D", 1⟩])] "X" "D").length ≤
        (Graph.mk [] []).nodes.length) := by
  with_unfolding_all decide

/-- C9 amended: `findDatagramRoute` and `findRandomRoute` terminate
(their recursions stabilize at the wrapper fuel) and fail soft: a
revisited node, a missing routing entry, or an exhausted neighbor list
yields `[]`; every result is either `[]` or runs from the current node
to the destination with no repeated node, and its length is bounded by
one plus the number of distinct routing-table keys (datagram) resp.
distinct edge endpoints (random) — not by the node count. -/
theorem C9_amended :
    (∀ (rt : RTable) (cur d : String),
      ∃ r, (∀ extra, findDatagramRouteFuel rt d (rt.length + 1 + extra) cur [] = some r) ∧
        findDatagramRoute rt cur d = r ∧
        (r = [] ∨ (r.head? = some cur ∧ r.getLast? = some d)) ∧
        r.Nodup ∧ r.length ≤ (rt.map Prod.fst).dedup.length + 1) ∧
    (∀ (g : Graph) (cur d : String) (rands : List ℕ),
      ∃ r, (∀ extra,
          findRandomRouteFuel g d (2 * g.edges.length + 2 + extra) rands cur [] = some r) ∧
        findRandomRoute g cur d rands = r ∧
        (r = [] ∨ (r.head? = some cur ∧ r.getLast? = some d)) ∧
        r.Nodup ∧ r.length ≤ (endpointsList g).dedup.length + 1) ∧
    (∀ (rt : RTable) (d : String) (fuel : Nat) (cur : String) (visited : List String),
      ¬ cur = d → cur ∈ visited →
        findDatagramRouteFuel rt d (fuel + 1) cur visited = some []) ∧
    (∀ (rt : RTable) (d : String) (fuel : Nat) (cur : String) (visited : List String),
      ¬ cur = d → ¬ cur ∈ visited → rtFind rt cur = none →
        findDatagramRouteFuel rt d (fuel + 1) cur visited = some []) ∧
    (∀ (g : Graph) (d : String) (fuel : Nat) (rands : List ℕ) (cur : String)
        (visited : List String),
      ¬ cur = d → ¬ cur ∈ visited → jsNeighbors g cur (cur :: visited) = [] →
        findRandomRouteFuel g d (fuel + 1) rands cur visited = some []) := by
  refine ⟨?_, ?_, ?_, ?_, ?_⟩
  · intro rt cur d
    have hbound : keysLeft rt [] ≤ rt.length := by
      unfold keysLeft
      calc (((rt.map Prod.fst).dedup).filter (fun k => ¬ k ∈ ([] : List String))).length
          ≤ ((rt.map Prod.fst).dedup).length := List.length_filter_le _ _
        _ ≤ (rt.map Prod.fst).length := (List.dedup_sublist _).length_le
        _ = rt.length := List.length_map _ _
    obtain ⟨r, hr, hstab, hends, hnodup, _, hlen⟩ :=
      datagramFuel_spec rt d rt.length (rt.length + 1) cur [] hbound (by omega) (by simp)
    refine ⟨r, ?_, ?_, hends, hnodup, ?_⟩
    · intro extra
      exact hstab (rt.length + 1 + extra) (by omega)
    · unfold findDatagramRoute
      rw [hr]
      rfl
    · have : keysLeft rt [] ≤ ((rt.map Prod.fst).dedup).length := List.length_filter_le _ _
      omega
  · intro g cur d rands
    have hbound : endpointsLeft g [] ≤ 2 * g.edges.length := by
      unfold endpointsLeft
      calc (((endpointsList g).dedup).filter (fun k => ¬ k ∈ ([] : List String))).length
          ≤ ((endpointsList g).dedup).length := List.length_filter_le _ _
        _ ≤ (endpointsList g).length := (List.dedup_sublist _).length_le
        _ = 2 * g.edges.length := by
            unfold endpointsList
            rw [List.length_append, List.length_map, List.length_map]
            omega
    obtain ⟨r, hr, hstab, hends, hnodup, _, hlen⟩ :=
      randomFuel_spec g d (2 * g.edges.length + 1) (2 * g.edges.length + 2) rands cur []
        (by omega) (by omega) (by simp)
    refine ⟨r, ?_, ?_, hends, hnodup, ?_⟩
    · intro extra
      exact hstab (2 * g.edges.length + 2 + extra) (by omega)
    · unfold findRandomRoute
      rw [hr]
      rfl
    · have : endpointsLeft g [] ≤ ((endpointsList g).dedup).length := List.length_filter_le _ _
      omega
  · intro rt d fuel cur visited h1 h2
    rw [datagramFuel_succ, if_neg h1, if_pos h2]
  · intro rt d fuel cur visited h1 h2 h3
    rw [datagramFuel_succ, if_neg h1, if_neg h2, h3]
  · intro g d fuel rands cur visited h1 h2 h3
    rw [randomFuel_succ, if_neg h1, if_neg h2, if_pos h3]

/-- C9 witness: the fail-soft clauses of the amended theorem evaluated
at concrete inputs (a revisited node for datagram, a dead end for the
random walk). -/
theorem C9_amended_witness :
    findDatagramRouteFuel [] "B" 1 "A" ["A"] = some [] ∧
    findRandomRouteFuel (Graph.mk [] []) "B" 1 [] "A" [] = some [] :=
  ⟨C9_amended.2.2.1 [] "B" 0 "A" ["A"] (by decide) (by decide),
   C9_amended.2.2.2.2 (Graph.mk [] []) "B" 0 [] "A" [] (by decide) (by decide)
     (by with_unfolding_all decide)⟩

/-! ## Dijkstra machinery: the scan -/

/-- `jlt` never holds reflexively (mirrors `x < x` being false in JS). -/
theorem jlt_irrefl (v : JNum) : jlt v v = false := by
  rcases v with _ | _ | q <;> simp [jlt]

/-- `jlt x _ = true` forces `x` to be finite. -/
theorem jlt_true_val {a b : JNum} (h : jlt a b = true) : ∃ q, a = JNum.val q := by
  rcases a with _ | _ | q <;> rcases b with _ | _ | p <;> simp_all [jlt]

/-- Nothing is `jlt`-below `Infinity` except finite values. -/
theorem jlt_inf_iff (a : JNum) : jlt a JNum.inf = true ↔ ∃ q, a = JNum.val q := by
  rcases a with _ | _ | q <;> simp [jlt]

/-- `jlt` on finite values is the rational order. -/
theorem jlt_val_val (a b : ℚ) : jlt (JNum.val a) (JNum.val b) = decide (a < b) := rfl

/-- Failing `jlt` is preserved when the right side shrinks. -/
theorem jlt_mono {v m m' : JNum} (h : jlt v m = false) (h2 : m' = m ∨ jlt m' m = true) :
    jlt v m' = false := by
  rcases h2 with rfl | h2
  · exact h
  · rcases v with _ | _ | a <;> rcases m with _ | _ | b <;> rcases m' with _ | _ | c <;>
      simp_all [jlt]
    linarith

/-- `jlt` is transitive. -/
theorem jlt_trans {a b c : JNum} (h1 : jlt a b = true) (h2 : jlt b c = true) :
    jlt a c = true := by
  rcases a with _ | _ | x <;> rcases b with _ | _ | y <;> rcases c with _ | _ | z <;>
    simp_all [jlt]
  linarith

/-- Full specification of the scan fold behind `findMin`. -/
theorem findMinFold_spec (dist : String → JNum) :
    ∀ (u : List String) (acc : Option String × JNum),
      ∃ r, u.foldl (fun acc n => if jlt (dist n) acc.2 then (some n, dist n) else acc) acc = r ∧
        (r = acc ∨ ∃ c, c ∈ u ∧ r = (some c, dist c) ∧ ∃ q, dist c = JNum.val q) ∧
        (∀ x ∈ u, jlt (dist x) r.2 = false) ∧
        (r.2 = acc.2 ∨ jlt r.2 acc.2 = true) := by
  intro u
  induction u with
  | nil =>
    intro acc
    exact ⟨acc, rfl, Or.inl rfl, by simp, Or.inl rfl⟩
  | cons x u ih =>
    intro acc
    by_cases hx : jlt (dist x) acc.2 = true
    · obtain ⟨r, hr, hprov, hmin, hchain⟩ := ih (some x, dist x)
      refine ⟨r, by simpa [List.foldl_cons, hx] using hr, ?_, ?_, ?_⟩
      · rcases hprov with rfl | ⟨c, hc, hrc, hq⟩
        · exact Or.inr ⟨x, List.mem_cons_self _ _, rfl, jlt_true_val hx⟩
        · exact Or.inr ⟨c, List.mem_cons_of_mem _ hc, hrc, hq⟩
      · intro y hy
        rcases List.mem_cons.mp hy with rfl | hy'
        · exact jlt_mono (jlt_irrefl (dist y)) (by simpa using hchain)
        · exact hmin y hy'
      · rcases hchain with h | h
        · exact Or.inr (by rw [h]; exact hx)
        · exact Or.inr (jlt_trans h hx)
    · obtain ⟨r, hr, hprov, hmin, hchain⟩ := ih acc
      have hxf : jlt (dist x) acc.2 = false := by
        rcases h : jlt (dist x) acc.2 with _ | _
        · rfl
        · exact absurd h hx
      refine ⟨r, by simpa [List.foldl_cons, hxf] using hr, ?_, ?_, hchain⟩
      · rcases hprov with rfl | ⟨c, hc, hrc, hq⟩
        · exact Or.inl rfl
        · exact Or.inr ⟨c, List.mem_cons_of_mem _ hc, hrc, hq⟩
      · intro y hy
        rcases List.mem_cons.mp hy with rfl | hy'
        · exact jlt_mono hxf hchain
        · exact hmin y hy'

/-- `findMin` returning a node: it is an unvisited node with finite
distance, minimal in the `jlt` order over the unvisited list. -/
theorem findMin_some (dist : String → JNum) (u : List String) (c : String)
    (h : findMin dist u = some c) :
    c ∈ u ∧ (∃ q, dist c = JNum.val q) ∧ ∀ x ∈ u, jlt (dist x) (dist c) = false := by
  obtain ⟨r, hr, hprov, hmin, _⟩ := findMinFold_spec dist u (none, JNum.inf)
  unfold findMin at h
  rw [hr] at h
  rcases hprov with rfl | ⟨c', hc', hrc, q, hq⟩
  · cases h
  · rw [hrc] at h
    cases h
    rw [hrc] at hmin
    exact ⟨hc', ⟨q, hq⟩, hmin⟩

/-- `findMin` returning `null`: no unvisited node has finite distance. -/
theorem findMin_none (dist : String → JNum) (u : List String)
    (h : findMin dist u = none) : ∀ x ∈ u, ∀ q, dist x ≠ JNum.val q := by
  obtain ⟨r, hr, hprov, hmin, hchain⟩ := findMinFold_spec dist u (none, JNum.inf)
  unfold findMin at h
  rw [hr] at h
  intro x hx q hq
  rcases hprov with rfl | ⟨c', _, hrc, _⟩
  · have := hmin x hx
    rw [hq] at this
    simp [jlt] at this
  · rw [hrc] at h
    cases h

/-! ## Dijkstra machinery: relaxation -/

/-- Reading a key just written. -/
theorem setKey_same {α : Type} (f : String → α) (k : String) (v : α) : setKey f k v k = v := by
  simp [setKey]

/-- Reading another key. -/
theorem setKey_ne {α : Type} (f : String → α) (k : String) (v : α) (x : String)
    (h : x ≠ k) : setKey f k v x = f x := by
  simp [setKey, h]

/-- Full specification of the edge-relaxation fold of `dijkstra`.  The
settled node `c` is not in the unvisited list `u`, so its stored
distance never changes during the fold; the fold can only lower
distances of unvisited targets, records `c` as predecessor exactly when
it writes, and afterwards no edge out of `c` can improve its target. -/
theorem relaxFold_spec (c : String) (u : List String) (hc : ¬ c ∈ u) :
    ∀ (es : List Edge) (dp : (String → JNum) × (String → JPrev)),
      ∃ dp', es.foldl (fun dp e =>
          if e.target ∈ u then
            let nd := jadd (dp.1 c) e.weight
            if jlt nd (dp.1 e.target) then
              (setKey dp.1 e.target nd, setKey dp.2 e.target (JPrev.str c))
            else dp
          else dp) dp = dp' ∧
        dp'.1 c = dp.1 c ∧
        (∀ x, ¬ x ∈ u → dp'.1 x = dp.1 x ∧ dp'.2 x = dp.2 x) ∧
        (∀ x, (dp'.1 x = dp.1 x ∧ dp'.2 x = dp.2 x) ∨
          (x ∈ u ∧ ∃ e, e ∈ es ∧ e.target = x ∧
            dp'.1 x = jadd (dp.1 c) e.weight ∧ dp'.2 x = JPrev.str c)) ∧
        (∀ e ∈ es, e.target ∈ u → jlt (jadd (dp.1 c) e.weight) (dp'.1 e.target) = false) ∧
        (∀ x, dp'.1 x = dp.1 x ∨ jlt (dp'.1 x) (dp.1 x) = true) := by
  intro es
  induction es with
  | nil =>
    intro dp
    exact ⟨dp, rfl, rfl, fun x _ => ⟨rfl, rfl⟩, fun x => Or.inl ⟨rfl, rfl⟩,
      by simp, fun x => Or.inl rfl⟩
  | cons e es ih =>
    intro dp
    by_cases ht : e.target ∈ u
    · by_cases himp : jlt (jadd (dp.1 c) e.weight) (dp.1 e.target) = true
      · -- the first edge writes
        set dp1 : (String → JNum) × (String → JPrev) :=
          (setKey dp.1 e.target (jadd (dp.1 c) e.weight),
           setKey dp.2 e.target (JPrev.str c)) with hdp1
        have htc : e.target ≠ c := fun h => hc (h ▸ ht)
        have hc1 : dp1.1 c = dp.1 c :=
          setKey_ne dp.1 e.target _ c (fun h => htc h.symm)
        obtain ⟨dp', hfold, hcc, hout, hprov, hrelax, hdec⟩ := ih dp1
        refine ⟨dp', ?_, ?_, ?_, ?_, ?_, ?_⟩
        · rw [← hfold]
          simp only [List.foldl_cons, ht, if_pos, himp, if_true]
        · rw [hcc, hc1]
        · intro x hx
          obtain ⟨h1, h2⟩ := hout x hx
          have hxt : x ≠ e.target := fun h => hx (h ▸ ht)
          exact ⟨h1.trans (setKey_ne dp.1 e.target _ x hxt),
            h2.trans (setKey_ne dp.2 e.target _ x hxt)⟩
        · intro x
          rcases hprov x with ⟨h1, h2⟩ | ⟨hxu, e', he', het, hv, hp⟩
          · by_cases hxt : x = e.target
            · subst hxt
              right
              exact ⟨ht, e, List.mem_cons_self _ _, rfl,
                h1.trans (setKey_same dp.1 _ _),
                h2.trans (setKey_same dp.2 _ _)⟩
            · exact Or.inl ⟨h1.trans (setKey_ne dp.1 e.target _ x hxt),
                h2.trans (setKey_ne dp.2 e.target _ x hxt)⟩
          · right
            refine ⟨hxu, e', List.mem_cons_of_mem _ he', het, ?_, hp⟩
            rw [hv, hc1]
        · intro e' he' hte'
          rcases List.mem_cons.mp he' with rfl | he''
          · -- the head edge: its written value never gets beaten
            have hstart : jlt (jadd (dp.1 c) e'.weight) (dp1.1 e'.target) = false := by
              have : dp1.1 e'.target = jadd (dp.1 c) e'.weight := setKey_same dp.1 _ _
              rw [this]
              exact jlt_irrefl _
            have hrest := hdec e'.target
            rcases hrest with hsame | hlt
            · rw [hsame]
              exact hstart
            · exact jlt_mono hstart (Or.inr hlt)
          · have := hrelax e' he'' hte'
            rw [hc1] at this
            exact this
        · intro x
          by_cases hxt : x = e.target
          · subst hxt
            have h1 : dp1.1 e.target = jadd (dp.1 c) e.weight := setKey_same dp.1 _ _
            rcases hdec e.target with hsame | hlt
            · right
              rw [hsame, h1]
              exact himp
            · right
              rw [h1] at hlt
              exact jlt_trans hlt himp
          · have h1 : dp1.1 x = dp.1 x := setKey_ne dp.1 e.target _ x hxt
            rcases hdec x with hsame | hlt
            · left
              rw [hsame, h1]
            · right
              rw [h1] at hlt
              exact hlt
      · -- target unvisited but no improvement: state unchanged
        have himpf : jlt (jadd (dp.1 c) e.weight) (dp.1 e.target) = false := by
          rcases h : jlt (jadd (dp.1 c) e.weight) (dp.1 e.target) with _ | _
          · rfl
          · exact absurd h himp
        obtain ⟨dp', hfold, hcc, hout, hprov, hrelax, hdec⟩ := ih dp
        refine ⟨dp', ?_, hcc, hout, ?_, ?_, hdec⟩
        · rw [← hfold]
          simp only [List.foldl_cons, ht, if_pos, himpf, Bool.false_eq_true, if_false]
        · intro x
          rcases hprov x with h | ⟨hxu, e', he', het, hv, hp⟩
          · exact Or.inl h
          · exact Or.inr ⟨hxu, e', List.mem_cons_of_mem _ he', het, hv, hp⟩
        · intro e' he' hte'
          rcases List.mem_cons.mp he' with rfl | he''
          · rcases hdec e'.target with hsame | hlt
            · rw [hsame]
              exact himpf
            · exact jlt_mono himpf (Or.inr hlt)
          · exact hrelax e' he'' hte'
    · -- target not unvisited: state unchanged
      obtain ⟨dp', hfold, hcc, hout, hprov, hrelax, hdec⟩ := ih dp
      refine ⟨dp', ?_, hcc, hout, ?_, ?_, hdec⟩
      · rw [← hfold]
        simp only [List.foldl_cons, ht, if_neg, not_false_iff]
      · intro x
        rcases hprov x with h | ⟨hxu, e', he', het, hv, hp⟩
        · exact Or.inl h
        · exact Or.inr ⟨hxu, e', List.mem_cons_of_mem _ he', het, hv, hp⟩
      · intro e' he' hte'
        rcases List.mem_cons.mp he' with rfl | he''
        · exact absurd hte' ht
        · exact hrelax e' he'' hte'

/-! ## Dijkstra machinery: chains and the loop invariant -/

/-- Extending a chain by one more edge at the end. -/
theorem isChain_snoc (g : Graph) (a b : String) (es : List Edge) (e : Edge)
    (hch : isChain g a es b = true) (he : e ∈ g.edges) (hsrc : e.source = b) :
    isChain g a (es ++ [e]) e.target = true := by
  induction es generalizing a with
  | nil =>
    have hab : a = b := by simpa [isChain] using hch
    subst hab
    simp [isChain, he, hsrc]
  | cons f es ih =>
    simp only [isChain, Bool.and_eq_true, decide_eq_true_eq] at hch
    obtain ⟨⟨hf, hfs⟩, hch'⟩ := hch
    simp only [List.cons_append, isChain, Bool.and_eq_true, decide_eq_true_eq]
    exact ⟨⟨hf, hfs⟩, ih f.target hch'⟩

/-- Weight of a concatenation. -/
theorem wsum_append (es es' : List Edge) : wsum (es ++ es') = wsum es + wsum es' := by
  simp [wsum]

/-- Chains in a positively weighted graph have nonnegative weight. -/
theorem chain_wsum_nonneg (g : Graph) (hpos : PosW g) (a b : String) (es : List Edge)
    (hch : isChain g a es b = true) : 0 ≤ wsum es := by
  induction es generalizing a with
  | nil => simp [wsum]
  | cons e es ih =>
    simp only [isChain, Bool.and_eq_true, decide_eq_true_eq] at hch
    obtain ⟨⟨he, _⟩, hch'⟩ := hch
    have h1 : 0 < e.weight := hpos e he
    have h2 : 0 ≤ wsum es := ih e.target hch'
    simp only [wsum, List.map_cons, List.sum_cons]
    have : wsum es = (es.map (fun e => e.weight)).sum := rfl
    linarith [this ▸ h2]

/-- In a well-formed graph a chain from a node id stays on node ids. -/
theorem chain_target_mem (g : Graph) (hwf : WFE g) (a b : String) (es : List Edge)
    (ha : a ∈ nodeIds g) (hch : isChain g a es b = true) : b ∈ nodeIds g := by
  induction es generalizing a with
  | nil =>
    have hab : a = b := by simpa [isChain] using hch
    exact hab ▸ ha
  | cons e es ih =>
    simp only [isChain, Bool.and_eq_true, decide_eq_true_eq] at hch
    obtain ⟨⟨he, _⟩, hch'⟩ := hch
    exact ih e.target (hwf e he).2 hch'

/-- The node sequence of a chain ends at the chain's endpoint. -/
theorem nodeSeq_last (g : Graph) (a b : String) (es : List Edge)
    (hch : isChain g a es b = true) : (nodeSeq a es).getLast? = some b := by
  induction es generalizing a with
  | nil =>
    have hab : a = b := by simpa [isChain] using hch
    simp [nodeSeq, hab]
  | cons e es ih =>
    simp only [isChain, Bool.and_eq_true, decide_eq_true_eq] at hch
    obtain ⟨⟨_, _⟩, hch'⟩ := hch
    have := ih e.target hch'
    simp only [nodeSeq, List.map_cons] at this ⊢
    rw [List.getLast?_cons_cons]
    exact this

/-- The invariant of `dijkstra`'s main loop that holds for every input
graph (no positivity or well-formedness assumptions): bookkeeping of
the maps' domains, soundness of finite distances, the meaning of the
predecessor map, and a rank function showing predecessor chains
strictly descend into earlier-settled nodes. -/
structure DBase (g : Graph) (s : String) (u : List String) (dist : String → JNum)
    (prev : String → JPrev) : Prop where
  usub : ∀ x ∈ u, x ∈ nodeIds g
  unodup : u.Nodup
  ghost : ∀ x, ¬ x ∈ nodeIds g → dist x = JNum.undef ∧ prev x = JPrev.undef
  idsdist : ∀ x ∈ nodeIds g, dist x = JNum.inf ∨ ∃ q, dist x = JNum.val q
  idsprev : ∀ x ∈ nodeIds g, prev x = JPrev.null ∨ ∃ y, prev x = JPrev.str y
  sound : ∀ x q, dist x = JNum.val q → ∃ es, isChain g s es x = true ∧ wsum es = q
  prevP : ∀ x y, prev x = JPrev.str y → y ∈ nodeIds g ∧ ¬ y ∈ u ∧
    ∃ e qx qy, e ∈ g.edges ∧ e.source = y ∧ e.target = x ∧
      dist x = JNum.val qx ∧ dist y = JNum.val qy ∧ qx = qy + e.weight
  prevNull : ∀ x q, dist x = JNum.val q → prev x = JPrev.null → x = s
  rankF : ∃ (rank : String → Nat) (N : Nat),
    (∀ x y, prev x = JPrev.str y → rank y < rank x) ∧ (∀ y, ¬ y ∈ u → rank y ≤ N)

/-- The insertion fold behind `jsSetOf` keeps order, adds nothing new,
and never duplicates. -/
theorem jsSetOf_fold_spec :
    ∀ (l acc : List String), acc.Nodup →
      ((l.foldl (fun acc x => if x ∈ acc then acc else acc ++ [x]) acc).Nodup ∧
       ∀ x, x ∈ l.foldl (fun acc x => if x ∈ acc then acc else acc ++ [x]) acc ↔
         x ∈ acc ∨ x ∈ l) := by
  intro l
  induction l with
  | nil =>
    intro acc hacc
    exact ⟨hacc, fun x => by simp⟩
  | cons a l ih =>
    intro acc hacc
    by_cases ha : a ∈ acc
    · obtain ⟨h1, h2⟩ := ih acc hacc
      refine ⟨by simpa [List.foldl_cons, ha] using h1, fun x => ?_⟩
      rw [List.foldl_cons, if_pos ha, h2 x]
      constructor
      · rintro (h | h)
        · exact Or.inl h
        · exact Or.inr (List.mem_cons_of_mem _ h)
      · rintro (h | h)
        · exact Or.inl h
        · rcases List.mem_cons.mp h with rfl | h
          · exact Or.inl ha
          · exact Or.inr h
    · have hacc' : (acc ++ [a]).Nodup := by
        rw [List.nodup_append]
        exact ⟨hacc, List.nodup_singleton a, by simpa using ha⟩
      obtain ⟨h1, h2⟩ := ih (acc ++ [a]) hacc'
      refine ⟨by simpa [List.foldl_cons, ha] using h1, fun x => ?_⟩
      rw [List.foldl_cons, if_neg ha, h2 x]
      simp only [List.mem_append, List.mem_singleton, List.mem_cons]
      tauto

/-- `jsSetOf` produces a duplicate-free list. -/
theorem jsSetOf_nodup (l : List String) : (jsSetOf l).Nodup :=
  (jsSetOf_fold_spec l [] List.nodup_nil).1

/-- `jsSetOf` has the same members as its input. -/
theorem jsSetOf_mem (l : List String) (x : String) : x ∈ jsSetOf l ↔ x ∈ l := by
  rw [jsSetOf, (jsSetOf_fold_spec l [] List.nodup_nil).2 x]
  simp

/-- The invariant holds on `dijkstra`'s initial state. -/
theorem dbase_init (g : Graph) (s : String) :
    DBase g s (jsSetOf (nodeIds g))
      ((nodeIds g).foldl (fun d n => setKey d n (if n = s then JNum.val 0 else JNum.inf))
        (fun _ => JNum.undef))
      ((nodeIds g).foldl (fun p n => setKey p n JPrev.null) (fun _ => JPrev.undef)) := by
  have hdist : ∀ x, ((nodeIds g).foldl
      (fun d n => setKey d n (if n = s then JNum.val 0 else JNum.inf))
      (fun _ => JNum.undef)) x =
      if x ∈ nodeIds g then (if x = s then JNum.val 0 else JNum.inf) else JNum.undef :=
    fun x => foldl_setKey_eval (nodeIds g) (fun n => if n = s then JNum.val 0 else JNum.inf)
      (fun _ => JNum.undef) x
  have hprev : ∀ x, ((nodeIds g).foldl (fun p n => setKey p n JPrev.null)
      (fun _ => JPrev.undef)) x =
      if x ∈ nodeIds g then JPrev.null else JPrev.undef :=
    fun x => foldl_setKey_eval (nodeIds g) (fun _ => JPrev.null) (fun _ => JPrev.undef) x
  refine ⟨?_, jsSetOf_nodup _, ?_, ?_, ?_, ?_, ?_, ?_, ?_⟩
  · intro x hx
    exact (jsSetOf_mem _ x).mp hx
  · intro x hx
    rw [hdist x, if_neg hx, hprev x, if_neg hx]
    exact ⟨rfl, rfl⟩
  · intro x hx
    rw [hdist x, if_pos hx]
    by_cases hxs : x = s
    · exact Or.inr ⟨0, by rw [if_pos hxs]⟩
    · exact Or.inl (by rw [if_neg hxs])
  · intro x hx
    rw [hprev x, if_pos hx]
    exact Or.inl rfl
  · intro x q hq
    rw [hdist x] at hq
    by_cases hx : x ∈ nodeIds g
    · rw [if_pos hx] at hq
      by_cases hxs : x = s
      · rw [if_pos hxs] at hq
        refine ⟨[], ?_, ?_⟩
        · simp [isChain, hxs]
        · cases hq
          rfl
      · rw [if_neg hxs] at hq
        cases hq
    · rw [if_neg hx] at hq
      cases hq
  · intro x y hxy
    rw [hprev x] at hxy
    by_cases hx : x ∈ nodeIds g
    · rw [if_pos hx] at hxy
      cases hxy
    · rw [if_neg hx] at hxy
      cases hxy
  · intro x q hq hnull
    rw [hdist x] at hq
    by_cases hx : x ∈ nodeIds g
    · rw [if_pos hx] at hq
      by_cases hxs : x = s
      · exact hxs
      · rw [if_neg hxs] at hq
        cases hq
    · rw [if_neg hx] at hq
      cases hq
  · refine ⟨fun _ => 0, 0, ?_, fun y _ => Nat.le_refl 0⟩
    intro x y hxy
    rw [hprev x] at hxy
    by_cases hx : x ∈ nodeIds g
    · rw [if_pos hx] at hxy
      cases hxy
    · rw [if_neg hx] at hxy
      cases hxy

/-- One settling step of the main loop preserves the base invariant:
the selected node `c` is deleted from the unvisited list and its
outgoing edges are relaxed. -/
theorem dbase_step (g : Graph) (s : String) (u : List String) (dist : String → JNum)
    (prev : String → JPrev) (c : String)
    (hB : DBase g s u dist prev) (hfm : findMin dist u = some c) :
    DBase g s (u.erase c) (relaxEdges g c (u.erase c) (dist, prev)).1
      (relaxEdges g c (u.erase c) (dist, prev)).2 := by
  obtain ⟨hcu, ⟨qc, hqc⟩, hmin⟩ := findMin_some dist u c hfm
  have hmemerase : ∀ x, x ∈ u.erase c ↔ x ≠ c ∧ x ∈ u := fun x => hB.unodup.mem_erase_iff
  have hcu' : ¬ c ∈ u.erase c := fun h => ((hmemerase c).mp h).1 rfl
  obtain ⟨dp', hfold, hcc, hout, hprov, hrelax, hdec⟩ :=
    relaxFold_spec c (u.erase c) hcu' (g.edges.filter (fun e => e.source = c)) (dist, prev)
  have hre : relaxEdges g c (u.erase c) (dist, prev) = dp' := hfold
  dsimp only at hcc hout hprov hrelax hdec
  rw [hre]
  have hcids : c ∈ nodeIds g := hB.usub c hcu
  refine ⟨?_, hB.unodup.erase c, ?_, ?_, ?_, ?_, ?_, ?_, ?_⟩
  · intro x hx
    exact hB.usub x ((hmemerase x).mp hx).2
  · intro x hx
    have hxu : ¬ x ∈ u.erase c := fun h => hx (hB.usub x ((hmemerase x).mp h).2)
    obtain ⟨h1, h2⟩ := hout x hxu
    rw [h1, h2]
    exact hB.ghost x hx
  · intro x hx
    rcases hprov x with ⟨h1, _⟩ | ⟨_, e, _, _, hv, _⟩
    · rw [h1]
      exact hB.idsdist x hx
    · rw [hv, hqc]
      exact Or.inr ⟨qc + e.weight, rfl⟩
  · intro x hx
    rcases hprov x with ⟨_, h2⟩ | ⟨_, e, _, _, _, hp⟩
    · rw [h2]
      exact hB.idsprev x hx
    · rw [hp]
      exact Or.inr ⟨c, rfl⟩
  · intro x q hq
    rcases hprov x with ⟨h1, _⟩ | ⟨_, e, he, het, hv, _⟩
    · rw [h1] at hq
      exact hB.sound x q hq
    · rw [hv, hqc] at hq
      obtain ⟨he', hsrc⟩ := List.mem_filter.mp he
      obtain ⟨esc, hchc, hwc⟩ := hB.sound c qc hqc
      cases hq
      refine ⟨esc ++ [e], ?_, ?_⟩
      · rw [← het]
        exact isChain_snoc g s c esc e hchc he' (by simpa using hsrc)
      · rw [wsum_append, hwc]
        simp [wsum]
  · intro x y hxy
    rcases hprov x with ⟨h1, h2⟩ | ⟨hxu, e, he, het, hv, hp⟩
    · rw [h2] at hxy
      obtain ⟨hyids, hyu, e, qx, qy, he, hsrc, htgt, hdx, hdy, heq⟩ := hB.prevP x y hxy
      have hyu' : ¬ y ∈ u.erase c := fun h => hyu ((hmemerase y).mp h).2
      obtain ⟨hy1, _⟩ := hout y hyu'
      exact ⟨hyids, hyu', e, qx, qy, he, hsrc, htgt, h1.trans hdx, hy1.trans hdy, heq⟩
    · have hyc : y = c := by
        rw [hp] at hxy
        cases hxy
        rfl
      subst hyc
      obtain ⟨he', hsrc⟩ := List.mem_filter.mp he
      refine ⟨hcids, hcu', e, qc + e.weight, qc, he', by simpa using hsrc, het, ?_, ?_, rfl⟩
      · rw [hv, hqc]
        rfl
      · rw [hcc]
        exact hqc
  · intro x q hq hnull
    rcases hprov x with ⟨h1, h2⟩ | ⟨_, e, _, _, _, hp⟩
    · rw [h1] at hq
      rw [h2] at hnull
      exact hB.prevNull x q hq hnull
    · rw [hp] at hnull
      cases hnull
  · obtain ⟨rank, N, hdesc, hbound⟩ := hB.rankF
    refine ⟨fun x => if x ∈ u.erase c then N + 2 else if x = c then N + 1 else rank x,
      N + 1, ?_, ?_⟩
    · intro x y hxy
      dsimp only
      rcases hprov x with ⟨h1, h2⟩ | ⟨hxu, e, he, het, hv, hp⟩
      · rw [h2] at hxy
        obtain ⟨_, hyu, _⟩ := hB.prevP x y hxy
        have hyc : y ≠ c := fun h => hyu (h ▸ hcu)
        have hyu' : ¬ y ∈ u.erase c := fun h => hyu ((hmemerase y).mp h).2
        rw [if_neg hyu', if_neg hyc]
        by_cases hx1 : x ∈ u.erase c
        · rw [if_pos hx1]
          have := hbound y hyu
          omega
        · rw [if_neg hx1]
          by_cases hx2 : x = c
          · rw [if_pos hx2]
            have := hbound y hyu
            omega
          · rw [if_neg hx2]
            exact hdesc x y hxy
      · have hyc : y = c := by
          rw [hp] at hxy
          cases hxy
          rfl
        subst hyc
        rw [if_pos hxu, if_neg hcu', if_pos rfl]
        omega
    · intro y hy
      dsimp only
      by_cases hyc : y = c
      · subst hyc
        rw [if_neg hy, if_pos rfl]
      · rw [if_neg hy, if_neg hyc]
        have hyu : ¬ y ∈ u := fun h => hy ((hmemerase y).mpr ⟨hyc, h⟩)
        have := hbound y hyu
        omega

/-- `dijkstraLoop` at fuel 0. -/
theorem dijkstraLoop_zero (g : Graph) (t : String) (u : List String) (dist : String → JNum)
    (prev : String → JPrev) : dijkstraLoop g t 0 u dist prev = (dist, prev) := rfl

/-- One unfolding of `dijkstraLoop` at positive fuel. -/
theorem dijkstraLoop_succ (g : Graph) (t : String) (fuel : Nat) (u : List String)
    (dist : String → JNum) (prev : String → JPrev) :
    dijkstraLoop g t (fuel + 1) u dist prev =
      match findMin dist u with
      | none => (dist, prev)
      | some c =>
        if c = "" then (dist, prev)
        else if dist c = JNum.inf then (dist, prev)
        else if c = t then (dist, prev)
        else dijkstraLoop g t fuel (u.erase c) (relaxEdges g c (u.erase c) (dist, prev)).1
          (relaxEdges g c (u.erase c) (dist, prev)).2 := rfl

/-- Running the main loop from any invariant state lands in an
invariant state. -/
theorem dbase_loop (g : Graph) (s t : String) :
    ∀ (fuel : Nat) (u : List String) (dist : String → JNum) (prev : String → JPrev),
      fuel = u.length → DBase g s u dist prev →
      ∃ u2, DBase g s u2 (dijkstraLoop g t fuel u dist prev).1
        (dijkstraLoop g t fuel u dist prev).2 := by
  intro fuel
  induction fuel with
  | zero =>
    intro u dist prev hlen hB
    exact ⟨u, hB⟩
  | succ fuel ih =>
    intro u dist prev hlen hB
    rw [dijkstraLoop_succ]
    rcases hfm : findMin dist u with _ | c
    · exact ⟨u, hB⟩
    · dsimp only
      by_cases hce : c = ""
      · rw [if_pos hce]
        exact ⟨u, hB⟩
      · rw [if_neg hce]
        by_cases hci : dist c = JNum.inf
        · rw [if_pos hci]
          exact ⟨u, hB⟩
        · rw [if_neg hci]
          by_cases hct : c = t
          · rw [if_pos hct]
            exact ⟨u, hB⟩
          · rw [if_neg hct]
            have hcu : c ∈ u := (findMin_some dist u c hfm).1
            have hlen' : fuel = (u.erase c).length := by
              rw [List.length_erase_of_mem hcu]
              omega
            exact ih (u.erase c) _ _ hlen' (dbase_step g s u dist prev c hB hfm)

/-- A filter for a strictly weaker predicate is strictly shorter when
some member separates the two. -/
theorem length_filter_lt_of_strict {l : List String} {p q : String → Bool}
    (hpq : ∀ w, p w = true → q w = true) (a : String) (ha : a ∈ l)
    (hqa : q a = true) (hpa : p a = false) :
    (l.filter p).length < (l.filter q).length := by
  have hsub := List.monotone_filter_right l hpq
  rcases Nat.lt_or_ge (l.filter p).length (l.filter q).length with h | h
  · exact h
  · exfalso
    have heq : l.filter p = l.filter q :=
      hsub.eq_of_length (Nat.le_antisymm hsub.length_le h)
    have hmem : a ∈ l.filter p := heq ▸ List.mem_filter.mpr ⟨ha, hqa⟩
    have := (List.mem_filter.mp hmem).2
    rw [hpa] at this
    cases this

/-- The reconstruction loop stops immediately on `null` at any fuel. -/
theorem reconstruct_null (prev : String → JPrev) (k : Nat) (acc : List String) :
    reconstructLoop prev k JPrev.null acc = some acc := by
  cases k <;> rfl

/-- The reconstruction loop, run from a node with finite distance in an
invariant state, terminates (with fuel beyond the rank-count of the
node) and returns the node sequence of a chain from the source whose
weight accounts exactly for the stored distance. -/
theorem reconstruct_spec (g : Graph) (s : String) (dist : String → JNum)
    (prev : String → JPrev) (rank : String → Nat)
    (hids : ∀ x ∈ nodeIds g, prev x = JPrev.null ∨ ∃ y, prev x = JPrev.str y)
    (hprevP : ∀ x y, prev x = JPrev.str y → y ∈ nodeIds g ∧
      ∃ e qx qy, e ∈ g.edges ∧ e.source = y ∧ e.target = x ∧
        dist x = JNum.val qx ∧ dist y = JNum.val qy ∧ qx = qy + e.weight)
    (hnull : ∀ x q, dist x = JNum.val q → prev x = JPrev.null → x = s)
    (hdesc : ∀ x y, prev x = JPrev.str y → rank y < rank x) :
    ∀ (k : Nat) (x : String) (qx : ℚ), x ∈ nodeIds g → dist x = JNum.val qx →
      (((nodeIds g).dedup).filter (fun w => rank w < rank x)).length < k →
      ∃ es, isChain g s es x = true ∧
        (∀ qs, dist s = JNum.val qs → wsum es = qx - qs) ∧
        ∀ acc, reconstructLoop prev k (JPrev.str x) acc = some (nodeSeq s es ++ acc) := by
  intro k
  induction k with
  | zero =>
    intro x qx _ _ hm
    omega
  | succ k ih =>
    intro x qx hxids hqx hm
    rcases hids x hxids with hpx | ⟨y, hpx⟩
    · have hxs : x = s := hnull x qx hqx hpx
      subst hxs
      refine ⟨[], by simp [isChain], ?_, ?_⟩
      · intro qs hqs
        rw [hqx] at hqs
        cases hqs
        simp [wsum]
      · intro acc
        show reconstructLoop prev k (prev (keyOf (JPrev.str x))) (keyOf (JPrev.str x) :: acc) =
          some (nodeSeq x [] ++ acc)
        simp only [keyOf]
        rw [hpx, reconstruct_null]
        rfl
    · obtain ⟨hyids, e, qx', qy, he, hsrc, htgt, hdx, hdy, heq⟩ := hprevP x y hpx
      have hqq : qx' = qx := by
        rw [hqx] at hdx
        cases hdx
        rfl
      subst hqq
      have hrk : rank y < rank x := hdesc x y hpx
      have hmy : (((nodeIds g).dedup).filter (fun w => rank w < rank y)).length <
          (((nodeIds g).dedup).filter (fun w => rank w < rank x)).length := by
        refine length_filter_lt_of_strict ?_ y (List.mem_dedup.mpr hyids) ?_ ?_
        · intro w hw
          simp only [decide_eq_true_eq] at hw ⊢
          omega
        · simp only [decide_eq_true_eq]
          exact hrk
        · simp only [decide_eq_false_iff_not]
          omega
      obtain ⟨es, hch, hws, hrec⟩ := ih y qy hyids hdy (by omega)
      refine ⟨es ++ [e], ?_, ?_, ?_⟩
      · rw [← htgt]
        exact isChain_snoc g s y es e hch he hsrc
      · intro qs hqs
        rw [wsum_append, hws qs hqs]
        simp only [wsum, List.map_cons, List.map_nil, List.sum_cons, List.sum_nil]
        linarith [heq]
      · intro acc
        show reconstructLoop prev k (prev (keyOf (JPrev.str x))) (keyOf (JPrev.str x) :: acc) =
          _
        simp only [keyOf]
        rw [hpx, hrec (x :: acc)]
        have : nodeSeq s (es ++ [e]) = nodeSeq s es ++ [x] := by
          simp [nodeSeq, htgt]
        rw [this, List.append_assoc]
        rfl

/-- A successful reconstruction is stable under extra fuel. -/
theorem reconstructLoop_mono (prev : String → JPrev) :
    ∀ (k k' : Nat) (cur : JPrev) (acc res : List String), k ≤ k' →
      reconstructLoop prev k cur acc = some res →
      reconstructLoop prev k' cur acc = some res := by
  intro k
  induction k with
  | zero =>
    intro k' cur acc res _ h
    simp only [reconstructLoop] at h
    by_cases hc : cur = JPrev.null
    · rw [if_pos hc] at h
      cases h
      rw [hc, reconstruct_null]
    · rw [if_neg hc] at h
      cases h
  | succ k ih =>
    intro k' cur acc res hle h
    obtain ⟨k'', rfl⟩ : ∃ k'', k' = k'' + 1 := ⟨k' - 1, by omega⟩
    cases cur with
    | null =>
      rw [reconstruct_null] at h ⊢
      exact h
    | undef => exact ih k'' _ _ res (by omega) h
    | str c => exact ih k'' _ _ res (by omega) h

/-- Once the cursor is `undefined`, the JS reconstruction loop never
stops: `previous[undefined]` reads the key `"undefined"`, which (when it
is no node) stays `undefined` forever. -/
theorem reconstruct_undef (prev : String → JPrev) (hp : prev "undefined" = JPrev.undef) :
    ∀ (fuel : Nat) (acc : List String),
      reconstructLoop prev fuel JPrev.undef acc = none := by
  intro fuel
  induction fuel with
  | zero => intro acc; rfl
  | succ fuel ih =>
    intro acc
    show reconstructLoop prev fuel (prev "undefined") ("undefined" :: acc) = none
    rw [hp]
    exact ih _

/-- `dijkstraFuel` unfolded to its loop results. -/
theorem dijkstraFuel_eq (g : Graph) (s t : String) (f : Nat) :
    dijkstraFuel g s t f =
      (if (dijkstraLoop g t (jsSetOf (nodeIds g)).length (jsSetOf (nodeIds g))
            ((nodeIds g).foldl
              (fun d n => setKey d n (if n = s then JNum.val 0 else JNum.inf))
              (fun _ => JNum.undef))
            ((nodeIds g).foldl (fun p n => setKey p n JPrev.null)
              (fun _ => JPrev.undef))).1 t = JNum.inf
       then some { found := false, distance := 0, path := [] }
       else
        match reconstructLoop
            (dijkstraLoop g t (jsSetOf (nodeIds g)).length (jsSetOf (nodeIds g))
              ((nodeIds g).foldl
                (fun d n => setKey d n (if n = s then JNum.val 0 else JNum.inf))
                (fun _ => JNum.undef))
              ((nodeIds g).foldl (fun p n => setKey p n JPrev.null)
                (fun _ => JPrev.undef))).2 f (JPrev.str t) [] with
        | none => none
        | some p =>
          some { found := true,
                 distance := jval ((dijkstraLoop g t (jsSetOf (nodeIds g)).length
                   (jsSetOf (nodeIds g))
                   ((nodeIds g).foldl
                     (fun d n => setKey d n (if n = s then JNum.val 0 else JNum.inf))
                     (fun _ => JNum.undef))
                   ((nodeIds g).foldl (fun p n => setKey p n JPrev.null)
                     (fun _ => JPrev.undef))).1 t),
                 path := p }) := rfl

/-- When the requested end id is not a node (and no node is literally
named `"undefined"`) but the stored distance is not `Infinity` —
which is automatic, since a ghost key reads `undefined` — the
reconstruction loop of `dijkstra` never terminates: at every fuel the
model returns `none`. -/
theorem dijkstra_ghost_diverges (g : Graph) (s t : String) (ht : ¬ t ∈ nodeIds g)
    (hu : ¬ "undefined" ∈ nodeIds g) :
    ∀ rfuel : Nat, dijkstraFuel g s t rfuel = none := by
  intro rfuel
  obtain ⟨u2, hB⟩ := dbase_loop g s t (jsSetOf (nodeIds g)).length (jsSetOf (nodeIds g))
    ((nodeIds g).foldl (fun d n => setKey d n (if n = s then JNum.val 0 else JNum.inf))
      (fun _ => JNum.undef))
    ((nodeIds g).foldl (fun p n => setKey p n JPrev.null) (fun _ => JPrev.undef))
    rfl (dbase_init g s)
  rw [dijkstraFuel_eq]
  obtain ⟨hdt, hpt⟩ := hB.ghost t ht
  obtain ⟨hdu, hpu⟩ := hB.ghost "undefined" hu
  rw [if_neg (by rw [hdt]; intro h; cases h)]
  have hrec : reconstructLoop
      (dijkstraLoop g t (jsSetOf (nodeIds g)).length (jsSetOf (nodeIds g))
        ((nodeIds g).foldl
          (fun d n => setKey d n (if n = s then JNum.val 0 else JNum.inf))
          (fun _ => JNum.undef))
        ((nodeIds g).foldl (fun p n => setKey p n JPrev.null)
          (fun _ => JPrev.undef))).2 rfuel (JPrev.str t) [] = none := by
    cases rfuel with
    | zero => rfl
    | succ rfuel =>
      show reconstructLoop _ rfuel _ (keyOf (JPrev.str t) :: []) = none
      simp only [keyOf]
      rw [hpt]
      exact reconstruct_undef _ hpu rfuel _
  rw [hrec]

/-- C8: refuted as stated.  The claim quantifies over arbitrary id
strings "including strings that are not the id of any node"; for an end
id that is no node, `distances[endId]` is `undefined`, which is not
`=== Infinity`, so the code enters reconstruction, where
`previous[endId]` is `undefined` and `previous["undefined"]` stays
`undefined`: `while (current !== null)` never exits.  On the two-node
graph `gRev` with end id `"C"`, the model returns `none` (divergence)
at every reconstruction fuel. -/
theorem C8_counterexample :
    dijkstra gRev "A" "C" = none ∧
      ∀ rfuel : Nat, dijkstraFuel gRev "A" "C" rfuel = none := by
  have h := dijkstra_ghost_diverges gRev "A" "C"
    (by simp [gRev, nodeIds]) (by simp [gRev, nodeIds])
  exact ⟨h (gRev.nodes.length + 1), h⟩

/-- Master run theorem for `dijkstra` with a genuine end node: the
call terminates with a stable result, and a found result carries the
node sequence of a real chain from the start id to the end id. -/
theorem dijkstra_runs (g : Graph) (s t : String) (ht : t ∈ nodeIds g) :
    ∃ r : PathResult, dijkstra g s t = some r ∧
      (∀ f : Nat, g.nodes.length + 1 ≤ f → dijkstraFuel g s t f = some r) ∧
      (r.found = false → r.distance = 0 ∧ r.path = []) ∧
      (r.found = true → ∃ es, isChain g s es t = true ∧ r.path = nodeSeq s es) := by
  obtain ⟨u2, hB⟩ := dbase_loop g s t (jsSetOf (nodeIds g)).length (jsSetOf (nodeIds g))
    ((nodeIds g).foldl (fun d n => setKey d n (if n = s then JNum.val 0 else JNum.inf))
      (fun _ => JNum.undef))
    ((nodeIds g).foldl (fun p n => setKey p n JPrev.null) (fun _ => JPrev.undef))
    rfl (dbase_init g s)
  set dp := dijkstraLoop g t (jsSetOf (nodeIds g)).length (jsSetOf (nodeIds g))
    ((nodeIds g).foldl (fun d n => setKey d n (if n = s then JNum.val 0 else JNum.inf))
      (fun _ => JNum.undef))
    ((nodeIds g).foldl (fun p n => setKey p n JPrev.null) (fun _ => JPrev.undef)) with hdp
  by_cases hinf : dp.1 t = JNum.inf
  · refine ⟨{ found := false, distance := 0, path := [] }, ?_, ?_, ?_, ?_⟩
    · show dijkstraFuel g s t (g.nodes.length + 1) = _
      rw [dijkstraFuel_eq, ← hdp, if_pos hinf]
    · intro f _
      rw [dijkstraFuel_eq, ← hdp, if_pos hinf]
    · intro _
      exact ⟨rfl, rfl⟩
    · intro h
      simp at h
  · obtain ⟨qt, hqt⟩ : ∃ qt, dp.1 t = JNum.val qt := by
      rcases hB.idsdist t ht with h | h
      · exact absurd h hinf
      · exact h
    obtain ⟨rank, N, hdesc, _⟩ := hB.rankF
    have hcount : (((nodeIds g).dedup).filter (fun w => rank w < rank t)).length <
        g.nodes.length + 1 := by
      have h1 := List.length_filter_le (fun w => rank w < rank t) ((nodeIds g).dedup)
      have h2 := (List.dedup_sublist (nodeIds g)).length_le
      have h3 : (nodeIds g).length = g.nodes.length := List.length_map _ _
      omega
    obtain ⟨es, hch, _, hrec⟩ := reconstruct_spec g s dp.1 dp.2 rank
      hB.idsprev
      (fun x y h => ⟨(hB.prevP x y h).1, (hB.prevP x y h).2.2⟩)
      hB.prevNull hdesc (g.nodes.length + 1) t qt ht hqt hcount
    refine ⟨{ found := true, distance := jval (dp.1 t), path := nodeSeq s es }, ?_, ?_, ?_, ?_⟩
    · show dijkstraFuel g s t (g.nodes.length + 1) = _
      rw [dijkstraFuel_eq, ← hdp, if_neg hinf]
      have h := hrec []
      rw [List.append_nil] at h
      rw [h]
    · intro f hf
      rw [dijkstraFuel_eq, ← hdp, if_neg hinf]
      have h := reconstructLoop_mono dp.2 (g.nodes.length + 1) f (JPrev.str t) []
        (nodeSeq s es ++ []) hf (hrec [])
      rw [List.append_nil] at h
      rw [h]
    · intro h
      simp at h
    · intro _
      exact ⟨es, hch, rfl⟩

/-- C8 (amended): whenever the requested end id IS a node of the graph
— the start id and the weights stay arbitrary — `dijkstra` terminates
and returns a `PathResult`: the model yields `some` result, the same
one at every reconstruction fuel of at least `nodes.length + 1`, so the
JS reconstruction loop reaches `null` after at most `nodes.length`
steps. -/
theorem C8_amended (g : Graph) (s t : String) (ht : t ∈ nodeIds g) :
    ∃ r : PathResult, dijkstra g s t = some r ∧
      ∀ f : Nat, g.nodes.length + 1 ≤ f → dijkstraFuel g s t f = some r := by
  obtain ⟨r, h1, h2, _, _⟩ := dijkstra_runs g s t ht
  exact ⟨r, h1, h2⟩

/-- Witness for C8 (amended) on the scenario graph: `dijkstra` from A
to D terminates with a result. -/
theorem C8_amended_witness :
    ∃ r : PathResult, dijkstra gScenario "A" "D" = some r ∧
      ∀ f : Nat, gScenario.nodes.length + 1 ≤ f →
        dijkstraFuel gScenario "A" "D" f = some r :=
  C8_amended gScenario "A" "D" (by simp [gScenario, nodeIds])

/-- First-match lookup over a keyed map whose values depend only on the
key: any occurrence of the key yields the same value. -/
theorem find_map_keyed {β : Type} (E : String → β) :
    ∀ (ns : List Node) (s : String), s ∈ ns.map (fun n => n.id) →
      (ns.map (fun n => (n.id, E n.id))).find? (fun p => p.1 = s) = some (s, E s) := by
  intro ns
  induction ns with
  | nil =>
    intro s hs
    simp at hs
  | cons n ns ih =>
    intro s hs
    by_cases hn : n.id = s
    · simp only [List.map_cons, List.find?_cons]
      rw [hn]
      simp
    · simp only [List.map_cons, List.mem_cons] at hs
      rcases hs with hs | hs
      · exact absurd hs.symm hn
      · simp only [List.map_cons, List.find?_cons]
        rw [decide_eq_false hn]
        exact ih s hs

/-- The entry list `buildRoutingTables` computes for the row of a
given source id (the value stored at `routingTable[sid]`). -/
def rtEntries (g : Graph) (sid : String) : List RoutingTableEntry :=
  (g.nodes.filter (fun dn => dn.id ≠ sid)).filterMap (fun dn =>
    match dijkstra g sid dn.id with
    | some r =>
      if r.found && decide (r.path.length > 1) then
        some { destination := dn.id, nextHop := r.path.getD 1 "", distance := r.distance }
      else none
    | none => none)

/-- `buildRoutingTables` is the keyed map of `rtEntries` rows. -/
theorem buildRoutingTables_eq (g : Graph) :
    buildRoutingTables g = g.nodes.map (fun sn => (sn.id, rtEntries g sn.id)) := rfl

/-- `routingTable[s]` for a node id `s`: the entry list computed by
`buildRoutingTables` from `s`. -/
theorem rtFind_build (g : Graph) (s : String) (hs : s ∈ nodeIds g) :
    rtFind (buildRoutingTables g) s = some (rtEntries g s) :=
  congrArg (Option.map Prod.snd) (find_map_keyed (rtEntries g) g.nodes s hs)

/-- C5: refuted as stated.  The claim quantifies over ALL pairs of
nodes s, t; at s = t `dijkstra` returns found = true (with path [s]),
but `buildRoutingTables` filters the destination s out of s's row, so
no entry exists: the "entry iff found" equivalence fails. -/
theorem C5_counterexample :
    ∃ r, dijkstra gRev "A" "A" = some r ∧ r.found = true ∧
      ∃ entries, rtFind (buildRoutingTables gRev) "A" = some entries ∧
        ∀ e ∈ entries, e.destination ≠ "A" := by
  refine ⟨{ found := true, distance := 0, path := ["A"] }, by with_unfolding_all decide,
    rfl, [], by with_unfolding_all decide, by simp⟩

/-- C5 (amended): for two DISTINCT nodes s ≠ t of the graph,
`buildRoutingTables(g)[s]` has an entry with destination t exactly when
`dijkstra(g, s, t).found` is true, and every such entry carries
`nextHop = path[1]` and `distance` of that dijkstra result. -/
theorem C5_amended (g : Graph) (s t : String) (hs : s ∈ nodeIds g) (ht : t ∈ nodeIds g)
    (hst : s ≠ t) :
    ∃ r entries, dijkstra g s t = some r ∧
      rtFind (buildRoutingTables g) s = some entries ∧
      ((∃ e ∈ entries, e.destination = t) ↔ r.found = true) ∧
      ∀ e ∈ entries, e.destination = t →
        e.nextHop = r.path.getD 1 "" ∧ e.distance = r.distance := by
  obtain ⟨r, hr, _, _, htrue⟩ := dijkstra_runs g s t ht
  have hmem : ∀ e, e ∈ rtEntries g s → e.destination = t →
      r.found = true ∧ e.nextHop = r.path.getD 1 "" ∧ e.distance = r.distance := by
    intro e he hdest
    rw [rtEntries, List.mem_filterMap] at he
    obtain ⟨dn, _, hfe⟩ := he
    cases hd : dijkstra g s dn.id with
    | none =>
      rw [hd] at hfe
      dsimp only at hfe
      cases hfe
    | some r' =>
      rw [hd] at hfe
      dsimp only at hfe
      by_cases hc : (r'.found && decide (r'.path.length > 1)) = true
      · rw [if_pos hc] at hfe
        cases hfe
        have hdn : dn.id = t := hdest
        rw [hdn, hr] at hd
        cases hd
        simp only [Bool.and_eq_true, decide_eq_true_eq] at hc
        exact ⟨hc.1, rfl, rfl⟩
      · rw [if_neg hc] at hfe
        cases hfe
  refine ⟨r, rtEntries g s, hr, rtFind_build g s hs, ⟨?_, ?_⟩, fun e he hd => (hmem e he hd).2⟩
  · rintro ⟨e, he, hdest⟩
    exact (hmem e he hdest).1
  · intro hfound
    obtain ⟨es, hch, hpath⟩ := htrue hfound
    have hlen : r.path.length > 1 := by
      cases es with
      | nil =>
        have : s = t := by simpa [isChain] using hch
        exact absurd this hst
      | cons e es' =>
        rw [hpath]
        simp [nodeSeq]
    obtain ⟨nd, hnd, hndid⟩ : ∃ nd, nd ∈ g.nodes ∧ nd.id = t := by
      obtain ⟨nd, h1, h2⟩ := List.mem_map.mp ht
      exact ⟨nd, h1, h2⟩
    refine ⟨{ destination := t, nextHop := r.path.getD 1 "", distance := r.distance },
      ?_, rfl⟩
    rw [rtEntries, List.mem_filterMap]
    refine ⟨nd, ?_, ?_⟩
    · rw [List.mem_filter]
      refine ⟨hnd, ?_⟩
      simp only [hndid, decide_eq_true_eq]
      exact fun h => hst h.symm
    · rw [hndid, hr]
      dsimp only
      rw [if_pos (by simp [hfound, hlen])]

/-- C5 (amended) witness: on the scenario graph, row A has a B-entry
agreeing with dijkstra A→B. -/
theorem C5_amended_witness :
    ∃ r entries, dijkstra gScenario "A" "B" = some r ∧
      rtFind (buildRoutingTables gScenario) "A" = some entries ∧
      ((∃ e ∈ entries, e.destination = "B") ↔ r.found = true) ∧
      ∀ e ∈ entries, e.destination = "B" →
        e.nextHop = r.path.getD 1 "" ∧ e.distance = r.distance :=
  C5_amended gScenario "A" "B" (by simp [gScenario, nodeIds]) (by simp [gScenario, nodeIds])
    (by simp)

/-- Splitting a chain at its last edge. -/
theorem isChain_unsnoc (g : Graph) (a x : String) (es : List Edge) (e : Edge)
    (h : isChain g a (es ++ [e]) x = true) :
    isChain g a es e.source = true ∧ e ∈ g.edges ∧ e.target = x := by
  induction es generalizing a with
  | nil =>
    simp only [List.nil_append, isChain, Bool.and_eq_true, decide_eq_true_eq] at h
    obtain ⟨⟨he, hsrc⟩, htgt⟩ := h
    exact ⟨by simp [isChain, hsrc], he, htgt⟩
  | cons f es ih =>
    simp only [List.cons_append, isChain, Bool.and_eq_true, decide_eq_true_eq] at h
    obtain ⟨⟨hf, hfs⟩, hch⟩ := h
    obtain ⟨h1, h2, h3⟩ := ih f.target hch
    exact ⟨by simp [isChain, hf, hfs, h1], h2, h3⟩

/-- The additional loop invariant that positive weights buy: the source
keeps distance 0, settled nodes have finite and optimal distances no
larger than any unvisited finite distance, and every edge out of a
settled node has been relaxed. -/
structure DOpt (g : Graph) (s : String) (u : List String) (dist : String → JNum) : Prop where
  szero : dist s = JNum.val 0
  settledVal : ∀ x, ¬ x ∈ u → x ∈ nodeIds g → ∃ q, dist x = JNum.val q
  settledOpt : ∀ x q, ¬ x ∈ u → x ∈ nodeIds g → dist x = JNum.val q →
    ∀ es, isChain g s es x = true → q ≤ wsum es
  mono : ∀ x qx, ¬ x ∈ u → x ∈ nodeIds g → dist x = JNum.val qx →
    ∀ y qy, y ∈ u → dist y = JNum.val qy → qx ≤ qy
  relaxC : ∀ e, e ∈ g.edges → ¬ e.source ∈ u → e.source ∈ nodeIds g →
    e.target ∈ u → ∀ qx, dist e.source = JNum.val qx →
    ∃ qy, dist e.target = JNum.val qy ∧ qy ≤ qx + e.weight

/-- The optimality invariant holds initially: no node is settled yet
and the source starts at 0. -/
theorem dopt_init (g : Graph) (s : String) (hs : s ∈ nodeIds g) :
    DOpt g s (jsSetOf (nodeIds g))
      ((nodeIds g).foldl (fun d n => setKey d n (if n = s then JNum.val 0 else JNum.inf))
        (fun _ => JNum.undef)) := by
  have hset : ∀ x, x ∈ jsSetOf (nodeIds g) ↔ x ∈ nodeIds g := jsSetOf_mem (nodeIds g)
  refine ⟨?_, ?_, ?_, ?_, ?_⟩
  · rw [foldl_setKey_eval]
    simp [hs]
  · intro x hx hids
    exact absurd ((hset x).mpr hids) hx
  · intro x q hx hids
    exact absurd ((hset x).mpr hids) hx
  · intro x qx hx hids
    exact absurd ((hset x).mpr hids) hx
  · intro e _ hx hids
    exact absurd ((hset e.source).mpr hids) hx

/-- Any chain from the source into the unvisited region passes some
unvisited node that already carries a finite distance. -/
theorem chain_u_val (g : Graph) (s : String) (u : List String) (dist : String → JNum)
    (hwf : WFE g) (hO : DOpt g s u dist) :
    ∀ (es : List Edge) (x : String), isChain g s es x = true → x ∈ u →
      ∃ j qj, j ∈ u ∧ dist j = JNum.val qj := by
  intro es
  induction es using List.reverseRecOn with
  | nil =>
    intro x hch hxu
    have hsx : s = x := by simpa [isChain] using hch
    exact ⟨s, 0, hsx ▸ hxu, hO.szero⟩
  | append_singleton es e ih =>
    intro x hch hxu
    obtain ⟨hch', he, htgt⟩ := isChain_unsnoc g s x es e hch
    by_cases hsu : e.source ∈ u
    · exact ih e.source hch' hsu
    · obtain ⟨qs', hqs'⟩ := hO.settledVal e.source hsu (hwf e he).1
      obtain ⟨qy, hdy, _⟩ := hO.relaxC e he hsu (hwf e he).1 (htgt.symm ▸ hxu) qs' hqs'
      exact ⟨e.target, qy, htgt.symm ▸ hxu, hdy⟩

/-- The node selected by the minimum scan is at least as cheap as every
chain from the source into the unvisited region. -/
theorem findMin_chain_bound (g : Graph) (s : String) (u : List String) (dist : String → JNum)
    (hpos : PosW g) (hwf : WFE g) (hO : DOpt g s u dist) (c : String) (qc : ℚ)
    (hfm : findMin dist u = some c) (hqc : dist c = JNum.val qc) :
    ∀ (es : List Edge) (x : String), isChain g s es x = true → x ∈ u → qc ≤ wsum es := by
  have hmin := (findMin_some dist u c hfm).2.2
  intro es
  induction es using List.reverseRecOn with
  | nil =>
    intro x hch hxu
    have hsx : s = x := by simpa [isChain] using hch
    have h := hmin s (hsx ▸ hxu)
    rw [hO.szero, hqc] at h
    simp only [jlt, decide_eq_false_iff_not, not_lt] at h
    show qc ≤ wsum []
    simp only [wsum, List.map_nil, List.sum_nil]
    linarith
  | append_singleton es e ih =>
    intro x hch hxu
    obtain ⟨hch', he, htgt⟩ := isChain_unsnoc g s x es e hch
    have hwe : 0 < e.weight := hpos e he
    have hwsum : wsum (es ++ [e]) = wsum es + e.weight := by
      rw [wsum_append]
      simp [wsum]
    by_cases hsu : e.source ∈ u
    · have := ih e.source hch' hsu
      rw [hwsum]
      linarith
    · obtain ⟨qs', hqs'⟩ := hO.settledVal e.source hsu (hwf e he).1
      have hbound := hO.settledOpt e.source qs' hsu (hwf e he).1 hqs' es hch'
      obtain ⟨qy, hdy, hqy⟩ := hO.relaxC e he hsu (hwf e he).1 (htgt.symm ▸ hxu) qs' hqs'
      have h := hmin e.target (htgt.symm ▸ hxu)
      rw [hdy, hqc] at h
      simp only [jlt, decide_eq_false_iff_not, not_lt] at h
      rw [hwsum]
      linarith

/-- Settling the scan minimum and relaxing its outgoing edges preserves
the optimality invariant (positive weights and well-formed edges). -/
theorem dopt_step (g : Graph) (s : String) (u : List String) (dist : String → JNum)
    (prev : String → JPrev) (c : String)
    (hpos : PosW g) (hwf : WFE g)
    (hB : DBase g s u dist prev) (hO : DOpt g s u dist)
    (hfm : findMin dist u = some c) :
    DOpt g s (u.erase c) (relaxEdges g c (u.erase c) (dist, prev)).1 := by
  obtain ⟨hcu, ⟨qc, hqc⟩, hmin⟩ := findMin_some dist u c hfm
  have hmemerase : ∀ x, x ∈ u.erase c ↔ x ≠ c ∧ x ∈ u := fun x => hB.unodup.mem_erase_iff
  have hcu' : ¬ c ∈ u.erase c := fun h => ((hmemerase c).mp h).1 rfl
  obtain ⟨dp', hfold, hcc, hout, hprov, hrelax, hdec⟩ :=
    relaxFold_spec c (u.erase c) hcu' (g.edges.filter (fun e => e.source = c)) (dist, prev)
  have hre : relaxEdges g c (u.erase c) (dist, prev) = dp' := hfold
  have hB' := dbase_step g s u dist prev c hB hfm
  rw [hre] at hB'
  dsimp only at hcc hout hprov hrelax hdec
  rw [hre]
  have hqc0 : 0 ≤ qc := by
    obtain ⟨es, hch, hws⟩ := hB.sound c qc hqc
    have := chain_wsum_nonneg g hpos s c es hch
    linarith
  have hsel := findMin_chain_bound g s u dist hpos hwf hO c qc hfm hqc
  have hnotin : ∀ x, ¬ x ∈ u.erase c → x ≠ c → ¬ x ∈ u := by
    intro x hx hxc hxu
    exact hx ((hmemerase x).mpr ⟨hxc, hxu⟩)
  refine ⟨?_, ?_, ?_, ?_, ?_⟩
  · rcases hprov s with ⟨h1, _⟩ | ⟨_, e, hee, _, hv, _⟩
    · rw [h1]
      exact hO.szero
    · have hew : 0 < e.weight := hpos e (List.mem_filter.mp hee).1
      rcases hdec s with h | h
      · rw [h]
        exact hO.szero
      · exfalso
        rw [hv, hqc, hO.szero] at h
        simp only [jadd, jlt, decide_eq_true_eq] at h
        linarith
  · intro x hx hids
    by_cases hxc : x = c
    · subst hxc
      exact ⟨qc, hcc.trans hqc⟩
    · obtain ⟨h1, _⟩ := hout x hx
      rw [h1]
      exact hO.settledVal x (hnotin x hx hxc) hids
  · intro x q hx hids hq es hch
    by_cases hxc : x = c
    · subst hxc
      rw [hcc, hqc] at hq
      cases hq
      exact hsel es x hch hcu
    · obtain ⟨h1, _⟩ := hout x hx
      rw [h1] at hq
      exact hO.settledOpt x q (hnotin x hx hxc) hids hq es hch
  · intro x qx hx hids hqx y qy hy hqy
    have hyu : y ∈ u := ((hmemerase y).mp hy).2
    have hxval : dp'.1 x = JNum.val qx := hqx
    have hyprov := hprov y
    by_cases hxc : x = c
    · subst hxc
      rw [hcc, hqc] at hxval
      cases hxval
      rcases hyprov with ⟨h1, _⟩ | ⟨_, e, hee, _, hv, _⟩
      · rw [h1] at hqy
        have h := hmin y hyu
        rw [hqy, hqc] at h
        simp only [jlt, decide_eq_false_iff_not, not_lt] at h
        exact h
      · have hew : 0 < e.weight := hpos e (List.mem_filter.mp hee).1
        rw [hv, hqc] at hqy
        simp only [jadd] at hqy
        cases hqy
        linarith
    · obtain ⟨h1, _⟩ := hout x hx
      rw [h1] at hqx
      have hxu := hnotin x hx hxc
      rcases hyprov with ⟨h2, _⟩ | ⟨_, e, hee, _, hv, _⟩
      · rw [h2] at hqy
        exact hO.mono x qx hxu hids hqx y qy hyu hqy
      · have hew : 0 < e.weight := hpos e (List.mem_filter.mp hee).1
        rw [hv, hqc] at hqy
        simp only [jadd] at hqy
        cases hqy
        have := hO.mono x qx hxu hids hqx c qc hcu hqc
        linarith
  · intro e he hsrc hsids htgt qx hqx
    have htgtu : e.target ∈ u := ((hmemerase e.target).mp htgt).2
    by_cases hsc : e.source = c
    · have hef : e ∈ g.edges.filter (fun e => e.source = c) :=
        List.mem_filter.mpr ⟨he, by simp [hsc]⟩
      have hr := hrelax e hef htgt
      have hqxc : qx = qc := by
        rw [hsc] at hqx
        rw [hcc, hqc] at hqx
        cases hqx
        rfl
      rcases hB'.idsdist e.target (hB.usub e.target htgtu) with hinf | ⟨qy, hqy⟩
      · exfalso
        rw [hinf, hqc] at hr
        simp [jadd, jlt] at hr
      · refine ⟨qy, hqy, ?_⟩
        rw [hqy, hqc] at hr
        simp only [jadd, jlt, decide_eq_false_iff_not, not_lt] at hr
        linarith [hr, hqxc.ge, hqxc.le]
    · obtain ⟨h1, _⟩ := hout e.source hsrc
      rw [h1] at hqx
      obtain ⟨qy, hdy, hb⟩ :=
        hO.relaxC e he (hnotin e.source hsrc hsc) hsids htgtu qx hqx
      rcases hdec e.target with h | h
      · exact ⟨qy, h.trans hdy, hb⟩
      · obtain ⟨qy', hqy'⟩ := jlt_true_val h
        refine ⟨qy', hqy', ?_⟩
        rw [hqy', hdy] at h
        simp only [jlt, decide_eq_true_eq] at h
        linarith

/-- Running the main loop from an invariant state, with positive
weights, well-formed edges and no empty node id: the final state is
invariant, a finite final distance at the target is optimal among all
chains from the source, and an infinite one refutes every chain. -/
theorem dloop_opt (g : Graph) (s t : String) (hpos : PosW g) (hwf : WFE g) (hnei : NEI g)
    (ht : t ∈ nodeIds g) :
    ∀ (fuel : Nat) (u : List String) (dist : String → JNum) (prev : String → JPrev),
      fuel = u.length → DBase g s u dist prev → DOpt g s u dist →
      ∃ u2, DBase g s u2 (dijkstraLoop g t fuel u dist prev).1
          (dijkstraLoop g t fuel u dist prev).2 ∧
        DOpt g s u2 (dijkstraLoop g t fuel u dist prev).1 ∧
        (∀ qt, (dijkstraLoop g t fuel u dist prev).1 t = JNum.val qt →
          ∀ es, isChain g s es t = true → qt ≤ wsum es) ∧
        ((dijkstraLoop g t fuel u dist prev).1 t = JNum.inf →
          ∀ es, isChain g s es t = true → False) := by
  intro fuel
  induction fuel with
  | zero =>
    intro u dist prev hlen hB hO
    have hu : u = [] := List.eq_nil_of_length_eq_zero hlen.symm
    subst hu
    rw [dijkstraLoop_zero]
    refine ⟨[], hB, hO, ?_, ?_⟩
    · intro qt hqt es hch
      exact hO.settledOpt t qt (by simp) ht hqt es hch
    · intro hinf _ _
      obtain ⟨q, hq⟩ := hO.settledVal t (by simp) ht
      dsimp only at hinf
      rw [hinf] at hq
      cases hq
  | succ fuel ih =>
    intro u dist prev hlen hB hO
    rw [dijkstraLoop_succ]
    rcases hfm : findMin dist u with _ | c
    · dsimp only
      refine ⟨u, hB, hO, ?_, ?_⟩
      · intro qt hqt es hch
        by_cases htu : t ∈ u
        · exact absurd hqt (findMin_none dist u hfm t htu qt)
        · exact hO.settledOpt t qt htu ht hqt es hch
      · intro hinf es hch
        by_cases htu : t ∈ u
        · obtain ⟨j, qj, hju, hqj⟩ := chain_u_val g s u dist hwf hO es t hch htu
          exact findMin_none dist u hfm j hju qj hqj
        · obtain ⟨q, hq⟩ := hO.settledVal t htu ht
          rw [hinf] at hq
          cases hq
    · dsimp only
      obtain ⟨hcu, ⟨qc, hqc⟩, _⟩ := findMin_some dist u c hfm
      have hce : ¬ c = "" := hnei c (hB.usub c hcu)
      rw [if_neg hce]
      have hci : ¬ dist c = JNum.inf := by
        rw [hqc]
        intro h
        cases h
      rw [if_neg hci]
      by_cases hct : c = t
      · rw [if_pos hct]
        subst hct
        refine ⟨u, hB, hO, ?_, ?_⟩
        · intro qt hqt es hch
          dsimp only at hqt
          rw [hqc] at hqt
          cases hqt
          exact findMin_chain_bound g s u dist hpos hwf hO c qc hfm hqc es c hch hcu
        · intro hinf _ _
          exact hci hinf
      · rw [if_neg hct]
        have hlen' : fuel = (u.erase c).length := by
          rw [List.length_erase_of_mem hcu]
          omega
        exact ih (u.erase c) _ _ hlen' (dbase_step g s u dist prev c hB hfm)
          (dopt_step g s u dist prev c hpos hwf hB hO hfm)

/-- A graph with an empty-string node id on the only path from A to B:
A→""(1), ""→B(1). -/
def gEmptyId : Graph :=
  ⟨[⟨"A", 0, 0, "A"⟩, ⟨"", 0, 0, ""⟩, ⟨"B", 0, 0, "B"⟩],
   [⟨"e1", "A", "", 1⟩, ⟨"e2", "", "B", 1⟩]⟩

/-- C1: refuted as stated.  The claim quantifies over every graph with
positive weights and every pair of nodes of the graph; on `gEmptyId`
the directed path A→""→B exists and all weights are positive, but
`dijkstra` returns found = false: the empty-string node id is falsy in
JS, so `if (!currentNode) break` aborts the loop when "" is selected,
before B is ever reached. -/
theorem C1_counterexample :
    PosW gEmptyId ∧ "A" ∈ nodeIds gEmptyId ∧ "B" ∈ nodeIds gEmptyId ∧
      Reach gEmptyId "A" "B" ∧
      ∃ r, dijkstra gEmptyId "A" "B" = some r ∧ r.found = false := by
  refine ⟨?_, by with_unfolding_all decide, by with_unfolding_all decide,
    ⟨[⟨"e1", "A", "", 1⟩, ⟨"e2", "", "B", 1⟩], by with_unfolding_all decide⟩,
    ⟨{ found := false, distance := 0, path := [] }, by with_unfolding_all decide, rfl⟩⟩
  intro e he
  fin_cases he <;> norm_num

/-- Full correctness of `dijkstra` under positive weights, well-formed
edges and nonempty node ids: found iff reachable, and a found result
carries an optimal chain whose weight is the returned distance. -/
theorem dijkstra_correct (g : Graph) (s t : String) (hpos : PosW g) (hwf : WFE g) (hnei : NEI g)
    (hs : s ∈ nodeIds g) (ht : t ∈ nodeIds g) :
    ∃ r, dijkstra g s t = some r ∧
      (r.found = true ↔ Reach g s t) ∧
      (r.found = true →
        ∃ es, isChain g s es t = true ∧ r.path = nodeSeq s es ∧ wsum es = r.distance ∧
          r.path.head? = some s ∧ r.path.getLast? = some t ∧
          ∀ es2, isChain g s es2 t = true → r.distance ≤ wsum es2) := by
  obtain ⟨u2, hB, hO, hA, hNB⟩ := dloop_opt g s t hpos hwf hnei ht
    (jsSetOf (nodeIds g)).length (jsSetOf (nodeIds g))
    ((nodeIds g).foldl (fun d n => setKey d n (if n = s then JNum.val 0 else JNum.inf))
      (fun _ => JNum.undef))
    ((nodeIds g).foldl (fun p n => setKey p n JPrev.null) (fun _ => JPrev.undef))
    rfl (dbase_init g s) (dopt_init g s hs)
  set dp := dijkstraLoop g t (jsSetOf (nodeIds g)).length (jsSetOf (nodeIds g))
    ((nodeIds g).foldl (fun d n => setKey d n (if n = s then JNum.val 0 else JNum.inf))
      (fun _ => JNum.undef))
    ((nodeIds g).foldl (fun p n => setKey p n JPrev.null) (fun _ => JPrev.undef)) with hdp
  by_cases hinf : dp.1 t = JNum.inf
  · refine ⟨{ found := false, distance := 0, path := [] }, ?_, ?_, ?_⟩
    · show dijkstraFuel g s t (g.nodes.length + 1) = _
      rw [dijkstraFuel_eq, ← hdp, if_pos hinf]
    · constructor
      · intro h
        simp at h
      · rintro ⟨es, hch⟩
        exact (hNB hinf es hch).elim
    · intro h
      simp at h
  · obtain ⟨qt, hqt⟩ : ∃ qt, dp.1 t = JNum.val qt := by
      rcases hB.idsdist t ht with h | h
      · exact absurd h hinf
      · exact h
    obtain ⟨rank, N, hdesc, _⟩ := hB.rankF
    have hcount : (((nodeIds g).dedup).filter (fun w => rank w < rank t)).length <
        g.nodes.length + 1 := by
      have h1 := List.length_filter_le (fun w => rank w < rank t) ((nodeIds g).dedup)
      have h2 := (List.dedup_sublist (nodeIds g)).length_le
      have h3 : (nodeIds g).length = g.nodes.length := List.length_map _ _
      omega
    obtain ⟨es, hch, hws, hrec⟩ := reconstruct_spec g s dp.1 dp.2 rank
      hB.idsprev
      (fun x y h => ⟨(hB.prevP x y h).1, (hB.prevP x y h).2.2⟩)
      hB.prevNull hdesc (g.nodes.length + 1) t qt ht hqt hcount
    have hwes : wsum es = qt := by
      have := hws 0 hO.szero
      linarith
    refine ⟨{ found := true, distance := jval (dp.1 t), path := nodeSeq s es }, ?_, ?_, ?_⟩
    · show dijkstraFuel g s t (g.nodes.length + 1) = _
      rw [dijkstraFuel_eq, ← hdp, if_neg hinf]
      have h := hrec []
      rw [List.append_nil] at h
      rw [h]
    · exact ⟨fun _ => ⟨es, hch⟩, fun _ => rfl⟩
    · intro _
      refine ⟨es, hch, rfl, ?_, ?_, ?_, ?_⟩
      · rw [hqt]
        exact hwes
      · simp [nodeSeq]
      · exact nodeSeq_last g s t es hch
      · intro es2 hch2
        show jval (dp.1 t) ≤ wsum es2
        rw [hqt]
        exact hA qt hqt es2 hch2

/-- C1 (amended): for graphs with positive weights whose edges
reference existing nodes and whose node ids are nonempty strings (an
empty id is falsy in JS and aborts the loop), and nodes s, t of the
graph, `dijkstra` returns a result with found = true exactly when a
directed path from s to t exists; a found result's path is the node
sequence of a directed chain from s to t (so it starts at s and ends at
t), whose weights sum exactly to the returned distance, and no directed
chain from s to t weighs less. -/
theorem C1_amended (g : Graph) (s t : String) (hpos : PosW g) (hwf : WFE g) (hnei : NEI g)
    (hs : s ∈ nodeIds g) (ht : t ∈ nodeIds g) :
    ∃ r, dijkstra g s t = some r ∧
      (r.found = true ↔ Reach g s t) ∧
      (r.found = true →
        ∃ es, isChain g s es t = true ∧ r.path = nodeSeq s es ∧ wsum es = r.distance ∧
          r.path.head? = some s ∧ r.path.getLast? = some t ∧
          ∀ es2, isChain g s es2 t = true → r.distance ≤ wsum es2) :=
  dijkstra_correct g s t hpos hwf hnei hs ht

/-- C1 (amended) witness: the scenario graph at A→D, where the found
result is concretely path [A,C,D] at distance 10. -/
theorem C1_amended_witness :
    (∃ r, dijkstra gScenario "A" "D" = some r ∧
      (r.found = true ↔ Reach gScenario "A" "D") ∧
      (r.found = true →
        ∃ es, isChain gScenario "A" es "D" = true ∧ r.path = nodeSeq "A" es ∧
          wsum es = r.distance ∧
          r.path.head? = some "A" ∧ r.path.getLast? = some "D" ∧
          ∀ es2, isChain gScenario "A" es2 "D" = true → r.distance ≤ wsum es2)) ∧
    dijkstra gScenario "A" "D" =
      some { found := true, distance := 10, path := ["A", "C", "D"] } :=
  ⟨C1_amended gScenario "A" "D"
    (fun e he => by fin_cases he <;> norm_num)
    (by unfold WFE; with_unfolding_all decide)
    (by unfold NEI; with_unfolding_all decide)
    (by with_unfolding_all decide)
    (by with_unfolding_all decide),
   by with_unfolding_all decide⟩

/-- `jlt` is asymmetric. -/
theorem jlt_asymm {a b : JNum} (h : jlt a b = true) : jlt b a = false := by
  rcases a with _ | _ | x <;> rcases b with _ | _ | y <;> simp_all [jlt]
  linarith

/-- Adding a stored 0 on the left never strictly improves a cell. -/
theorem jlt_jaddN_zero_left (x : JNum) : jlt (jaddN (JNum.val 0) x) x = false := by
  rcases x with _ | _ | q <;> simp [jaddN, jlt]

/-- Adding a stored 0 on the right never strictly improves a cell. -/
theorem jlt_jaddN_zero_right (x : JNum) : jlt (jaddN x (JNum.val 0)) x = false := by
  rcases x with _ | _ | q <;> simp [jaddN, jlt]

/-- No parallel edges with different weights: all edges between the
same ordered endpoints agree in weight (the spec assumes parallel edges
are allowed but `floyd`'s init is order-dependent on them). -/
def NoPar (g : Graph) : Prop := ∀ e1 ∈ g.edges, ∀ e2 ∈ g.edges,
  e1.source = e2.source → e1.target = e2.target → e1.weight = e2.weight

/-- No self-loop edges (a self-loop overwrites `floyd`'s 0 diagonal). -/
def NoSelf (g : Graph) : Prop := ∀ e ∈ g.edges, e.source ≠ e.target

/-- The intermediate nodes of a chain: targets of all but the last
edge. -/
def interNodes (es : List Edge) : List String := (es.map (fun e => e.target)).dropLast

/-- A single edge has no intermediates. -/
theorem interNodes_single (e : Edge) : interNodes [e] = [] := rfl

/-- The empty chain has no intermediates. -/
theorem interNodes_nil : interNodes [] = [] := rfl

/-- Intermediates of a nonempty-tail cons. -/
theorem interNodes_cons (e : Edge) (es : List Edge) (h : es ≠ []) :
    interNodes (e :: es) = e.target :: interNodes es := by
  cases es with
  | nil => exact absurd rfl h
  | cons f es' => rfl

/-- Every edge of a chain is an edge of the graph. -/
theorem chain_edges_mem (g : Graph) : ∀ (es : List Edge) (a b : String),
    isChain g a es b = true → ∀ e ∈ es, e ∈ g.edges := by
  intro es
  induction es with
  | nil =>
    intro a b _ e he
    simp at he
  | cons f es ih =>
    intro a b hch e he
    simp only [isChain, Bool.and_eq_true, decide_eq_true_eq] at hch
    rcases List.mem_cons.mp he with rfl | he
    · exact hch.1.1
    · exact ih f.target b hch.2 e he

/-- Chains concatenate. -/
theorem isChain_append (g : Graph) : ∀ (es1 es2 : List Edge) (a k b : String),
    isChain g a es1 k = true → isChain g k es2 b = true →
    isChain g a (es1 ++ es2) b = true := by
  intro es1
  induction es1 with
  | nil =>
    intro es2 a k b h1 h2
    have : a = k := by simpa [isChain] using h1
    rw [List.nil_append, this]
    exact h2
  | cons e es ih =>
    intro es2 a k b h1 h2
    simp only [isChain, Bool.and_eq_true, decide_eq_true_eq] at h1
    simp only [List.cons_append, isChain, Bool.and_eq_true, decide_eq_true_eq]
    exact ⟨h1.1, ih es2 e.target k b h1.2 h2⟩

/-- In a well-formed graph the intermediates of a chain are node ids. -/
theorem interNodes_sub_ids (g : Graph) (hwf : WFE g) (es : List Edge) (a b : String)
    (hch : isChain g a es b = true) : ∀ x ∈ interNodes es, x ∈ nodeIds g := by
  intro x hx
  have hx' : x ∈ es.map (fun e => e.target) :=
    (List.dropLast_sublist _).subset hx
  obtain ⟨e, he, rfl⟩ := List.mem_map.mp hx'
  exact (hwf e (chain_edges_mem g es a b hch e he)).2

/-- Splitting a chain at the first visit of an intermediate node `k`:
the prefix reaches `k` without `k` among its own intermediates, and
both halves' intermediates come from the whole chain's. -/
theorem chain_split_first (g : Graph) (k : String) :
    ∀ (es : List Edge) (a b : String), isChain g a es b = true → k ∈ interNodes es →
      ∃ es1 es2, es = es1 ++ es2 ∧ isChain g a es1 k = true ∧ isChain g k es2 b = true ∧
        ¬ k ∈ interNodes es1 ∧ 0 < es1.length ∧
        (∀ x ∈ interNodes es1, x ∈ interNodes es) ∧
        (∀ x ∈ interNodes es2, x ∈ interNodes es) := by
  intro es
  induction es with
  | nil =>
    intro a b _ hk
    simp [interNodes] at hk
  | cons e es ih =>
    intro a b hch hk
    simp only [isChain, Bool.and_eq_true, decide_eq_true_eq] at hch
    obtain ⟨⟨he, hsrc⟩, hch'⟩ := hch
    by_cases hne : es = []
    · subst hne
      rw [interNodes_single] at hk
      simp at hk
    · rw [interNodes_cons e es hne] at hk
      by_cases hkt : k = e.target
      · refine ⟨[e], es, rfl, ?_, ?_, ?_, by simp, ?_, ?_⟩
        · simp [isChain, he, hsrc, hkt.symm]
        · rw [hkt]
          exact hch'
        · rw [interNodes_single]
          simp
        · intro x hx
          rw [interNodes_single] at hx
          simp at hx
        · intro x hx
          rw [interNodes_cons e es hne]
          exact List.mem_cons_of_mem _ hx
      · have hk' : k ∈ interNodes es := by
          rcases List.mem_cons.mp hk with h | h
          · exact absurd h hkt
          · exact h
        obtain ⟨es1, es2, heq, hc1, hc2, hk1, hlen1, hsub1, hsub2⟩ :=
          ih e.target b hch' hk'
        have hes1ne : es1 ≠ [] := by
          intro h
          rw [h] at hlen1
          simp at hlen1
        refine ⟨e :: es1, es2, by rw [heq]; rfl, ?_, hc2, ?_, by simp, ?_, ?_⟩
        · simp only [isChain, Bool.and_eq_true, decide_eq_true_eq]
          exact ⟨⟨he, hsrc⟩, hc1⟩
        · rw [interNodes_cons e es1 hes1ne]
          intro h
          rcases List.mem_cons.mp h with h | h
          · exact hkt h
          · exact hk1 h
        · intro x hx
          rw [interNodes_cons e es1 hes1ne] at hx
          rw [interNodes_cons e es hne]
          rcases List.mem_cons.mp hx with h | h
          · exact h ▸ List.mem_cons_self _ _
          · exact List.mem_cons_of_mem _ (hsub1 x h)
        · intro x hx
          rw [interNodes_cons e es hne]
          exact List.mem_cons_of_mem _ (hsub2 x hx)

/-- What the last-edge-wins fold produces: either no edge matched and
the default survives, or some matching edge's weight is the result. -/
theorem lastEdgeVal_spec (i j : String) : ∀ (es : List Edge) (d : JNum),
    ((∀ e ∈ es, ¬ (e.source = i ∧ e.target = j)) ∧ lastEdgeVal i j es d = d) ∨
    (∃ e ∈ es, e.source = i ∧ e.target = j ∧ lastEdgeVal i j es d = JNum.val e.weight) := by
  intro es
  induction es with
  | nil =>
    intro d
    left
    exact ⟨by simp, rfl⟩
  | cons e es ih =>
    intro d
    by_cases hm : (e.source = i && e.target = j) = true
    · have hm' : e.source = i ∧ e.target = j := by simpa using hm
      rcases ih (JNum.val e.weight) with ⟨_, hval⟩ | ⟨e', he', h1, h2, hval⟩
      · right
        refine ⟨e, List.mem_cons_self e es, hm'.1, hm'.2, ?_⟩
        simp only [lastEdgeVal]
        rw [if_pos hm]
        exact hval
      · right
        refine ⟨e', List.mem_cons_of_mem e he', h1, h2, ?_⟩
        simp only [lastEdgeVal]
        rw [if_pos hm]
        exact hval
    · rcases ih d with ⟨hnone, hval⟩ | ⟨e', he', h1, h2, hval⟩
      · left
        refine ⟨?_, ?_⟩
        · intro f hf hfp
          rcases List.mem_cons.mp hf with rfl | hf
          · exact hm (by simp [hfp.1, hfp.2])
          · exact hnone f hf hfp
        · simp only [lastEdgeVal]
          rw [if_neg hm]
          exact hval
      · right
        refine ⟨e', List.mem_cons_of_mem e he', h1, h2, ?_⟩
        simp only [lastEdgeVal]
        rw [if_neg hm]
        exact hval

/-- Evaluation of `floydInit` at a cell with node-id coordinates. -/
theorem floydInit_eval (g : Graph) (i j : String) (hi : i ∈ nodeIds g) (hj : j ∈ nodeIds g) :
    floydInit g i j = lastEdgeVal i j g.edges (if i = j then JNum.val 0 else JNum.inf) := by
  unfold floydInit
  rw [edgeFold_eval]
  congr 1
  rw [foldl_setKey_eval (nodeIds g)
    (fun i => (nodeIds g).foldl
      (fun row j => setKey row j (if i = j then JNum.val 0 else JNum.inf))
      (fun _ => JNum.undef)) _ i]
  rw [if_pos hi]
  rw [foldl_setKey_eval (nodeIds g) (fun j => if i = j then JNum.val 0 else JNum.inf) _ j]
  rw [if_pos hj]

/-- The Floyd-Warshall loop invariant: at node-id cells the matrix is
sound (every finite cell is realized by a chain of exactly that
weight), never `undefined`, and complete for all chains whose
intermediate nodes lie in the processed set `K`. -/
structure FInv (g : Graph) (K : List String) (D : String → String → JNum) : Prop where
  sound : ∀ i j q, i ∈ nodeIds g → j ∈ nodeIds g → D i j = JNum.val q →
    ∃ es, isChain g i es j = true ∧ wsum es = q
  vinf : ∀ i j, i ∈ nodeIds g → j ∈ nodeIds g → D i j = JNum.inf ∨ ∃ q, D i j = JNum.val q
  compl : ∀ i j es, i ∈ nodeIds g → j ∈ nodeIds g → isChain g i es j = true →
    (∀ x ∈ interNodes es, x ∈ K) → ∃ q, D i j = JNum.val q ∧ q ≤ wsum es

/-- Under the invariant and positive weights the diagonal is 0. -/
theorem finv_diag (g : Graph) (K : List String) (D : String → String → JNum)
    (hpos : PosW g) (hI : FInv g K D) :
    ∀ i, i ∈ nodeIds g → D i i = JNum.val 0 := by
  intro i hi
  obtain ⟨q, hq, hle⟩ := hI.compl i i [] hi hi (by simp [isChain])
    (by rw [interNodes_nil]; simp)
  obtain ⟨es, hch, hws⟩ := hI.sound i i q hi hi hq
  have h0 := chain_wsum_nonneg g hpos i i es hch
  have hq0 : q = 0 := by
    simp only [wsum, List.map_nil, List.sum_nil] at hle
    linarith
  rw [hq, hq0]

/-- The invariant holds after initialization (no parallel edges of
different weights, no self-loops). -/
theorem finv_init (g : Graph) (hnp : NoPar g) (hns : NoSelf g) :
    FInv g [] (floydInit g) := by
  refine ⟨?_, ?_, ?_⟩
  · intro i j q hi hj hq
    rw [floydInit_eval g i j hi hj] at hq
    rcases lastEdgeVal_spec i j g.edges (if i = j then JNum.val 0 else JNum.inf) with
      ⟨_, hval⟩ | ⟨e, he, h1, h2, hval⟩
    · rw [hval] at hq
      by_cases hij : i = j
      · rw [if_pos hij] at hq
        cases hq
        subst hij
        exact ⟨[], by simp [isChain], by simp [wsum]⟩
      · rw [if_neg hij] at hq
        cases hq
    · rw [hval] at hq
      cases hq
      exact ⟨[e], by simp [isChain, he, h1, h2], by simp [wsum]⟩
  · intro i j hi hj
    rw [floydInit_eval g i j hi hj]
    rcases lastEdgeVal_spec i j g.edges (if i = j then JNum.val 0 else JNum.inf) with
      ⟨_, hval⟩ | ⟨e, _, _, _, hval⟩
    · rw [hval]
      by_cases hij : i = j
      · rw [if_pos hij]
        exact Or.inr ⟨0, rfl⟩
      · rw [if_neg hij]
        exact Or.inl rfl
    · rw [hval]
      exact Or.inr ⟨e.weight, rfl⟩
  · intro i j es hi hj hch hint
    cases es with
    | nil =>
      have hij : i = j := by simpa [isChain] using hch
      subst hij
      refine ⟨0, ?_, by simp [wsum]⟩
      rw [floydInit_eval g i i hi hi]
      rcases lastEdgeVal_spec i i g.edges (if i = i then JNum.val 0 else JNum.inf) with
        ⟨_, hval⟩ | ⟨e, he, h1, h2, _⟩
      · rw [hval, if_pos rfl]
      · exact absurd (h1.trans h2.symm) (hns e he)
    | cons e es' =>
      cases es' with
      | nil =>
        simp only [isChain, Bool.and_eq_true, decide_eq_true_eq] at hch
        obtain ⟨⟨he, hsrc⟩, htgt⟩ := hch
        rw [floydInit_eval g i j hi hj]
        rcases lastEdgeVal_spec i j g.edges (if i = j then JNum.val 0 else JNum.inf) with
          ⟨hnone, _⟩ | ⟨e', he', h1, h2, hval⟩
        · exact absurd ⟨hsrc, htgt⟩ (hnone e he)
        · refine ⟨e'.weight, hval, ?_⟩
          have hw : e'.weight = e.weight :=
            hnp e' he' e he (h1.trans hsrc.symm) (h2.trans htgt.symm)
          rw [hw]
          simp [wsum]
      | cons f es'' =>
        exfalso
        have : e.target ∈ interNodes (e :: f :: es'') := by
          rw [interNodes_cons e (f :: es'') (by intro h; cases h)]
          exact List.mem_cons_self _ _
        have := hint e.target this
        simp at this

/-- One inner `j`-sweep of `floyd`'s triple loop for a row `i ≠ k`:
only row `i` changes, the pivot cell `(i,k)` survives, every change
installs `D i k + D k b` (values read at sweep start, which the sweep
itself never alters), every swept cell ends at most `D i k + D k b`,
and cells only decrease. -/
theorem floydInner_spec (i k : String) (hik : i ≠ k) (js : List String) :
    ∀ D : String → String → JNum, D k k = JNum.val 0 →
      ∃ D', js.foldl (fun D j =>
          if jlt (jaddN (D i k) (D k j)) (D i j) then
            setCell D i j (jaddN (D i k) (D k j))
          else D) D = D' ∧
        (∀ a b, a ≠ i → D' a b = D a b) ∧
        D' i k = D i k ∧
        (∀ b, D' i b = D i b ∨ (b ∈ js ∧ D' i b = jaddN (D i k) (D k b))) ∧
        (∀ b ∈ js, jlt (jaddN (D i k) (D k b)) (D' i b) = false) ∧
        (∀ b, D' i b = D i b ∨ jlt (D' i b) (D i b) = true) := by
  induction js with
  | nil =>
    intro D _
    exact ⟨D, rfl, fun _ _ _ => rfl, rfl, fun _ => Or.inl rfl, by simp, fun _ => Or.inl rfl⟩
  | cons j js ih =>
    intro D hkk
    simp only [List.foldl_cons]
    by_cases hlt : jlt (jaddN (D i k) (D k j)) (D i j) = true
    · rw [if_pos hlt]
      have hjk : ¬ j = k := by
        intro h
        subst h
        rw [hkk, jlt_jaddN_zero_right] at hlt
        cases hlt
      have hD1_other : ∀ a b, a ≠ i →
          setCell D i j (jaddN (D i k) (D k j)) a b = D a b := by
        intro a b ha
        rw [setCell_apply, if_neg ha]
      have hD1ik : setCell D i j (jaddN (D i k) (D k j)) i k = D i k := by
        rw [setCell_apply, if_pos rfl, if_neg (fun h => hjk h.symm)]
      have hD1kk : setCell D i j (jaddN (D i k) (D k j)) k k = JNum.val 0 :=
        (hD1_other k k (Ne.symm hik)).trans hkk
      have hD1krow : ∀ b, setCell D i j (jaddN (D i k) (D k j)) k b = D k b :=
        fun b => hD1_other k b (Ne.symm hik)
      have hD1ij : setCell D i j (jaddN (D i k) (D k j)) i j = jaddN (D i k) (D k j) := by
        rw [setCell_apply, if_pos rfl, if_pos rfl]
      obtain ⟨D', hfold, hother, hDik, hprov, hrel, hdec⟩ :=
        ih (setCell D i j (jaddN (D i k) (D k j))) hD1kk
      refine ⟨D', hfold, ?_, ?_, ?_, ?_, ?_⟩
      · intro a b ha
        rw [hother a b ha, hD1_other a b ha]
      · rw [hDik, hD1ik]
      · intro b
        rcases hprov b with h | ⟨hb, h⟩
        · by_cases hbj : b = j
          · right
            refine ⟨by rw [hbj]; exact List.mem_cons_self _ _, ?_⟩
            rw [h, setCell_apply, if_pos rfl, if_pos hbj, hbj]
          · left
            rw [h, setCell_apply, if_pos rfl, if_neg hbj]
        · right
          refine ⟨List.mem_cons_of_mem _ hb, ?_⟩
          rw [h, hD1ik, hD1krow b]
      · intro b hb
        rcases List.mem_cons.mp hb with rfl | hb
        · rcases hdec b with h | h
          · rw [h, hD1ij]
            exact jlt_irrefl _
          · rw [hD1ij] at h
            exact jlt_asymm h
        · have hthis := hrel b hb
          rw [hD1ik, hD1krow b] at hthis
          exact hthis
      · intro b
        by_cases hbj : b = j
        · subst hbj
          rcases hdec b with h | h
          · right
            rw [h, hD1ij]
            exact hlt
          · right
            rw [hD1ij] at h
            exact jlt_trans h hlt
        · have hD1ib : setCell D i j (jaddN (D i k) (D k j)) i b = D i b := by
            rw [setCell_apply, if_pos rfl, if_neg hbj]
          rcases hdec b with h | h
          · exact Or.inl (h.trans hD1ib)
          · right
            rw [hD1ib] at h
            exact h
    · rw [if_neg hlt]
      obtain ⟨D', hfold, hother, hDik, hprov, hrel, hdec⟩ := ih D hkk
      refine ⟨D', hfold, hother, hDik, ?_, ?_, hdec⟩
      · intro b
        rcases hprov b with h | ⟨hb, h⟩
        · exact Or.inl h
        · exact Or.inr ⟨List.mem_cons_of_mem _ hb, h⟩
      · intro b hb
        rcases List.mem_cons.mp hb with rfl | hb
        · have hlt' : jlt (jaddN (D i k) (D k b)) (D i b) = false := by
            cases hcase : jlt (jaddN (D i k) (D k b)) (D i b)
            · rfl
            · exact absurd hcase hlt
          exact jlt_mono hlt' (hdec b)
        · exact hrel b hb

/-- The `i = k` sweep never fires: the diagonal 0 makes every candidate
`D k k + D k j` equal to the current `D k j`. -/
theorem floydInnerK_noop (k : String) (js : List String) :
    ∀ D : String → String → JNum, D k k = JNum.val 0 →
      js.foldl (fun D j =>
        if jlt (jaddN (D k k) (D k j)) (D k j) then
          setCell D k j (jaddN (D k k) (D k j))
        else D) D = D := by
  induction js with
  | nil =>
    intro D _
    rfl
  | cons j js ih =>
    intro D hkk
    simp only [List.foldl_cons]
    have hfalse : jlt (jaddN (D k k) (D k j)) (D k j) = false := by
      rw [hkk]
      exact jlt_jaddN_zero_left _
    rw [if_neg (by rw [hfalse]; simp)]
    exact ih D hkk

/-- The full `i`-sweep of round `k`: row `k` and column `k` are
preserved, every cell either keeps its value or holds `D a k + D k b`
over the round-start matrix, every swept cell ends at most that sum,
and cells only decrease. -/
theorem floydMid_spec (k : String) (js0 : List String) :
    ∀ (is : List String) (D : String → String → JNum), D k k = JNum.val 0 →
      ∃ D', is.foldl (fun Di i => js0.foldl (fun D j =>
          if jlt (jaddN (D i k) (D k j)) (D i j) then
            setCell D i j (jaddN (D i k) (D k j))
          else D) Di) D = D' ∧
        (∀ b, D' k b = D k b) ∧
        (∀ a, D' a k = D a k) ∧
        (∀ a b, D' a b = D a b ∨ D' a b = jaddN (D a k) (D k b)) ∧
        (∀ a ∈ is, ∀ b ∈ js0, jlt (jaddN (D a k) (D k b)) (D' a b) = false) ∧
        (∀ a b, D' a b = D a b ∨ jlt (D' a b) (D a b) = true) := by
  intro is
  induction is with
  | nil =>
    intro D _
    exact ⟨D, rfl, fun _ => rfl, fun _ => rfl, fun _ _ => Or.inl rfl, by simp,
      fun _ _ => Or.inl rfl⟩
  | cons a is ih =>
    intro D hkk
    simp only [List.foldl_cons]
    by_cases hak : a = k
    · subst hak
      rw [floydInnerK_noop a js0 D hkk]
      obtain ⟨D', hfold, hrowk, hcolk, hprov, hrel, hdec⟩ := ih D hkk
      refine ⟨D', hfold, hrowk, hcolk, hprov, ?_, hdec⟩
      intro x hx b hb
      rcases List.mem_cons.mp hx with rfl | hx
      · rw [hkk, hrowk b]
        exact jlt_jaddN_zero_left _
      · exact hrel x hx b hb
    · obtain ⟨D1, hfold1, hother1, hik1, hprov1, hrel1, hdec1⟩ :=
        floydInner_spec a k hak js0 D hkk
      rw [hfold1]
      have hD1kk : D1 k k = JNum.val 0 := (hother1 k k (Ne.symm hak)).trans hkk
      have hD1rowk : ∀ b, D1 k b = D k b := fun b => hother1 k b (Ne.symm hak)
      have hD1colk : ∀ x, D1 x k = D x k := by
        intro x
        by_cases hxa : x = a
        · subst hxa
          exact hik1
        · exact hother1 x k hxa
      obtain ⟨D', hfold, hrowk, hcolk, hprov, hrel, hdec⟩ := ih D1 hD1kk
      refine ⟨D', hfold, ?_, ?_, ?_, ?_, ?_⟩
      · intro b
        rw [hrowk b, hD1rowk b]
      · intro x
        rw [hcolk x, hD1colk x]
      · intro x b
        rcases hprov x b with h | h
        · by_cases hxa : x = a
          · subst hxa
            rcases hprov1 b with h1 | ⟨_, h1⟩
            · exact Or.inl (h.trans h1)
            · right
              rw [h, h1]
          · exact Or.inl (h.trans (hother1 x b hxa))
        · right
          rw [h, hD1colk x, hD1rowk b]
      · intro x hx b hb
        rcases List.mem_cons.mp hx with rfl | hx
        · exact jlt_mono (hrel1 b hb) (hdec x b)
        · have h2 := hrel x hx b hb
          rw [hD1colk x, hD1rowk b] at h2
          exact h2
      · intro x b
        by_cases hxa : x = a
        · subst hxa
          rcases hdec x b with h | h
          · rcases hdec1 b with h1 | h1
            · exact Or.inl (h.trans h1)
            · right
              rw [h]
              exact h1
          · rcases hdec1 b with h1 | h1
            · right
              rw [h1] at h
              exact h
            · right
              exact jlt_trans h h1
        · rcases hdec x b with h | h
          · exact Or.inl (h.trans (hother1 x b hxa))
          · right
            rw [hother1 x b hxa] at h
            exact h

/-- One full round of `floyd`'s outer loop turns an invariant state for
the processed set `K` into one for `k :: K`. -/
theorem finv_round (g : Graph) (hpos : PosW g) (K : List String) (k : String)
    (hk : k ∈ nodeIds g) (D : String → String → JNum) (hI : FInv g K D) :
    ∃ D', (nodeIds g).foldl (fun Di i => (nodeIds g).foldl (fun D j =>
        if jlt (jaddN (D i k) (D k j)) (D i j) then
          setCell D i j (jaddN (D i k) (D k j))
        else D) Di) D = D' ∧ FInv g (k :: K) D' := by
  have hkk : D k k = JNum.val 0 := finv_diag g K D hpos hI k hk
  obtain ⟨D', hfold, hrowk, hcolk, hprov, hrel, hdec⟩ :=
    floydMid_spec k (nodeIds g) (nodeIds g) D hkk
  have hvinf' : ∀ i j, i ∈ nodeIds g → j ∈ nodeIds g →
      D' i j = JNum.inf ∨ ∃ q, D' i j = JNum.val q := by
    intro i j hi hj
    rcases hprov i j with h | h
    · rw [h]
      exact hI.vinf i j hi hj
    · rw [h]
      rcases hI.vinf i k hi hk with h1 | ⟨q1, h1⟩ <;>
        rcases hI.vinf k j hk hj with h2 | ⟨q2, h2⟩ <;>
        rw [h1, h2] <;> simp [jaddN]
  refine ⟨D', hfold, ?_, hvinf', ?_⟩
  · intro i j q hi hj hq
    rcases hprov i j with h | h
    · rw [h] at hq
      exact hI.sound i j q hi hj hq
    · rw [h] at hq
      rcases hI.vinf i k hi hk with h1 | ⟨q1, h1⟩
      · rcases hI.vinf k j hk hj with h2 | ⟨q2, h2⟩ <;> rw [h1, h2] at hq <;>
          simp [jaddN] at hq
      · rcases hI.vinf k j hk hj with h2 | ⟨q2, h2⟩
        · rw [h1, h2] at hq
          simp [jaddN] at hq
        · rw [h1, h2] at hq
          simp only [jaddN] at hq
          cases hq
          obtain ⟨es1, hch1, hws1⟩ := hI.sound i k q1 hi hk h1
          obtain ⟨es2, hch2, hws2⟩ := hI.sound k j q2 hk hj h2
          exact ⟨es1 ++ es2, isChain_append g es1 es2 i k j hch1 hch2,
            by rw [wsum_append, hws1, hws2]⟩
  · have main : ∀ (n : Nat) (es : List Edge) (i j : String), es.length ≤ n →
        i ∈ nodeIds g → j ∈ nodeIds g → isChain g i es j = true →
        (∀ x ∈ interNodes es, x ∈ k :: K) →
        ∃ q, D' i j = JNum.val q ∧ q ≤ wsum es := by
      intro n
      induction n with
      | zero =>
        intro es i j hlen hi hj hch hint
        have hes : es = [] := List.eq_nil_of_length_eq_zero (Nat.le_zero.mp hlen)
        subst hes
        have hint' : ∀ x ∈ interNodes ([] : List Edge), x ∈ K := by
          rw [interNodes_nil]
          simp
        obtain ⟨q, hq, hb⟩ := hI.compl i j [] hi hj hch hint'
        rcases hdec i j with h | h
        · exact ⟨q, h.trans hq, hb⟩
        · obtain ⟨q', hq'⟩ := jlt_true_val h
          refine ⟨q', hq', ?_⟩
          rw [hq', hq] at h
          simp only [jlt, decide_eq_true_eq] at h
          linarith
      | succ n ihn =>
        intro es i j hlen hi hj hch hint
        by_cases hkmem : k ∈ interNodes es
        · obtain ⟨es1, es2, heq, hc1, hc2, hk1, hlen1, hsub1, hsub2⟩ :=
            chain_split_first g k es i j hch hkmem
          have hint1 : ∀ x ∈ interNodes es1, x ∈ K := by
            intro x hx
            rcases List.mem_cons.mp (hint x (hsub1 x hx)) with rfl | h
            · exact absurd hx hk1
            · exact h
          obtain ⟨q1, hq1, hb1⟩ := hI.compl i k es1 hi hk hc1 hint1
          have hlen2 : es2.length ≤ n := by
            have hll : es.length = es1.length + es2.length := by
              rw [heq]
              simp
            omega
          have hint2 : ∀ x ∈ interNodes es2, x ∈ k :: K := fun x hx => hint x (hsub2 x hx)
          obtain ⟨q2, hq2, hb2⟩ := ihn es2 k j hlen2 hk hj hc2 hint2
          have hq2' : D k j = JNum.val q2 := (hrowk j).symm.trans hq2
          have hr := hrel i hi j hj
          rw [hq1, hq2'] at hr
          rcases hvinf' i j hi hj with hinf | ⟨q', hq'⟩
          · rw [hinf] at hr
            simp [jaddN, jlt] at hr
          · refine ⟨q', hq', ?_⟩
            rw [hq'] at hr
            simp only [jaddN, jlt, decide_eq_false_iff_not, not_lt] at hr
            have hws : wsum es = wsum es1 + wsum es2 := by
              rw [heq, wsum_append]
            linarith
        · have hint' : ∀ x ∈ interNodes es, x ∈ K := by
            intro x hx
            rcases List.mem_cons.mp (hint x hx) with rfl | h
            · exact absurd hx hkmem
            · exact h
          obtain ⟨q, hq, hb⟩ := hI.compl i j es hi hj hch hint'
          rcases hdec i j with h | h
          · exact ⟨q, h.trans hq, hb⟩
          · obtain ⟨q', hq'⟩ := jlt_true_val h
            refine ⟨q', hq', ?_⟩
            rw [hq', hq] at h
            simp only [jlt, decide_eq_true_eq] at h
            linarith
    intro i j es hi hj hch hint
    exact main es.length es i j (Nat.le_refl _) hi hj hch hint

/-- `floydRelax` unfolded to the nested fold over the node-id list. -/
theorem floydRelax_eq (g : Graph) (D0 : String → String → JNum) :
    floydRelax g D0 = (nodeIds g).foldl (fun Dk k => (nodeIds g).foldl (fun Di i =>
      (nodeIds g).foldl (fun D j =>
        if jlt (jaddN (D i k) (D k j)) (D i j) then setCell D i j (jaddN (D i k) (D k j))
        else D) Di) Dk) D0 := rfl

/-- The outer `k`-loop preserves (and extends) the invariant. -/
theorem floydRelax_inv (g : Graph) (hpos : PosW g) :
    ∀ (ks : List String) (K : List String) (D : String → String → JNum),
      (∀ x ∈ ks, x ∈ nodeIds g) → FInv g K D →
      ∃ K', FInv g K' (ks.foldl (fun Dk k => (nodeIds g).foldl (fun Di i =>
          (nodeIds g).foldl (fun D j =>
            if jlt (jaddN (D i k) (D k j)) (D i j) then
              setCell D i j (jaddN (D i k) (D k j))
            else D) Di) Dk) D) ∧
        (∀ x, x ∈ ks ∨ x ∈ K → x ∈ K') := by
  intro ks
  induction ks with
  | nil =>
    intro K D _ hI
    refine ⟨K, hI, ?_⟩
    intro x hx
    rcases hx with hx | hx
    · simp at hx
    · exact hx
  | cons k ks ih =>
    intro K D hks hI
    simp only [List.foldl_cons]
    obtain ⟨D1, hD1, hI1⟩ := finv_round g hpos K k (hks k (List.mem_cons_self _ _)) D hI
    rw [hD1]
    obtain ⟨K', hI', hK'⟩ := ih (k :: K) D1 (fun x hx => hks x (List.mem_cons_of_mem _ hx)) hI1
    refine ⟨K', hI', ?_⟩
    intro x hx
    rcases hx with hx | hx
    · rcases List.mem_cons.mp hx with rfl | hx
      · exact hK' x (Or.inr (List.mem_cons_self _ _))
      · exact hK' x (Or.inl hx)
    · exact hK' x (Or.inr (List.mem_cons_of_mem _ hx))

/-- The final `floyd` matrix is a fully-processed invariant state. -/
theorem floyd_inv (g : Graph) (hpos : PosW g) (hnp : NoPar g) (hns : NoSelf g) :
    ∃ K', FInv g K' (floyd g) ∧ ∀ x, x ∈ nodeIds g → x ∈ K' := by
  obtain ⟨K', hI, hK'⟩ := floydRelax_inv g hpos (nodeIds g) [] (floydInit g)
    (fun x hx => hx) (finv_init g hnp hns)
  rw [floyd, floydRelax_eq]
  exact ⟨K', hI, fun x hx => hK' x (Or.inl hx)⟩

/-- C2: refuted as stated.  The claim quantifies over every graph; with
the parallel edges A→B(2), A→B(5) (graph `gC3`), dijkstra finds
distance 2 but `floyd`'s last-edge-wins initialization leaves
`distances[A][B] = 5`, which no relaxation improves. -/
theorem C2_counterexample :
    ∃ r, dijkstra gC3 "A" "B" = some r ∧ r.found = true ∧ r.distance = 2 ∧
      floyd gC3 "A" "B" = JNum.val 5 := by
  refine ⟨{ found := true, distance := 2, path := ["A", "B"] },
    by with_unfolding_all decide, rfl, rfl, by with_unfolding_all decide⟩

/-- C2 (amended): on graphs with positive weights, well-formed edges,
nonempty node ids, no parallel edges of differing weights and no
self-loops, the two engines agree: whenever `dijkstra(g, i, j)` finds a
path, `floyd(g)`'s distance cell at `(i, j)` holds exactly the dijkstra
distance. -/
theorem C2_amended (g : Graph) (i j : String) (hpos : PosW g) (hwf : WFE g) (hnei : NEI g)
    (hnp : NoPar g) (hns : NoSelf g) (hi : i ∈ nodeIds g) (hj : j ∈ nodeIds g) :
    ∃ r, dijkstra g i j = some r ∧
      (r.found = true → floyd g i j = JNum.val r.distance) := by
  obtain ⟨r, hr, _, hfound⟩ := dijkstra_correct g i j hpos hwf hnei hi hj
  refine ⟨r, hr, ?_⟩
  intro hf
  obtain ⟨es, hch, _, hws, _, _, hopt⟩ := hfound hf
  obtain ⟨K', hI, hKall⟩ := floyd_inv g hpos hnp hns
  have hint : ∀ x ∈ interNodes es, x ∈ K' :=
    fun x hx => hKall x (interNodes_sub_ids g hwf es i j hch x hx)
  obtain ⟨q, hq, hle⟩ := hI.compl i j es hi hj hch hint
  obtain ⟨es2, hch2, hws2⟩ := hI.sound i j q hi hj hq
  have h2 : r.distance ≤ q := by
    rw [← hws2]
    exact hopt es2 hch2
  have h1 : q ≤ r.distance := by
    rw [← hws]
    exact hle
  rw [hq]
  congr 1
  linarith

/-- C2 (amended) witness: on the scenario graph the engines agree at
(A, D), concretely at value 10. -/
theorem C2_amended_witness :
    (∃ r, dijkstra gScenario "A" "D" = some r ∧
      (r.found = true → floyd gScenario "A" "D" = JNum.val r.distance)) ∧
    floyd gScenario "A" "D" = JNum.val 10 :=
  ⟨C2_amended gScenario "A" "D"
    (fun e he => by fin_cases he <;> norm_num)
    (by unfold WFE; with_unfolding_all decide)
    (by unfold NEI; with_unfolding_all decide)
    (by unfold NoPar; with_unfolding_all decide)
    (by unfold NoSelf; with_unfolding_all decide)
    (by with_unfolding_all decide)
    (by with_unfolding_all decide),
   by with_unfolding_all decide⟩

/-- A nonempty chain in a positively weighted graph has positive
weight. -/
theorem chain_wsum_pos (g : Graph) (hpos : PosW g) (a b : String) (es : List Edge)
    (hch : isChain g a es b = true) (hne : es ≠ []) : 0 < wsum es := by
  cases es with
  | nil => exact absurd rfl hne
  | cons e es' =>
    simp only [isChain, Bool.and_eq_true, decide_eq_true_eq] at hch
    obtain ⟨⟨he, _⟩, hch'⟩ := hch
    have h1 : 0 < e.weight := hpos e he
    have h2 : 0 ≤ wsum es' := chain_wsum_nonneg g hpos e.target b es' hch'
    simp only [wsum, List.map_cons, List.sum_cons]
    have : wsum es' = (es'.map (fun e => e.weight)).sum := rfl
    linarith [this ▸ h2]

/-- Node sequence of a concatenation. -/
theorem nodeSeq_append (a : String) (xs ys : List Edge) :
    nodeSeq a (xs ++ ys) = nodeSeq a xs ++ ys.map (fun e => e.target) := by
  simp [nodeSeq]

/-- If a chain's node sequence visits `x`, the chain splits there. -/
theorem chain_visit (g : Graph) (x : String) :
    ∀ (es : List Edge) (c b : String), isChain g c es b = true → x ∈ nodeSeq c es →
      ∃ m q, es = m ++ q ∧ isChain g c m x = true ∧ isChain g x q b = true := by
  intro es
  induction es with
  | nil =>
    intro c b hch hx
    simp only [nodeSeq, List.map_nil, List.mem_singleton] at hx
    subst hx
    exact ⟨[], [], rfl, by simp [isChain], hch⟩
  | cons e es ih =>
    intro c b hch hx
    simp only [isChain, Bool.and_eq_true, decide_eq_true_eq] at hch
    obtain ⟨⟨he, hsrc⟩, hch'⟩ := hch
    by_cases hxc : x = c
    · subst hxc
      refine ⟨[], e :: es, rfl, by simp [isChain], ?_⟩
      simp only [isChain, Bool.and_eq_true, decide_eq_true_eq]
      exact ⟨⟨he, hsrc⟩, hch'⟩
    · have hx' : x ∈ nodeSeq e.target es := by
        simp only [nodeSeq, List.map_cons, List.mem_cons] at hx
        rcases hx with h | h
        · exact absurd h hxc
        · simp only [nodeSeq, List.mem_cons]
          exact h
      obtain ⟨m, q, heq, hm, hq⟩ := ih e.target b hch' hx'
      refine ⟨e :: m, q, by rw [heq]; rfl, ?_, hq⟩
      simp only [isChain, Bool.and_eq_true, decide_eq_true_eq]
      exact ⟨⟨he, hsrc⟩, hm⟩

/-- A chain that repeats a node can be strictly lightened (positive
weights). -/
theorem chain_shortcut (g : Graph) (hpos : PosW g) :
    ∀ (es : List Edge) (a b : String), isChain g a es b = true →
      ¬ (nodeSeq a es).Nodup → ∃ es', isChain g a es' b = true ∧ wsum es' < wsum es := by
  intro es
  induction es with
  | nil =>
    intro a b _ hdup
    exact absurd (by simp [nodeSeq]) hdup
  | cons e es ih =>
    intro a b hch hdup
    simp only [isChain, Bool.and_eq_true, decide_eq_true_eq] at hch
    obtain ⟨⟨he, hsrc⟩, hch'⟩ := hch
    have hwe : 0 < e.weight := hpos e he
    have hseq : nodeSeq a (e :: es) = a :: nodeSeq e.target es := by
      simp [nodeSeq]
    rw [hseq, List.nodup_cons] at hdup
    by_cases hmem : a ∈ nodeSeq e.target es
    · obtain ⟨m, q, heq, hm, hq⟩ := chain_visit g a es e.target b hch' hmem
      refine ⟨q, hq, ?_⟩
      have hwm : 0 ≤ wsum m := chain_wsum_nonneg g hpos e.target a m hm
      have : wsum (e :: es) = e.weight + (wsum m + wsum q) := by
        rw [heq]
        simp only [wsum, List.map_cons, List.sum_cons, List.map_append, List.sum_append]
      linarith [this]
    · have hdup' : ¬ (nodeSeq e.target es).Nodup := by
        intro h
        exact hdup ⟨hmem, h⟩
      obtain ⟨es', hch'', hlt⟩ := ih e.target b hch' hdup'
      refine ⟨e :: es', ?_, ?_⟩
      · simp only [isChain, Bool.and_eq_true, decide_eq_true_eq]
        exact ⟨⟨he, hsrc⟩, hch''⟩
      · simp only [wsum, List.map_cons, List.sum_cons]
        have h1 : wsum es' = (es'.map (fun e => e.weight)).sum := rfl
        have h2 : wsum es = (es.map (fun e => e.weight)).sum := rfl
        linarith [h1 ▸ h2 ▸ hlt]

/-- A rank function increasing along edges bounds every chain's
length. -/
theorem chain_length_rank (g : Graph) (rank : String → Nat)
    (hr : ∀ e ∈ g.edges, rank e.source < rank e.target) :
    ∀ (es : List Edge) (a b : String), isChain g a es b = true →
      rank a + es.length ≤ rank b := by
  intro es
  induction es with
  | nil =>
    intro a b hch
    have : a = b := by simpa [isChain] using hch
    subst this
    simp
  | cons e es ih =>
    intro a b hch
    simp only [isChain, Bool.and_eq_true, decide_eq_true_eq] at hch
    obtain ⟨⟨he, hsrc⟩, hch'⟩ := hch
    have h1 : rank e.source < rank e.target := hr e he
    have h2 := ih e.target b hch'
    rw [← hsrc]
    simp only [List.length_cons]
    omega

/-- All chains from `a` of length at most `n`, paired with their
endpoints. -/
def chainsLe (g : Graph) (a : String) : Nat → List (List Edge × String)
  | 0 => [([], a)]
  | n + 1 => chainsLe g a n ++ (chainsLe g a n).flatMap (fun p =>
      (g.edges.filter (fun e => e.source = p.2)).map (fun e => (p.1 ++ [e], e.target)))

/-- Every chain of length at most `n` occurs in `chainsLe`. -/
theorem chainsLe_complete (g : Graph) (a : String) :
    ∀ (n : Nat) (es : List Edge) (b : String), isChain g a es b = true →
      es.length ≤ n → (es, b) ∈ chainsLe g a n := by
  intro n
  induction n with
  | zero =>
    intro es b hch hlen
    have hes : es = [] := List.eq_nil_of_length_eq_zero (Nat.le_zero.mp hlen)
    subst hes
    have : a = b := by simpa [isChain] using hch
    subst this
    simp [chainsLe]
  | succ n ih =>
    intro es b hch hlen
    rcases Nat.lt_or_ge es.length (n + 1) with h | h
    · exact List.mem_append_left _ (ih es b hch (by omega))
    · have hne : es ≠ [] := by
        intro hnil
        rw [hnil] at h
        simp at h
      obtain ⟨es', e, rfl⟩ : ∃ es' e, es = es' ++ [e] := by
        rcases List.eq_nil_or_concat es with hnil | ⟨es', e, heq⟩
        · exact absurd hnil hne
        · exact ⟨es', e, by rw [heq, List.concat_eq_append]⟩
      obtain ⟨hch', he, htgt⟩ := isChain_unsnoc g a b es' e hch
      have hlen' : es'.length ≤ n := by
        rw [List.length_append] at hlen
        simp at hlen
        omega
      apply List.mem_append_right
      rw [List.mem_flatMap]
      refine ⟨(es', e.source), ih es' e.source hch' hlen', ?_⟩
      rw [List.mem_map]
      refine ⟨e, List.mem_filter.mpr ⟨he, by simp⟩, ?_⟩
      rw [htgt]

/-- The C6 counterexample graph: positive weights, well-formed edges,
but a node whose id is the empty string.  The unique shortest S→T path
is S→A→C→T (weight 5). -/
def gC6 : Graph :=
  ⟨[⟨"S", 0, 0, "S"⟩, ⟨"A", 0, 0, "A"⟩, ⟨"", 0, 0, ""⟩, ⟨"C", 0, 0, "C"⟩,
    ⟨"T", 0, 0, "T"⟩],
   [⟨"e1", "S", "A", 3⟩, ⟨"e2", "S", "", 3⟩, ⟨"e3", "S", "C", 5⟩,
    ⟨"e4", "A", "C", 1⟩, ⟨"e5", "C", "T", 1⟩, ⟨"e6", "A", "T", 5⟩]⟩

/-- The unique shortest S→T chain of `gC6`. -/
def es0C6 : List Edge := [⟨"e1", "S", "A", 3⟩, ⟨"e4", "A", "C", 1⟩, ⟨"e5", "C", "T", 1⟩]

/-- A topological rank for `gC6`. -/
def rankC6 (x : String) : Nat :=
  if x = "S" then 0 else if x = "A" then 1 else if x = "" then 2
  else if x = "C" then 3 else 4

/-- In `gC6` the chain S→A→C→T is the strictly unique minimum-weight
chain from S to T. -/
theorem gC6_unique :
    (∀ es, isChain gC6 "S" es "T" = true → wsum es0C6 ≤ wsum es) ∧
    (∀ es, isChain gC6 "S" es "T" = true → wsum es = wsum es0C6 → es = es0C6) := by
  have hrank : ∀ e ∈ gC6.edges, rankC6 e.source < rankC6 e.target := by
    with_unfolding_all decide
  have hball : ∀ p ∈ chainsLe gC6 "S" 4, p.2 = "T" →
      wsum es0C6 ≤ wsum p.1 ∧ (wsum p.1 = wsum es0C6 → p.1 = es0C6) := by
    with_unfolding_all decide
  have hlen : ∀ es, isChain gC6 "S" es "T" = true → es.length ≤ 4 := by
    intro es hch
    have h := chain_length_rank gC6 rankC6 hrank es "S" "T" hch
    have h1 : rankC6 "S" = 0 := rfl
    have h2 : rankC6 "T" = 4 := rfl
    omega
  constructor
  · intro es hch
    exact (hball (es, "T") (chainsLe_complete gC6 "S" 4 es "T" hch (hlen es hch)) rfl).1
  · intro es hch heq
    exact (hball (es, "T") (chainsLe_complete gC6 "S" 4 es "T" hch (hlen es hch)) rfl).2 heq

/-- C6: refuted as stated.  The claim quantifies over every graph with
a unique shortest path; `gC6` has positive weights, well-formed edges
and the strictly unique shortest path S→A→C→T, yet fixed routing
returns [S,A,T] while datagram (= adaptive = experience) returns
[S,A,C,T]: running dijkstra from S, the empty-id node (distance 3) is
selected before C (distance 4) and the falsy `!currentNode` break stops
relaxation, so S's table and the fixed route lock in the direct edge
A→T; the per-node run from A never selects the empty node, finds the
true suffix A→C→T, and the two strategies diverge. -/
theorem C6_counterexample :
    PosW gC6 ∧ WFE gC6 ∧
    isChain gC6 "S" es0C6 "T" = true ∧
    (∀ es, isChain gC6 "S" es "T" = true → wsum es0C6 ≤ wsum es) ∧
    (∀ es, isChain gC6 "S" es "T" = true → wsum es = wsum es0C6 → es = es0C6) ∧
    findFixedRoute gC6 "S" "T" = ["S", "A", "T"] ∧
    findDatagramRoute (buildRoutingTables gC6) "S" "T" = ["S", "A", "C", "T"] ∧
    findFixedRoute gC6 "S" "T" ≠ findDatagramRoute (buildRoutingTables gC6) "S" "T" := by
  refine ⟨?_, by unfold WFE; with_unfolding_all decide, by with_unfolding_all decide,
    gC6_unique.1, gC6_unique.2, ?_, ?_, ?_⟩
  · intro e he
    fin_cases he <;> norm_num
  · with_unfolding_all decide
  · with_unfolding_all decide
  · with_unfolding_all decide

/-- Every routing entry with a given destination records the nextHop
and distance of the corresponding dijkstra run. -/
theorem rtEntries_dest (g : Graph) (v t : String) :
    ∀ e ∈ rtEntries g v, e.destination = t →
      ∃ r, dijkstra g v t = some r ∧ r.found = true ∧ 1 < r.path.length ∧
        e.nextHop = r.path.getD 1 "" ∧ e.distance = r.distance := by
  intro e he hdest
  rw [rtEntries, List.mem_filterMap] at he
  obtain ⟨dn, _, hfe⟩ := he
  cases hd : dijkstra g v dn.id with
  | none =>
    rw [hd] at hfe
    dsimp only at hfe
    cases hfe
  | some r =>
    rw [hd] at hfe
    dsimp only at hfe
    by_cases hc : (r.found && decide (r.path.length > 1)) = true
    · rw [if_pos hc] at hfe
      cases hfe
      have hdn : dn.id = t := hdest
      rw [hdn] at hd
      simp only [Bool.and_eq_true, decide_eq_true_eq] at hc
      exact ⟨r, hd, hc.1, hc.2, rfl, rfl⟩
    · rw [if_neg hc] at hfe
      cases hfe

/-- When dijkstra finds a long-enough path to another node, the routing
row has an entry for it. -/
theorem rtEntries_exists (g : Graph) (v t : String) (ht : t ∈ nodeIds g) (hvt : v ≠ t)
    (r : PathResult) (hr : dijkstra g v t = some r) (hf : r.found = true)
    (hlen : 1 < r.path.length) :
    ∃ e ∈ rtEntries g v, e.destination = t := by
  obtain ⟨nd, hnd, hndid⟩ : ∃ nd, nd ∈ g.nodes ∧ nd.id = t := by
    obtain ⟨nd, h1, h2⟩ := List.mem_map.mp ht
    exact ⟨nd, h1, h2⟩
  refine ⟨{ destination := t, nextHop := r.path.getD 1 "", distance := r.distance }, ?_, rfl⟩
  rw [rtEntries, List.mem_filterMap]
  refine ⟨nd, List.mem_filter.mpr ⟨hnd, ?_⟩, ?_⟩
  · simp only [hndid, decide_eq_true_eq]
    exact fun h => hvt h.symm
  · rw [hndid, hr]
    dsimp only
    rw [if_pos (by simp [hf, hlen])]

/-- The `find` on a routing row succeeds and returns dijkstra's first
hop. -/
theorem entry_find (g : Graph) (v t : String) (ht : t ∈ nodeIds g) (hvt : v ≠ t)
    (r : PathResult) (hr : dijkstra g v t = some r) (hf : r.found = true)
    (hlen : 1 < r.path.length) :
    ∃ entry, (rtEntries g v).find? (fun e => e.destination = t) = some entry ∧
      entry.nextHop = r.path.getD 1 "" := by
  obtain ⟨e0, he0, hd0⟩ := rtEntries_exists g v t ht hvt r hr hf hlen
  have hsome : ((rtEntries g v).find? (fun e => e.destination = t)).isSome := by
    rw [List.find?_isSome]
    exact ⟨e0, he0, by simp [hd0]⟩
  obtain ⟨entry, hentry⟩ := Option.isSome_iff_exists.mp hsome
  have hmem := List.mem_of_find?_eq_some hentry
  have hpred := List.find?_some hentry
  simp only [decide_eq_true_eq] at hpred
  obtain ⟨r', hr', _, _, hnext, _⟩ := rtEntries_dest g v t entry hmem hpred
  rw [hr] at hr'
  cases hr'
  exact ⟨entry, hentry, hnext⟩

/-- On a node `v` of the unique shortest s→t chain, dijkstra from `v`
returns exactly the remaining suffix of that chain. -/
theorem suffix_dijkstra (g : Graph) (s t : String) (hpos : PosW g) (hwf : WFE g)
    (hnei : NEI g) (ht : t ∈ nodeIds g) (es0 : List Edge)
    (hmin : ∀ es, isChain g s es t = true → wsum es0 ≤ wsum es)
    (huniq : ∀ es, isChain g s es t = true → wsum es = wsum es0 → es = es0)
    (p q : List Edge) (v : String) (heq : es0 = p ++ q)
    (hp : isChain g s p v = true) (hq : isChain g v q t = true)
    (hv : v ∈ nodeIds g) :
    ∃ r, dijkstra g v t = some r ∧ r.found = true ∧ r.path = nodeSeq v q ∧
      r.distance = wsum q := by
  obtain ⟨r, hr, hiff, hfound⟩ := dijkstra_correct g v t hpos hwf hnei hv ht
  have hf : r.found = true := hiff.mpr ⟨q, hq⟩
  obtain ⟨esv, hchv, hpath, hws, _, _, hopt⟩ := hfound hf
  have hle : wsum esv ≤ wsum q := by
    rw [hws]
    exact hopt q hq
  have hfull : isChain g s (p ++ esv) t = true := isChain_append g p esv s v t hp hchv
  have hwfull : wsum (p ++ esv) ≤ wsum es0 := by
    rw [wsum_append, heq, wsum_append]
    linarith
  have heqw : wsum (p ++ esv) = wsum es0 := le_antisymm hwfull (hmin _ hfull)
  have hcat := huniq (p ++ esv) hfull heqw
  rw [heq] at hcat
  have hesv : esv = q := List.append_cancel_left hcat
  subst hesv
  exact ⟨r, hr, hf, hpath, by rw [← hws]⟩

/-- The last element of a list is a member. -/
theorem mem_of_getLast_some (l : List String) (x : String) (h : l.getLast? = some x) :
    x ∈ l := by
  have hx : x ∈ l.getLast? := by
    rw [Option.mem_def, h]
  obtain ⟨hne, heq⟩ := List.mem_getLast?_eq_getLast hx
  rw [heq]
  exact List.getLast_mem hne

/-- The datagram walk from any node of the unique shortest chain
follows exactly the chain's remaining node sequence. -/
theorem datagram_follows (g : Graph) (s t : String) (hpos : PosW g) (hwf : WFE g)
    (hnei : NEI g) (hs : s ∈ nodeIds g) (ht : t ∈ nodeIds g) (es0 : List Edge)
    (hmin : ∀ es, isChain g s es t = true → wsum es0 ≤ wsum es)
    (huniq : ∀ es, isChain g s es t = true → wsum es = wsum es0 → es = es0)
    (hnd : (nodeSeq s es0).Nodup) :
    ∀ (q p : List Edge) (v : String) (visited : List String) (fuel : Nat),
      es0 = p ++ q → isChain g s p v = true → isChain g v q t = true →
      (∀ x ∈ visited, x ∈ nodeSeq s p ∧ x ≠ v) → q.length + 1 ≤ fuel →
      findDatagramRouteFuel (buildRoutingTables g) t fuel v visited =
        some (nodeSeq v q) := by
  intro q
  induction q with
  | nil =>
    intro p v visited fuel heq hp hq hvis hfuel
    have hvt : v = t := by simpa [isChain] using hq
    subst hvt
    obtain ⟨fuel', rfl⟩ : ∃ f, fuel = f + 1 := ⟨fuel - 1, by omega⟩
    rw [datagramFuel_succ, if_pos rfl]
    rfl
  | cons e q ih =>
    intro p v visited fuel heq hp hq hvis hfuel
    have htlast := nodeSeq_last g v t (e :: q) hq
    simp only [isChain, Bool.and_eq_true, decide_eq_true_eq] at hq
    obtain ⟨⟨he, hsrc⟩, hq'⟩ := hq
    have hv : v ∈ nodeIds g := by
      rw [← hsrc]
      exact (hwf e he).1
    have hseq : nodeSeq s es0 = nodeSeq s p ++ (e :: q).map (fun e => e.target) := by
      rw [heq, nodeSeq_append]
    have hnd2 : (nodeSeq s p ++ (e :: q).map (fun e => e.target)).Nodup := hseq ▸ hnd
    have hdisj : ∀ x ∈ nodeSeq s p, ¬ x ∈ (e :: q).map (fun e => e.target) :=
      fun x hx hx2 => (List.disjoint_of_nodup_append hnd2) hx hx2
    have hvp : v ∈ nodeSeq s p := by
      have h := nodeSeq_last g s v p hp
      exact mem_of_getLast_some _ _ h
    have htmem : t ∈ (e :: q).map (fun e => e.target) := by
      have h1 : nodeSeq v (e :: q) = v :: (e :: q).map (fun e => e.target) := rfl
      rw [h1] at htlast
      have h2 : (e :: q).map (fun e => e.target) =
          e.target :: q.map (fun e => e.target) := rfl
      rw [h2] at htlast ⊢
      rw [List.getLast?_cons_cons] at htlast
      exact mem_of_getLast_some _ _ htlast
    have hvt : ¬ v = t := by
      intro h
      exact hdisj v hvp (h ▸ htmem)
    have hvisv : ¬ v ∈ visited := fun hm => (hvis v hm).2 rfl
    obtain ⟨fuel', rfl⟩ : ∃ f, fuel = f + 1 := ⟨fuel - 1, by omega⟩
    rw [datagramFuel_succ, if_neg hvt, if_neg hvisv, rtFind_build g v hv]
    dsimp only
    obtain ⟨r, hr, hf, hpath, _⟩ := suffix_dijkstra g s t hpos hwf hnei ht es0 hmin huniq
      p (e :: q) v heq hp (by
        simp only [isChain, Bool.and_eq_true, decide_eq_true_eq]
        exact ⟨⟨he, hsrc⟩, hq'⟩) hv
    have hlen : 1 < r.path.length := by
      rw [hpath]
      simp [nodeSeq]
    obtain ⟨entry, hfind, hnext⟩ := entry_find g v t ht hvt r hr hf hlen
    rw [hfind]
    dsimp only
    have hnext2 : entry.nextHop = e.target := by
      rw [hnext, hpath]
      rfl
    have hstep := ih (p ++ [e]) e.target (v :: visited) fuel'
      (by rw [heq, List.append_assoc]; rfl)
      (isChain_snoc g s v p e hp he hsrc) hq'
      (by
        intro x hx
        have hetmem : e.target ∈ (e :: q).map (fun e => e.target) :=
          List.mem_cons_self _ _
        rcases List.mem_cons.mp hx with rfl | hx2
        · refine ⟨?_, ?_⟩
          · rw [nodeSeq_append]
            exact List.mem_append_left _ hvp
          · intro hcon
            exact hdisj x hvp (hcon ▸ hetmem)
        · obtain ⟨h1, _⟩ := hvis x hx2
          refine ⟨?_, ?_⟩
          · rw [nodeSeq_append]
            exact List.mem_append_left _ h1
          · intro hcon
            exact hdisj x h1 (hcon ▸ hetmem))
      (by
        simp only [List.length_cons] at hfuel
        omega)
    rw [hnext2, hstep]
    dsimp only
    rw [if_neg (by simp [nodeSeq])]
    rfl

/-- C6 (amended): on a graph with positive weights, well-formed edges
and nonempty node ids, whenever the shortest chain from node s to node
t is STRICTLY unique, the four strategies agree: fixed returns exactly
its node sequence, datagram returns the same, and adaptive and
experience are definitionally datagram. -/
theorem C6_amended (g : Graph) (s t : String) (hpos : PosW g) (hwf : WFE g) (hnei : NEI g)
    (hs : s ∈ nodeIds g) (ht : t ∈ nodeIds g) (es0 : List Edge)
    (hch0 : isChain g s es0 t = true)
    (hmin : ∀ es, isChain g s es t = true → wsum es0 ≤ wsum es)
    (huniq : ∀ es, isChain g s es t = true → wsum es = wsum es0 → es = es0) :
    findFixedRoute g s t = nodeSeq s es0 ∧
    findDatagramRoute (buildRoutingTables g) s t = nodeSeq s es0 ∧
    findAdaptiveRoute g (buildRoutingTables g) s t =
      findDatagramRoute (buildRoutingTables g) s t ∧
    findExperienceRoute (buildRoutingTables g) s t =
      findDatagramRoute (buildRoutingTables g) s t := by
  have hnd : (nodeSeq s es0).Nodup := by
    by_contra hdup
    obtain ⟨es', hch', hlt⟩ := chain_shortcut g hpos es0 s t hch0 hdup
    have := hmin es' hch'
    linarith
  refine ⟨?_, ?_, rfl, rfl⟩
  · obtain ⟨r, hr, hf, hpath, _⟩ := suffix_dijkstra g s t hpos hwf hnei ht es0 hmin huniq
      [] es0 s rfl (by simp [isChain]) hch0 hs
    rw [findFixedRoute, hr]
    dsimp only
    rw [if_pos hf, hpath]
  · have hsub : ∀ x ∈ nodeSeq s es0, x ∈ nodeIds g := by
      intro x hx
      simp only [nodeSeq, List.mem_cons] at hx
      rcases hx with rfl | hx
      · exact hs
      · obtain ⟨e, he, rfl⟩ := List.mem_map.mp hx
        exact (hwf e (chain_edges_mem g es0 s t hch0 e he)).2
    have hcard : (nodeSeq s es0).length ≤ (nodeIds g).dedup.length := by
      have h1 : (nodeSeq s es0).toFinset.card = (nodeSeq s es0).length :=
        List.toFinset_card_of_nodup hnd
      have h2 : (nodeSeq s es0).toFinset ⊆ (nodeIds g).toFinset := by
        intro x hx
        rw [List.mem_toFinset]
        exact hsub x (List.mem_toFinset.mp hx)
      have h3 := Finset.card_le_card h2
      have h4 : (nodeIds g).toFinset.card = (nodeIds g).dedup.length :=
        List.card_toFinset (nodeIds g)
      omega
    have h5 : (nodeIds g).dedup.length ≤ (nodeIds g).length :=
      (List.dedup_sublist _).length_le
    have h6 : (nodeIds g).length = g.nodes.length := List.length_map _ _
    have h7 : (buildRoutingTables g).length = g.nodes.length := by
      rw [buildRoutingTables_eq]
      exact List.length_map _ _
    have h8 : (nodeSeq s es0).length = es0.length + 1 := by
      simp [nodeSeq]
    have hrun := datagram_follows g s t hpos hwf hnei hs ht es0 hmin huniq hnd
      es0 [] s [] ((buildRoutingTables g).length + 1) (by simp) (by simp [isChain]) hch0
      (by simp) (by omega)
    rw [findDatagramRoute, hrun]
    rfl

/-- The unique shortest chain of the C6 witness: B→C→D on the scenario
graph. -/
def es0BD : List Edge := [⟨"e2", "B", "C", 3⟩, ⟨"e4", "C", "D", 2⟩]

/-- A topological rank for the scenario graph. -/
def rankScen (x : String) : Nat :=
  if x = "A" then 0 else if x = "B" then 1 else if x = "C" then 2 else 3

/-- On the scenario graph the chain B→C→D is the strictly unique
minimum-weight chain from B to D. -/
theorem gScenarioBD_unique :
    (∀ es, isChain gScenario "B" es "D" = true → wsum es0BD ≤ wsum es) ∧
    (∀ es, isChain gScenario "B" es "D" = true → wsum es = wsum es0BD → es = es0BD) := by
  have hrank : ∀ e ∈ gScenario.edges, rankScen e.source < rankScen e.target := by
    with_unfolding_all decide
  have hball : ∀ p ∈ chainsLe gScenario "B" 3, p.2 = "D" →
      wsum es0BD ≤ wsum p.1 ∧ (wsum p.1 = wsum es0BD → p.1 = es0BD) := by
    with_unfolding_all decide
  have hlen : ∀ es, isChain gScenario "B" es "D" = true → es.length ≤ 3 := by
    intro es hch
    have h := chain_length_rank gScenario rankScen hrank es "B" "D" hch
    have h1 : rankScen "B" = 1 := rfl
    have h2 : rankScen "D" = 3 := rfl
    omega
  constructor
  · intro es hch
    exact (hball (es, "D")
      (chainsLe_complete gScenario "B" 3 es "D" hch (hlen es hch)) rfl).1
  · intro es hch heq
    exact (hball (es, "D")
      (chainsLe_complete gScenario "B" 3 es "D" hch (hlen es hch)) rfl).2 heq

/-- C6 (amended) witness: on the scenario graph from B to D, where the
shortest chain B→C→D is strictly unique, all four strategies return
[B, C, D]. -/
theorem C6_amended_witness :
    findFixedRoute gScenario "B" "D" = nodeSeq "B" es0BD ∧
    findDatagramRoute (buildRoutingTables gScenario) "B" "D" = nodeSeq "B" es0BD ∧
    findAdaptiveRoute gScenario (buildRoutingTables gScenario) "B" "D" =
      findDatagramRoute (buildRoutingTables gScenario) "B" "D" ∧
    findExperienceRoute (buildRoutingTables gScenario) "B" "D" =
      findDatagramRoute (buildRoutingTables gScenario) "B" "D" :=
  C6_amended gScenario "B" "D"
    (fun e he => by fin_cases he <;> norm_num)
    (by unfold WFE; with_unfolding_all decide)
    (by unfold NEI; with_unfolding_all decide)
    (by with_unfolding_all decide)
    (by with_unfolding_all decide)
    es0BD
    (by with_unfolding_all decide)
    gScenarioBD_unique.1
    gScenarioBD_unique.2
